import Mathlib

/-!
# Order-statistic trees of `Benchmark.cpp`

A shallow embedding of the two size-augmented balanced search trees of the
repository, `SensorAVL` ("Versao aprimorada_AVL tree.cpp") and
`SensorRedBlack` ("versao aprimorada_Rubro negra.cpp"), and proofs about
their invariants and queries.  The other containers of the file follow: the
two-heap `SensorHeap`, the sorted vector `SensorListaOrdenada`, and the three
containers of the benchmark, `MinHeapCustomizado`, `ArvoreBalanceada` and
`ListaOrdenadaManual`.

Modelling conventions.

* A `Node*` is a value of the inductive type `Node`; `Node.null` is `nullptr`.
  The trees of the program are never shared or cyclic, so in-place mutation
  of a node is the construction of a new value.
* Keys are `double` in the source and are read as exact rationals (`ℚ`);
  NaN and rounding are outside the model.
* The `int` counters (`height`, `size`, ranks `k`) are unbounded integers
  (`ℤ`): the model covers trees of fewer than `2^31` nodes.  Division and
  remainder of `int` are the truncating `Int.tdiv` and `Int.tmod`.
* A function that dereferences a pointer returns `Option`; `none` stands
  for the dereference of `nullptr`.
* Functions that print to `cout` return the list of printed values.
* A `std::vector<double>` is a `List ℚ`, an index or iterator into it a
  natural number; a `std::priority_queue` is the list of its values in the
  order `top()` / `pop()` deliver them.
-/

namespace SensorAVL

/-- A `Node*` of the AVL file: `null` is `nullptr`, `mk` carries the fields
`key`, `height`, `size`, `left`, `right` of `struct Node`. -/
inductive Node where
  | null : Node
  | mk (key : ℚ) (height : ℤ) (size : ℤ) (left : Node) (right : Node) : Node
  deriving DecidableEq

/-- The test `n == nullptr`. -/
def Node.isNull : Node → Bool
  | .null => true
  | .mk _ _ _ _ _ => false

/-- Source function `height(n)`: the stored height, 0 for `nullptr`. -/
def height : Node → ℤ
  | .null => 0
  | .mk _ h _ _ _ => h

/-- Source function `getSize(n)`: the stored size, 0 for `nullptr`. -/
def getSize : Node → ℤ
  | .null => 0
  | .mk _ _ s _ _ => s

/-- Source function `update(n)`: recompute `height` and `size` of `n` from its children. -/
def update : Node → Node
  | .null => .null
  | .mk key _ _ left right =>
    .mk key (1 + max (height left) (height right)) (1 + getSize left + getSize right) left right

/-- Source function `getBalance(n)`: balance factor from the stored heights of the children. -/
def getBalance : Node → ℤ
  | .null => 0
  | .mk _ _ _ left right => height left - height right

/-- Source function `rightRotate(y)`: `x = y->left; T2 = x->right; x->right = y; y->left = T2;
update(y); update(x); return x`.  `none` when `y` or `y->left` is `nullptr`. -/
def rightRotate : Node → Option Node
  | .mk ky hy sy (.mk kx hx sx xl T2) yr =>
    some (update (.mk kx hx sx xl (update (.mk ky hy sy T2 yr))))
  | _ => none

/-- Source function `leftRotate(x)`: `y = x->right; T2 = y->left; y->left = x; x->right = T2;
update(x); update(y); return y`.  `none` when `x` or `x->right` is `nullptr`. -/
def leftRotate : Node → Option Node
  | .mk kx hx sx xl (.mk ky hy sy T2 yr) =>
    some (update (.mk ky hy sy (update (.mk kx hx sx xl T2)) yr))
  | _ => none

/-- Step 3 ("Balancear") of `insert(Node*, double)`, run on the node already
updated.  The four guarded returns of the source are grouped by the sign of
`balance`; `node->left->key` and `node->right->key` are dereferences, hence
`none` when that child is `nullptr`.  On `nullptr` the balance is 0 and the
block returns `node`. -/
def insertBalance (node : Node) (key : ℚ) : Option Node :=
  match node with
  | .null => some .null
  | .mk k h s left right =>
    let balance := getBalance (.mk k h s left right)
    if balance > 1 then
      match left with
      | .null => none
      | .mk lk lh ls ll lr =>
        if key < lk then
          -- Caso Esquerda-Esquerda
          rightRotate (.mk k h s left right)
        else
          -- Caso Esquerda-Direita
          match leftRotate (.mk lk lh ls ll lr) with
          | none => none
          | some left' => rightRotate (.mk k h s left' right)
    else if balance < -1 then
      match right with
      | .null => none
      | .mk rk rh rs rl rr =>
        if key ≥ rk then
          -- Caso Direita-Direita
          leftRotate (.mk k h s left right)
        else
          -- Caso Direita-Esquerda
          match rightRotate (.mk rk rh rs rl rr) with
          | none => none
          | some right' => leftRotate (.mk k h s left right')
    else some (.mk k h s left right)

/-- Source function `insert(Node* node, double key)`: BST descent (duplicates go right),
`update(node)`, then rebalancing. -/
def insert : Node → ℚ → Option Node
  | .null, key => some (.mk key 1 1 .null .null)
  | .mk k h s left right, key =>
    if key < k then
      match insert left key with
      | none => none
      | some left' => insertBalance (update (.mk k h s left' right)) key
    else
      match insert right key with
      | none => none
      | some right' => insertBalance (update (.mk k h s left right')) key

/-- Source function `minValueNode(node)`: the leftmost node below `node`; `none` when `node`
is `nullptr` (the loop condition dereferences it). -/
def minValueNode : Node → Option Node
  | .null => none
  | .mk key h s .null right => some (.mk key h s .null right)
  | .mk _ _ _ (.mk lk lh ls ll lr) _ => minValueNode (.mk lk lh ls ll lr)

/-- The tail of `remove(Node*, double)` from `if (root == nullptr) return root;`
on: `update(root)` and the four rebalancing cases, which read the balance
factors of the children. -/
def removeBalance (root : Node) : Option Node :=
  match update root with
  | .null => some .null
  | .mk k h s left right =>
    let balance := getBalance (.mk k h s left right)
    if balance > 1 ∧ getBalance left ≥ 0 then
      rightRotate (.mk k h s left right)
    else if balance > 1 ∧ getBalance left < 0 then
      match leftRotate left with
      | none => none
      | some left' => rightRotate (.mk k h s left' right)
    else if balance < -1 ∧ getBalance right ≤ 0 then
      leftRotate (.mk k h s left right)
    else if balance < -1 ∧ getBalance right > 0 then
      match rightRotate right with
      | none => none
      | some right' => leftRotate (.mk k h s left right')
    else some (.mk k h s left right)

/-- Source function `remove(Node* root, double key)`.  With at most one child the node takes
the content of its child (`*root = *temp`) or becomes `nullptr`; with two
children it takes the key of the leftmost node of the right subtree, which is
then removed from the right subtree. -/
def remove : Node → ℚ → Option Node
  | .null, _ => some .null
  | .mk k h s left right, key =>
    if key < k then
      match remove left key with
      | none => none
      | some left' => removeBalance (.mk k h s left' right)
    else if key > k then
      match remove right key with
      | none => none
      | some right' => removeBalance (.mk k h s left right')
    else if left.isNull || right.isNull then
      removeBalance (if !left.isNull then left else right)
    else
      match minValueNode right with
      | some (.mk tk _ _ _ _) =>
        match remove right tk with
        | none => none
        | some right' => removeBalance (.mk tk h s left right')
      | _ => none

/-- Source function `findKthSmallest(node, k)`: the `k`-th smallest key (1-indexed) by the
stored sizes; the sentinel `-1` on `nullptr`. -/
def findKthSmallest : Node → ℤ → ℚ
  | .null, _ => -1
  | .mk key _ _ left right, k =>
    let leftSize := getSize left
    if k = leftSize + 1 then key
    else if k ≤ leftSize then findKthSmallest left k
    else findKthSmallest right (k - (leftSize + 1))

/-- Source function `inOrder(root)`: the keys printed by the in-order traversal. -/
def inOrder : Node → List ℚ
  | .null => []
  | .mk key _ _ left right => inOrder left ++ key :: inOrder right

/-- Source function `rangeQueryRec(node, minVal, maxVal)`: the keys printed. -/
def rangeQueryRec : Node → ℚ → ℚ → List ℚ
  | .null, _, _ => []
  | .mk key _ _ left right, minVal, maxVal =>
    (if minVal < key then rangeQueryRec left minVal maxVal else []) ++
    (if key ≥ minVal ∧ key ≤ maxVal then [key] else []) ++
    (if maxVal > key then rangeQueryRec right minVal maxVal else [])

/-- Source function `median()` on the tree with the given root. -/
def median (root : Node) : ℚ :=
  let n := getSize root
  if n = 0 then 0
  else if Int.tmod n 2 ≠ 0 then findKthSmallest root (Int.tdiv n 2 + 1)
  else (findKthSmallest root (Int.tdiv n 2) + findKthSmallest root (Int.tdiv n 2 + 1)) / 2

/-- A call of a public mutator: `insert(double)` or `remove(double)`. -/
inductive Op where
  | insert (value : ℚ) : Op
  | remove (value : ℚ) : Op
  deriving DecidableEq

/-- The public `insert(value)` / `remove(value)`: `root = insert(root, value)`,
`root = remove(root, value)`. -/
def step (root : Node) : Op → Option Node
  | .insert value => insert root value
  | .remove value => remove root value

/-- The calls `ops`, in order, on the tree with the given root. -/
def runFrom : Node → List Op → Option Node
  | root, [] => some root
  | root, op :: ops =>
    match step root op with
    | none => none
    | some root' => runFrom root' ops

/-- The calls `ops`, in order, on a fresh `SensorAVL()` (`root = nullptr`). -/
def run (ops : List Op) : Option Node := runFrom .null ops

end SensorAVL

namespace SensorRedBlack

/-- The constant `RED` (`true`). -/
abbrev RED : Bool := true

/-- The constant `BLACK` (`false`). -/
abbrev BLACK : Bool := false

/-- A `Node*` of the red-black file: `null` is `nullptr`, `mk` carries the
fields `key`, `left`, `right`, `color`, `size` of `struct Node`. -/
inductive Node where
  | null : Node
  | mk (key : ℚ) (left : Node) (right : Node) (color : Bool) (size : ℤ) : Node
  deriving DecidableEq

/-- The test `n == nullptr`. -/
def Node.isNull : Node → Bool
  | .null => true
  | .mk _ _ _ _ _ => false

/-- The field `h->left`, read only where `h` is known not to be `nullptr` (`null` is
returned for `null`, where the source has no behaviour). -/
def Node.left : Node → Node
  | .null => .null
  | .mk _ l _ _ _ => l

/-- The field `h->right`, read only where `h` is known not to be `nullptr`. -/
def Node.right : Node → Node
  | .null => .null
  | .mk _ _ r _ _ => r

/-- Source function `isRed(x)`: `false` for `nullptr`, else `x->color == RED`. -/
def isRed : Node → Bool
  | .null => false
  | .mk _ _ _ color _ => color == RED

/-- Source function `size(x)`: the stored size, 0 for `nullptr`. -/
def size : Node → ℤ
  | .null => 0
  | .mk _ _ _ _ s => s

/-- Source function `updateSize(x)`: recompute `x->size` from the children. -/
def updateSize : Node → Node
  | .null => .null
  | .mk key left right color _ => .mk key left right color (1 + size left + size right)

/-- Source function `rotateLeft(h)`: `x = h->right; h->right = x->left; x->left = h;
x->color = h->color; h->color = RED; x->size = h->size; updateSize(h);
return x`.  `none` when `h` or `h->right` is `nullptr`. -/
def rotateLeft : Node → Option Node
  | .mk hk hl (.mk xk xl xr _ _) hc hs =>
    some (.mk xk (updateSize (.mk hk hl xl RED hs)) xr hc hs)
  | _ => none

/-- Source function `rotateRight(h)`: the mirror image of `rotateLeft`.  `none` when `h` or
`h->left` is `nullptr`. -/
def rotateRight : Node → Option Node
  | .mk hk (.mk xk xl xr _ _) hr hc hs =>
    some (.mk xk xl (updateSize (.mk hk xr hr RED hs)) hc hs)
  | _ => none

/-- The statement `if (n) n->color = !n->color`, the guarded assignment on a child in
`flipColors`. -/
def flipChild : Node → Node
  | .null => .null
  | .mk key left right color s => .mk key left right (!color) s

/-- Source function `flipColors(h)`: negate the colour of `h` and of each child present. -/
def flipColors : Node → Node
  | .null => .null
  | .mk key left right color s => .mk key (flipChild left) (flipChild right) (!color) s

/-- The part of `insert(Node*, double)` after the descent, on the node `h`
just relinked: the three LLRB steps in order, then `updateSize(h)`.  `h` is
never `nullptr` here. -/
def insertFix (h : Node) : Option Node :=
  match (if isRed h.right && !isRed h.left then rotateLeft h else some h) with
  | none => none
  | some h1 =>
    match (if isRed h1.left && isRed h1.left.left then rotateRight h1 else some h1) with
    | none => none
    | some h2 =>
      some (updateSize (if isRed h2.left && isRed h2.right then flipColors h2 else h2))

/-- Source function `insert(Node* h, double key)`: BST descent (duplicates go right), then the
LLRB fix-up. -/
def insert : Node → ℚ → Option Node
  | .null, key => some (.mk key .null .null RED 1)
  | .mk k left right color s, key =>
    if key < k then
      match insert left key with
      | none => none
      | some left' => insertFix (.mk k left' right color s)
    else
      match insert right key with
      | none => none
      | some right' => insertFix (.mk k left right' color s)

/-- Source function `select(x, k)`: the key of rank `k` (0-indexed) by the stored sizes; the
sentinel `-1` on `nullptr`. -/
def select : Node → ℤ → ℚ
  | .null, _ => -1
  | .mk key left right _ _, k =>
    let t := size left
    if t > k then select left k
    else if t < k then select right (k - t - 1)
    else key

/-- Source function `rangeQueryRec(node, minVal, maxVal)`: the keys printed. -/
def rangeQueryRec : Node → ℚ → ℚ → List ℚ
  | .null, _, _ => []
  | .mk key left right _ _, minVal, maxVal =>
    (if minVal < key then rangeQueryRec left minVal maxVal else []) ++
    (if key ≥ minVal ∧ key ≤ maxVal then [key] else []) ++
    (if maxVal > key then rangeQueryRec right minVal maxVal else [])

/-- Source function `minNode(node)`: the leftmost node below `node`; `none` when `node` is
`nullptr`. -/
def minNode : Node → Option Node
  | .null => none
  | .mk key .null right color s => some (.mk key .null right color s)
  | .mk _ (.mk lk ll lr lc ls) _ _ _ => minNode (.mk lk ll lr lc ls)

/-- Source function `remove(Node* root, double key)`: plain BST deletion, `updateSize(root)`
on the way back when `root` is not `nullptr`. -/
def remove : Node → ℚ → Option Node
  | .null, _ => some .null
  | .mk k left right color s, key =>
    if key < k then
      match remove left key with
      | none => none
      | some left' => some (updateSize (.mk k left' right color s))
    else if key > k then
      match remove right key with
      | none => none
      | some right' => some (updateSize (.mk k left right' color s))
    else if left.isNull || right.isNull then
      some (updateSize (if !left.isNull then left else right))
    else
      match minNode right with
      | some (.mk tk _ _ _ _) =>
        match remove right tk with
        | none => none
        | some right' => some (updateSize (.mk tk left right' color s))
      | _ => none

/-- Source function `inOrder(x)`: the keys printed by the in-order traversal. -/
def inOrder : Node → List ℚ
  | .null => []
  | .mk key left right _ _ => inOrder left ++ key :: inOrder right

/-- The assignment `root->color = BLACK` on a root that is not `nullptr`. -/
def blacken : Node → Node
  | .null => .null
  | .mk key left right _ s => .mk key left right BLACK s

/-- The public `insert(double value)`: `root = insert(root, value);
root->color = BLACK`. -/
def insertValue (root : Node) (value : ℚ) : Option Node :=
  match insert root value with
  | some (.mk key left right color s) => some (blacken (.mk key left right color s))
  | _ => none

/-- The public `remove(double value)`: `root = remove(root, value);
if (root) root->color = BLACK`. -/
def removeValue (root : Node) (value : ℚ) : Option Node :=
  match remove root value with
  | none => none
  | some root' => some (blacken root')

/-- Source function `median()` on the tree with the given root. -/
def median (root : Node) : ℚ :=
  if root.isNull then 0
  else
    let n := size root
    if Int.tmod n 2 ≠ 0 then select root (Int.tdiv n 2)
    else (select root (Int.tdiv n 2 - 1) + select root (Int.tdiv n 2)) / 2

/-- A call of a public mutator: `insert(double)` or `remove(double)`. -/
inductive Op where
  | insert (value : ℚ) : Op
  | remove (value : ℚ) : Op
  deriving DecidableEq

/-- One public call on the tree with the given root. -/
def step (root : Node) : Op → Option Node
  | .insert value => insertValue root value
  | .remove value => removeValue root value

/-- The calls `ops`, in order, on the tree with the given root. -/
def runFrom : Node → List Op → Option Node
  | root, [] => some root
  | root, op :: ops =>
    match step root op with
    | none => none
    | some root' => runFrom root' ops

/-- The calls `ops`, in order, on a fresh `SensorRedBlack()` (`root = nullptr`). -/
def run (ops : List Op) : Option Node := runFrom .null ops

end SensorRedBlack

/-- The standard median of a sequence `s` of length `n`, as the specification
states it: `s[n/2]` for odd `n`, the mean of `s[n/2 - 1]` and `s[n/2]` for
even `n` (integer division); undefined (`none`) for the empty sequence. -/
def standardMedian (s : List ℚ) : Option ℚ :=
  if s.length = 0 then none
  else if s.length % 2 = 1 then s[s.length / 2]?
  else
    match s[s.length / 2 - 1]?, s[s.length / 2]? with
    | some a, some b => some ((a + b) / 2)
    | _, _ => none

namespace SensorAVL

/-- Size invariant: every node stores `1 + size(left) + size(right)`. -/
def SizeInv : Node → Prop
  | .null => True
  | .mk _ _ s left right => SizeInv left ∧ SizeInv right ∧ s = 1 + getSize left + getSize right

/-- AVL balance invariant: every node stores the height
`1 + max(height(left), height(right))` and its children differ in height by
at most one. -/
def Balanced : Node → Prop
  | .null => True
  | .mk _ h _ left right =>
    Balanced left ∧ Balanced right ∧ h = 1 + max (height left) (height right) ∧
      |height left - height right| ≤ 1

/-- The trees reached from the empty tree by public `insert` / `remove` calls. -/
def Reachable (t : Node) : Prop := ∃ ops : List Op, run ops = some t

end SensorAVL

namespace SensorRedBlack

/-- Size invariant: every node stores `1 + size(left) + size(right)`. -/
def SizeInv : Node → Prop
  | .null => True
  | .mk _ left right _ s => SizeInv left ∧ SizeInv right ∧ s = 1 + size left + size right

/-- Both children of `t` satisfy the size invariant (nothing is said of the
counter of `t` itself). -/
def ChildrenSizeInv (t : Node) : Prop := SizeInv t.left ∧ SizeInv t.right

/-- The trees reached from the empty tree by public `insert` / `remove` calls. -/
def Reachable (t : Node) : Prop := ∃ ops : List Op, run ops = some t

end SensorRedBlack

/-! ## Bounded traversals, colour invariants and the two-heap container -/

namespace SensorAVL

/-- Source function `getMinK(node, k)`: the keys printed, and the value of the
counter `k` (a reference parameter) when the call returns. -/
def getMinK : Node → ℤ → List ℚ × ℤ
  | .null, k => ([], k)
  | .mk key _ _ left right, k =>
    if k ≤ 0 then ([], k)
    else
      let r1 := getMinK left k
      let r2 : List ℚ × ℤ := if r1.2 > 0 then ([key], r1.2 - 1) else ([], r1.2)
      let r3 := getMinK right r2.2
      (r1.1 ++ r2.1 ++ r3.1, r3.2)

/-- Source function `getMaxK(node, k)`: the mirror image of `getMinK`, right
subtree first. -/
def getMaxK : Node → ℤ → List ℚ × ℤ
  | .null, k => ([], k)
  | .mk key _ _ left right, k =>
    if k ≤ 0 then ([], k)
    else
      let r1 := getMaxK right k
      let r2 : List ℚ × ℤ := if r1.2 > 0 then ([key], r1.2 - 1) else ([], r1.2)
      let r3 := getMaxK left r2.2
      (r1.1 ++ r2.1 ++ r3.1, r3.2)

end SensorAVL

namespace SensorRedBlack

/-- Source function `getMinK(node, k)`: the keys printed, and the value of the
counter `k` (a reference parameter) when the call returns. -/
def getMinK : Node → ℤ → List ℚ × ℤ
  | .null, k => ([], k)
  | .mk key left right _ _, k =>
    if k ≤ 0 then ([], k)
    else
      let r1 := getMinK left k
      let r2 : List ℚ × ℤ := if r1.2 > 0 then ([key], r1.2 - 1) else ([], r1.2)
      let r3 := getMinK right r2.2
      (r1.1 ++ r2.1 ++ r3.1, r3.2)

/-- Source function `getMaxK(node, k)`: the mirror image of `getMinK`, right
subtree first. -/
def getMaxK : Node → ℤ → List ℚ × ℤ
  | .null, k => ([], k)
  | .mk key left right _ _, k =>
    if k ≤ 0 then ([], k)
    else
      let r1 := getMaxK right k
      let r2 : List ℚ × ℤ := if r1.2 > 0 then ([key], r1.2 - 1) else ([], r1.2)
      let r3 := getMaxK left r2.2
      (r1.1 ++ r2.1 ++ r3.1, r3.2)

/-- Colour invariants of a left-leaning red-black tree at every node: the
right child is not RED, and a RED node has no RED left child. -/
def ColourInv : Node → Prop
  | .null => True
  | .mk _ left right color _ =>
    ColourInv left ∧ ColourInv right ∧ isRed right = false ∧
      (color = RED → isRed left = false)

/-- The colour invariants below the root: both subtrees satisfy `ColourInv`
and the right child is not RED; the root itself may be a RED node with a RED
left child. -/
def ColourInvBelow : Node → Prop
  | .null => True
  | .mk _ left right _ _ => ColourInv left ∧ ColourInv right ∧ isRed right = false

/-- The number of BLACK nodes on each path from the root to an empty link,
the paths listed from left to right. -/
def blackCounts : Node → List ℕ
  | .null => [0]
  | .mk _ left right color _ =>
    (blackCounts left ++ blackCounts right).map (fun n => if color = BLACK then n + 1 else n)

/-- Perfect black-balance: all paths from the root to an empty link pass
through the same number of BLACK nodes. -/
def BlackBalanced (t : Node) : Prop :=
  ∀ p ∈ blackCounts t, ∀ q ∈ blackCounts t, p = q

/-- The number of BLACK nodes on the leftmost path. -/
def blackHeight : Node → ℕ
  | .null => 0
  | .mk _ left _ color _ => blackHeight left + (if color = BLACK then 1 else 0)

/-- At every node the leftmost paths of the two subtrees pass through the
same number of BLACK nodes. -/
def BlackHeightInv : Node → Prop
  | .null => True
  | .mk _ left right _ _ =>
    BlackHeightInv left ∧ BlackHeightInv right ∧ blackHeight left = blackHeight right

/-- The calls `insert(v)` for the values `vs`, in order, on a fresh
`SensorRedBlack()`. -/
def runInserts (vs : List ℚ) : Option Node := run (vs.map Op.insert)

end SensorRedBlack

namespace SensorHeap

/-- The two members of `SensorHeap`.  A `std::priority_queue` is modelled by
its contents in the order in which `top()` / `pop()` deliver them: `maxHeap`
is kept non-increasing, `minHeap` non-decreasing, `top()` is the head and
`pop()` drops the head. -/
structure Heaps where
  maxHeap : List ℚ
  minHeap : List ℚ
  deriving DecidableEq

/-- The call `maxHeap.push(v)`. -/
def pushMax (v : ℚ) (q : List ℚ) : List ℚ := List.orderedInsert (· ≥ ·) v q

/-- The call `minHeap.push(v)`. -/
def pushMin (v : ℚ) (q : List ℚ) : List ℚ := List.orderedInsert (· ≤ ·) v q

/-- Source function `balanceHeaps()`.  Each `top()` is taken from a queue that
the size test just made non-empty, so the empty case of the `match` is never
reached. -/
def balanceHeaps (h : Heaps) : Heaps :=
  if h.maxHeap.length > h.minHeap.length + 1 then
    match h.maxHeap with
    | top :: rest => { maxHeap := rest, minHeap := pushMin top h.minHeap }
    | [] => h
  else if h.minHeap.length > h.maxHeap.length then
    match h.minHeap with
    | top :: rest => { maxHeap := pushMax top h.maxHeap, minHeap := rest }
    | [] => h
  else h

/-- Source function `insert(value)`: into `maxHeap` when it is empty or
`value < maxHeap.top()`, else into `minHeap`; then `balanceHeaps()`. -/
def insert (h : Heaps) (value : ℚ) : Heaps :=
  match h.maxHeap with
  | [] => balanceHeaps { h with maxHeap := pushMax value h.maxHeap }
  | top :: _ =>
    if value < top then balanceHeaps { h with maxHeap := pushMax value h.maxHeap }
    else balanceHeaps { h with minHeap := pushMin value h.minHeap }

/-- Source function `median()`.  With `maxHeap` non-empty and equal sizes
`minHeap` is not empty, so the empty case of the inner `match` is never
reached. -/
def median (h : Heaps) : ℚ :=
  match h.maxHeap with
  | [] => 0
  | top :: _ =>
    if h.maxHeap.length = h.minHeap.length then
      match h.minHeap with
      | mtop :: _ => (top + mtop) / 2
      | [] => top
    else top

/-- A fresh `SensorHeap`: both queues empty. -/
def empty : Heaps := { maxHeap := [], minHeap := [] }

/-- The calls `insert(v)` for the values `vs`, in order, on the container `h`. -/
def insertAll (h : Heaps) (vs : List ℚ) : Heaps := vs.foldl insert h

/-- Invariant of the two queues after the values `vs` were inserted: each
queue is sorted the way `top()` / `pop()` deliver it, no value of `maxHeap`
exceeds a value of `minHeap`, and together they hold exactly `vs`. -/
def HeapInv (h : Heaps) (vs : List ℚ) : Prop :=
  h.maxHeap.Sorted (· ≥ ·) ∧ h.minHeap.Sorted (· ≤ ·) ∧
    (∀ a ∈ h.maxHeap, ∀ b ∈ h.minHeap, a ≤ b) ∧
    (h.maxHeap ++ h.minHeap).Perm vs

end SensorHeap

/-! ## Ordering of the nodes, two-heap removal and the sorted list -/

namespace SensorAVL

/-- At every node the keys of the left subtree are strictly smaller than the
key of the node and the keys of the right subtree are not smaller. -/
def StrictOrdered : Node → Prop
  | .null => True
  | .mk key _ _ left right =>
    StrictOrdered left ∧ StrictOrdered right ∧ (∀ x ∈ inOrder left, x < key) ∧
      (∀ x ∈ inOrder right, key ≤ x)

/-- At every node the keys of the left subtree are not greater than the key
of the node and the keys of the right subtree are not smaller. -/
def Ordered : Node → Prop
  | .null => True
  | .mk key _ _ left right =>
    Ordered left ∧ Ordered right ∧ (∀ x ∈ inOrder left, x ≤ key) ∧
      (∀ x ∈ inOrder right, key ≤ x)

/-- The calls `insert(v)` for the values `vs`, in order, on a fresh
`SensorAVL()`. -/
def runInserts (vs : List ℚ) : Option Node := run (vs.map Op.insert)

end SensorAVL

namespace SensorRedBlack

/-- At every node the keys of the left subtree are strictly smaller than the
key of the node and the keys of the right subtree are not smaller. -/
def StrictOrdered : Node → Prop
  | .null => True
  | .mk key left right _ _ =>
    StrictOrdered left ∧ StrictOrdered right ∧ (∀ x ∈ inOrder left, x < key) ∧
      (∀ x ∈ inOrder right, key ≤ x)

/-- At every node the keys of the left subtree are not greater than the key
of the node and the keys of the right subtree are not smaller. -/
def Ordered : Node → Prop
  | .null => True
  | .mk key left right _ _ =>
    Ordered left ∧ Ordered right ∧ (∀ x ∈ inOrder left, x ≤ key) ∧
      (∀ x ∈ inOrder right, key ≤ x)

/-- The stored size of the node itself is right: `size = 1 + size(left) +
size(right)` over its present children; nothing is asked of `nullptr`. -/
def SizeAt : Node → Prop
  | .null => True
  | .mk _ left right _ s => s = 1 + size left + size right

end SensorRedBlack

namespace SensorHeap

/-- The first loop of `removeFromQueue(pq, value)`: the queue is emptied from
the top; the first value equal to `value` is dropped (`removed` records that
one was dropped), the others are appended to `temp`.  The result is `temp`. -/
def drain : List ℚ → ℚ → Bool → List ℚ
  | [], _, _ => []
  | top :: rest, value, removed =>
    if top = value ∧ removed = false then drain rest value true
    else top :: drain rest value removed

/-- Source function `removeFromQueue(pq, value)`: drain the queue, then push
every value of `temp` back; `push` is the `push` of the queue at hand. -/
def removeFromQueue (push : ℚ → List ℚ → List ℚ) (pq : List ℚ) (value : ℚ) : List ℚ :=
  (drain pq value false).foldl (fun q v => push v q) []

/-- Source function `remove(value)`: `removeFromQueue` on `maxHeap`, then on
`minHeap`, then `balanceHeaps()`. -/
def remove (h : Heaps) (value : ℚ) : Heaps :=
  balanceHeaps
    { maxHeap := removeFromQueue pushMax h.maxHeap value,
      minHeap := removeFromQueue pushMin h.minHeap value }

end SensorHeap

namespace SensorListaOrdenada

/-- The library call `lower_bound(dados.begin(), dados.end(), v)` on the
sorted vector `dados`, as an index: the first position whose element is not
less than `v`. -/
def lowerBound (dados : List ℚ) (v : ℚ) : ℕ :=
  (dados.takeWhile (fun x => decide (x < v))).length

/-- The library call `upper_bound(dados.begin(), dados.end(), v)` on the
sorted vector `dados`, as an index: the first position whose element is
greater than `v`. -/
def upperBound (dados : List ℚ) (v : ℚ) : ℕ :=
  (dados.takeWhile (fun x => decide (x ≤ v))).length

/-- Source function `insert(value)`: insert at the position `lower_bound`
finds. -/
def insert (dados : List ℚ) (value : ℚ) : List ℚ :=
  dados.take (lowerBound dados value) ++ value :: dados.drop (lowerBound dados value)

/-- The loop `for (auto it = itStart; it != itEnd; ++it) cout << *it` of
`rangeQuery`, with the iterator `it` given as its index and the elements from
`it` on: the values printed, and `none` when the iterator reaches `end()`
without meeting `itEnd` (the next step reads outside the vector). -/
def printLoop (itEnd : ℕ) : ℕ → List ℚ → Option (List ℚ)
  | it, rest =>
    if it = itEnd then some []
    else
      match rest with
      | [] => none
      | x :: xs =>
        match printLoop itEnd (it + 1) xs with
        | none => none
        | some out => some (x :: out)

/-- Source function `rangeQuery(minVal, maxVal)`: the values printed, `none`
when the loop leaves the vector. -/
def rangeQuery (dados : List ℚ) (minVal maxVal : ℚ) : Option (List ℚ) :=
  if lowerBound dados minVal = dados.length ∨
      lowerBound dados minVal = upperBound dados maxVal then some []
  else printLoop (upperBound dados maxVal) (lowerBound dados minVal)
    (dados.drop (lowerBound dados minVal))

/-- The calls `insert(v)` for the values `vs`, in order, on an empty list. -/
def insertAll (vs : List ℚ) : List ℚ := vs.foldl insert []

end SensorListaOrdenada

/-! ## The three containers of the benchmark -/

/-- A call the benchmark makes on each of its three containers:
`inserir(v)`, `remover(v)` or `calcularMediana()` with the result dropped. -/
inductive Chamada where
  | inserir (v : ℚ) : Chamada
  | remover (v : ℚ) : Chamada
  | mediana : Chamada
  deriving DecidableEq

/-- The values a container should hold after the calls `cs` on an empty
container, as the specification has it: `inserir` adds a value, `remover`
deletes one occurrence of a value that is present, `calcularMediana` leaves
the values as they are. -/
def conteudo (cs : List Chamada) : List ℚ :=
  cs.foldl (fun l c =>
    match c with
    | .inserir v => v :: l
    | .remover v => l.erase v
    | .mediana => l) []

/-- The standard median of the values `l` (taken in sorted order), 0 when
there is none. -/
def medianaPadrao (l : List ℚ) : ℚ := (standardMedian (l.insertionSort (· ≤ ·))).getD 0

namespace MinHeapCustomizado

/-- Source function `pai(i)`, `(i - 1) >> 1`; it is called with `i > 0` only. -/
def pai (i : ℕ) : ℕ := (i - 1) / 2

/-- Source function `filhoEsq(i)`, `(i << 1) + 1`. -/
def filhoEsq (i : ℕ) : ℕ := 2 * i + 1

/-- Source function `filhoDir(i)`, `(i << 1) + 2`. -/
def filhoDir (i : ℕ) : ℕ := 2 * i + 2

/-- The library call `std::swap(_dados[i], _dados[j])`.  Both indices are
inside the vector at every call, so the default of `getD` is never read. -/
def swap (d : List ℚ) (i j : ℕ) : List ℚ := (d.set i (d.getD j 0)).set j (d.getD i 0)

/-- Source function `promoverElemento(idx)` on the vector `d`. -/
def promoverElemento (d : List ℚ) (idx : ℕ) : List ℚ :=
  if idx > 0 then
    if d.getD (pai idx) 0 ≤ d.getD idx 0 then d
    else promoverElemento (swap d idx (pai idx)) (pai idx)
  else d
termination_by idx
decreasing_by
  simp only [pai]
  omega

/-- The index `menor` that one round of the loop of `rebaixarElemento(idx)`
computes: the smaller child when it is below the element at `idx`, else `idx`. -/
def menorDe (d : List ℚ) (idx : ℕ) : ℕ :=
  if filhoDir idx < d.length ∧ d.getD (filhoDir idx) 0 <
      d.getD (if filhoEsq idx < d.length ∧ d.getD (filhoEsq idx) 0 < d.getD idx 0
        then filhoEsq idx else idx) 0
  then filhoDir idx
  else if filhoEsq idx < d.length ∧ d.getD (filhoEsq idx) 0 < d.getD idx 0
    then filhoEsq idx else idx

/-- Source function `rebaixarElemento(idx)` on the vector `d`. -/
def rebaixarElemento (d : List ℚ) (idx : ℕ) : List ℚ :=
  if _h : menorDe d idx = idx then d
  else rebaixarElemento (swap d idx (menorDe d idx)) (menorDe d idx)
termination_by d.length - idx
decreasing_by
  have hl : (swap d idx (menorDe d idx)).length = d.length := by simp [swap]
  rw [hl]
  simp only [menorDe, filhoEsq, filhoDir] at _h ⊢
  split_ifs at _h ⊢ <;> omega

/-- Source function `inserir(valor)`: `push_back`, then
`promoverElemento(size - 1)`. -/
def inserir (d : List ℚ) (valor : ℚ) : List ℚ :=
  promoverElemento (d ++ [valor]) ((d ++ [valor]).length - 1)

/-- Source function `remover(valor)`: the first position holding `valor`
(`std::find`) takes the last element, the last position is dropped, and the
element moved is sifted down and up when the position still exists. -/
def remover (d : List ℚ) (valor : ℚ) : List ℚ :=
  if d.indexOf valor = d.length then d
  else if d.indexOf valor < ((d.set (d.indexOf valor) (d.getLastD 0)).dropLast).length then
    promoverElemento
      (rebaixarElemento ((d.set (d.indexOf valor) (d.getLastD 0)).dropLast) (d.indexOf valor))
      (d.indexOf valor)
  else (d.set (d.indexOf valor) (d.getLastD 0)).dropLast

/-- Source function `calcularMediana()`: 0 on the empty vector, else the
median read off a sorted copy (`std::sort`); `* 0.5` is `* (1 / 2)`. -/
def calcularMediana (d : List ℚ) : ℚ :=
  if d.isEmpty then 0
  else if (d.insertionSort (· ≤ ·)).length % 2 = 0 then
    ((d.insertionSort (· ≤ ·)).getD ((d.insertionSort (· ≤ ·)).length / 2 - 1) 0 +
      (d.insertionSort (· ≤ ·)).getD ((d.insertionSort (· ≤ ·)).length / 2) 0) * (1 / 2)
  else (d.insertionSort (· ≤ ·)).getD ((d.insertionSort (· ≤ ·)).length / 2) 0

/-- One call of the benchmark on the heap; `calcularMediana()` works on a
copy and leaves `_dados` as it is. -/
def chamar (d : List ℚ) : Chamada → List ℚ
  | .inserir v => inserir d v
  | .remover v => remover d v
  | .mediana => d

/-- The calls `cs`, in order, on an empty heap. -/
def executar (cs : List Chamada) : List ℚ := cs.foldl chamar []

end MinHeapCustomizado

namespace ListaOrdenadaManual

/-- The inner loop of `ordenarAgora()` with its final store: from `j = m - 1`
down while `c[j] > pivo`, `c[j + 1] = c[j]`; then `c[j + 1] = pivo`.  The
argument `m` is `j + 1`. -/
def deslocar (c : List ℚ) (pivo : ℚ) : ℕ → List ℚ
  | 0 => c.set 0 pivo
  | m + 1 =>
    if c.getD m 0 > pivo then deslocar (c.set (m + 1) (c.getD m 0)) pivo m
    else c.set (m + 1) pivo

/-- Source function `ordenarAgora()` on the vector `c`: for `i` from 1 to
`n - 1`, `pivo = c[i]` is moved down into the sorted prefix. -/
def ordenarAgora (c : List ℚ) : List ℚ :=
  (List.range' 1 (c.length - 1)).foldl (fun c i => deslocar c (c.getD i 0) i) c

/-- The members `_container` and `_estaOrdenado`. -/
structure Estado where
  container : List ℚ
  estaOrdenado : Bool
  deriving DecidableEq

/-- A fresh `ListaOrdenadaManual`. -/
def vazio : Estado := { container := [], estaOrdenado := false }

/-- Source function `inserir(v)`: `push_back`, and the order flag is reset. -/
def inserir (e : Estado) (v : ℚ) : Estado :=
  { container := e.container ++ [v], estaOrdenado := false }

/-- Source function `remover(v)`: erase the first element equal to `v`, if
there is one; the order flag is left as it is. -/
def remover (e : Estado) (v : ℚ) : Estado :=
  { e with container := e.container.erase v }

/-- Source function `calcularMediana()`: the value returned and the state
left (the vector is sorted in place when the flag is not set). -/
def calcularMediana (e : Estado) : ℚ × Estado :=
  if e.container.isEmpty then (0, e)
  else
    let e1 : Estado :=
      if e.estaOrdenado = false then { container := ordenarAgora e.container, estaOrdenado := true }
      else e
    (if e1.container.length % 2 = 1 then e1.container.getD (e1.container.length / 2) 0
      else (e1.container.getD (e1.container.length / 2 - 1) 0 +
        e1.container.getD (e1.container.length / 2) 0) * (1 / 2), e1)

/-- One call of the benchmark on the list; `calcularMediana()` leaves the
state it sorted. -/
def chamar (e : Estado) : Chamada → Estado
  | .inserir v => inserir e v
  | .remover v => remover e v
  | .mediana => (calcularMediana e).2

/-- The calls `cs`, in order, on a fresh list. -/
def executar (cs : List Chamada) : Estado := cs.foldl chamar vazio

end ListaOrdenadaManual

namespace ArvoreBalanceada

/-- A `NoAVL*`: `null` is `nullptr`, `mk` carries the fields `valor`, `esq`,
`dir`, `altura` of `struct NoAVL`. -/
inductive NoAVL where
  | null : NoAVL
  | mk (valor : ℚ) (esq : NoAVL) (dir : NoAVL) (altura : ℤ) : NoAVL
  deriving DecidableEq

/-- The test `n == nullptr`. -/
def NoAVL.isNull : NoAVL → Bool
  | .null => true
  | .mk _ _ _ _ => false

/-- Source function `alt(n)`: the stored height, 0 for `nullptr`. -/
def alt : NoAVL → ℤ
  | .null => 0
  | .mk _ _ _ a => a

/-- Source function `fatorBal(n)`. -/
def fatorBal : NoAVL → ℤ
  | .null => 0
  | .mk _ esq dir _ => alt esq - alt dir

/-- Source function `rotacionarEsquerda(x)`; `none` when `x` or `x->dir` is
`nullptr`. -/
def rotacionarEsquerda : NoAVL → Option NoAVL
  | .mk vx xe (.mk vy T2 yd _) _ =>
    some (.mk vy (.mk vx xe T2 (max (alt xe) (alt T2) + 1)) yd
      (max (max (alt xe) (alt T2) + 1) (alt yd) + 1))
  | _ => none

/-- Source function `rotacionarDireita(y)`; `none` when `y` or `y->esq` is
`nullptr`. -/
def rotacionarDireita : NoAVL → Option NoAVL
  | .mk vy (.mk vx xe T2 _) yd _ =>
    some (.mk vx xe (.mk vy T2 yd (max (alt T2) (alt yd) + 1))
      (max (alt xe) (max (alt T2) (alt yd) + 1) + 1))
  | _ => none

/-- The part of `inserirRec` after the descent, on the node relinked: the
height is recomputed and the two unbalanced cases are rotated.
`no->esq->valor` and `no->dir->valor` are dereferences. -/
def inserirBal (no : NoAVL) (chave : ℚ) : Option NoAVL :=
  match no with
  | .null => some .null
  | .mk v esq dir _ =>
    if alt esq - alt dir > 1 then
      match esq with
      | .null => none
      | .mk ve ee ed ae =>
        if chave < ve then rotacionarDireita (.mk v esq dir (1 + max (alt esq) (alt dir)))
        else
          match rotacionarEsquerda (.mk ve ee ed ae) with
          | none => none
          | some esq' => rotacionarDireita (.mk v esq' dir (1 + max (alt esq) (alt dir)))
    else if alt esq - alt dir < -1 then
      match dir with
      | .null => none
      | .mk vd de dd ad =>
        if chave ≥ vd then rotacionarEsquerda (.mk v esq dir (1 + max (alt esq) (alt dir)))
        else
          match rotacionarDireita (.mk vd de dd ad) with
          | none => none
          | some dir' => rotacionarEsquerda (.mk v esq dir' (1 + max (alt esq) (alt dir)))
    else some (.mk v esq dir (1 + max (alt esq) (alt dir)))

/-- Source function `inserirRec(no, chave)`. -/
def inserirRec : NoAVL → ℚ → Option NoAVL
  | .null, chave => some (.mk chave .null .null 1)
  | .mk v esq dir a, chave =>
    if chave < v then
      match inserirRec esq chave with
      | none => none
      | some esq' => inserirBal (.mk v esq' dir a) chave
    else
      match inserirRec dir chave with
      | none => none
      | some dir' => inserirBal (.mk v esq dir' a) chave

/-- Source function `minNo(no)`: the leftmost node below `no`, `nullptr` for
`nullptr`. -/
def minNo : NoAVL → NoAVL
  | .null => .null
  | .mk v .null dir a => .mk v .null dir a
  | .mk _ (.mk ve ee ed ae) _ _ => minNo (.mk ve ee ed ae)

/-- The tail of `removerRec` from `if (!no) return nullptr;` on: the height
is recomputed and the four unbalanced cases are rotated. -/
def removerBal (no : NoAVL) : Option NoAVL :=
  match no with
  | .null => some .null
  | .mk v esq dir _ =>
    if alt esq - alt dir > 1 ∧ fatorBal esq ≥ 0 then
      rotacionarDireita (.mk v esq dir (1 + max (alt esq) (alt dir)))
    else if alt esq - alt dir > 1 ∧ fatorBal esq < 0 then
      match rotacionarEsquerda esq with
      | none => none
      | some esq' => rotacionarDireita (.mk v esq' dir (1 + max (alt esq) (alt dir)))
    else if alt esq - alt dir < -1 ∧ fatorBal dir ≤ 0 then
      rotacionarEsquerda (.mk v esq dir (1 + max (alt esq) (alt dir)))
    else if alt esq - alt dir < -1 ∧ fatorBal dir > 0 then
      match rotacionarDireita dir with
      | none => none
      | some dir' => rotacionarEsquerda (.mk v esq dir' (1 + max (alt esq) (alt dir)))
    else some (.mk v esq dir (1 + max (alt esq) (alt dir)))

/-- Source function `removerRec(no, chave)`. -/
def removerRec : NoAVL → ℚ → Option NoAVL
  | .null, _ => some .null
  | .mk v esq dir a, chave =>
    if chave < v then
      match removerRec esq chave with
      | none => none
      | some esq' => removerBal (.mk v esq' dir a)
    else if chave > v then
      match removerRec dir chave with
      | none => none
      | some dir' => removerBal (.mk v esq dir' a)
    else if esq.isNull || dir.isNull then
      removerBal (if !esq.isNull then esq else dir)
    else
      match minNo dir with
      | .mk vt _ _ _ =>
        match removerRec dir vt with
        | none => none
        | some dir' => removerBal (.mk vt esq dir' a)
      | .null => none

/-- Source function `emOrdem(no, lista)`: the values appended to `lista`. -/
def emOrdem : NoAVL → List ℚ
  | .null => []
  | .mk v esq dir _ => emOrdem esq ++ v :: emOrdem dir

/-- Source function `buscarFaixa(no, min, max, out)`: the values appended to
`out`. -/
def buscarFaixa : NoAVL → ℚ → ℚ → List ℚ
  | .null, _, _ => []
  | .mk v esq dir _, mn, mx =>
    (if mn < v then buscarFaixa esq mn mx else []) ++
    (if v ≥ mn ∧ v ≤ mx then [v] else []) ++
    (if mx > v then buscarFaixa dir mn mx else [])

/-- Source function `calcularMediana()` on the tree with the given root. -/
def calcularMediana (raiz : NoAVL) : ℚ :=
  if (emOrdem raiz).isEmpty then 0
  else if (emOrdem raiz).length % 2 ≠ 0 then (emOrdem raiz).getD ((emOrdem raiz).length / 2) 0
  else ((emOrdem raiz).getD ((emOrdem raiz).length / 2 - 1) 0 +
    (emOrdem raiz).getD ((emOrdem raiz).length / 2) 0) / 2

/-- One call of the benchmark on the tree: `raiz = inserirRec(raiz, v)`,
`raiz = removerRec(raiz, v)`, or `calcularMediana()`, which only reads. -/
def chamar (raiz : NoAVL) : Chamada → Option NoAVL
  | .inserir v => inserirRec raiz v
  | .remover v => removerRec raiz v
  | .mediana => some raiz

/-- The calls `cs`, in order, on the tree with the given root. -/
def executarDe : NoAVL → List Chamada → Option NoAVL
  | raiz, [] => some raiz
  | raiz, c :: cs =>
    match chamar raiz c with
    | none => none
    | some raiz' => executarDe raiz' cs

/-- The calls `cs`, in order, on an empty tree. -/
def executar (cs : List Chamada) : Option NoAVL := executarDe .null cs

/-- The node of `ArvoreBalanceada` with the keys, shape and heights of a
node of `SensorAVL`. -/
def deSensor : SensorAVL.Node → NoAVL
  | .null => .null
  | .mk key h _ left right => .mk key (deSensor left) (deSensor right) h

end ArvoreBalanceada

/-! ## Sorted sequences -/

theorem sorted_mid_iff (L R : List ℚ) (k : ℚ) :
    (L ++ k :: R).Sorted (· ≤ ·) ↔
      L.Sorted (· ≤ ·) ∧ R.Sorted (· ≤ ·) ∧ (∀ a ∈ L, a ≤ k) ∧ (∀ b ∈ R, k ≤ b) := by
  unfold List.Sorted
  rw [List.pairwise_append, List.pairwise_cons]
  constructor
  · rintro ⟨hL, ⟨hk, hR⟩, hLR⟩
    exact ⟨hL, hR, fun a ha => hLR a ha k (List.mem_cons_self _ _), hk⟩
  · rintro ⟨hL, hR, hLk, hkR⟩
    refine ⟨hL, ⟨hkR, hR⟩, ?_⟩
    intro a ha b hb
    rcases List.mem_cons.1 hb with rfl | hb
    · exact hLk a ha
    · exact le_trans (hLk a ha) (hkR b hb)

theorem erase_mid (L R : List ℚ) (k : ℚ) (h : (L ++ k :: R).Sorted (· ≤ ·)) :
    (L ++ k :: R).erase k = L ++ R := by
  have hmem : k ∈ L ++ k :: R := by simp
  have hp1 : (k :: (L ++ k :: R).erase k).Perm (L ++ k :: R) := (List.perm_cons_erase hmem).symm
  have hp2 : (L ++ k :: R).Perm (k :: (L ++ R)) := List.perm_middle
  have hp : ((L ++ k :: R).erase k).Perm (L ++ R) := (hp1.trans hp2).cons_inv
  have hs1 : ((L ++ k :: R).erase k).Sorted (· ≤ ·) := h.sublist (List.erase_sublist _ _)
  have hs2 : (L ++ R).Sorted (· ≤ ·) := by
    rw [sorted_mid_iff] at h
    obtain ⟨hL, hR, hLk, hkR⟩ := h
    unfold List.Sorted
    rw [List.pairwise_append]
    exact ⟨hL, hR, fun a ha b hb => le_trans (hLk a ha) (hkR b hb)⟩
  exact List.eq_of_perm_of_sorted hp hs1 hs2

theorem erase_mid_lt (L R : List ℚ) (k key : ℚ) (h : (L ++ k :: R).Sorted (· ≤ ·))
    (hlt : key < k) : (L ++ k :: R).erase key = L.erase key ++ k :: R := by
  rw [sorted_mid_iff] at h
  obtain ⟨_, _, _, hkR⟩ := h
  by_cases hm : key ∈ L
  · exact List.erase_append_left _ hm
  · have hR : key ∉ R := fun hmem => absurd (hkR key hmem) (not_le.2 hlt)
    rw [List.erase_append_right _ hm, List.erase_of_not_mem hm,
      List.erase_cons_tail (by simpa using (ne_of_lt hlt).symm), List.erase_of_not_mem hR]

theorem erase_mid_gt (L R : List ℚ) (k key : ℚ) (h : (L ++ k :: R).Sorted (· ≤ ·))
    (hgt : k < key) : (L ++ k :: R).erase key = L ++ k :: R.erase key := by
  rw [sorted_mid_iff] at h
  obtain ⟨_, _, hLk, _⟩ := h
  have hm : key ∉ L := fun hmem => absurd (hLk key hmem) (not_le.2 hgt)
  rw [List.erase_append_right _ hm, List.erase_cons_tail (by simpa using (ne_of_lt hgt))]

/-! ## AVL tree: the in-order sequence -/

namespace SensorAVL

theorem inOrder_update (t : Node) : inOrder (update t) = inOrder t := by
  cases t <;> simp [update, inOrder]

theorem inOrder_rightRotate {t t' : Node} (h : rightRotate t = some t') :
    inOrder t' = inOrder t := by
  unfold rightRotate at h
  split at h
  · cases h; simp [update, inOrder]
  · cases h

theorem inOrder_leftRotate {t t' : Node} (h : leftRotate t = some t') :
    inOrder t' = inOrder t := by
  unfold leftRotate at h
  split at h
  · cases h; simp [update, inOrder]
  · cases h

theorem inOrder_insertBalance {t t' : Node} {key : ℚ} (h : insertBalance t key = some t') :
    inOrder t' = inOrder t := by
  unfold insertBalance at h
  split at h
  · cases h; rfl
  · rename_i k hh s left right
    simp only at h
    split_ifs at h with h1 h2
    · cases left with
      | null => cases h
      | mk lk lh ls ll lr =>
        simp only at h
        split_ifs at h with h4
        · exact inOrder_rightRotate h
        · cases hl : leftRotate (.mk lk lh ls ll lr) with
          | none => rw [hl] at h; cases h
          | some left' =>
            rw [hl] at h
            rw [inOrder_rightRotate h]
            simp [inOrder, inOrder_leftRotate hl]
    · cases right with
      | null => cases h
      | mk rk rh rs rl rr =>
        simp only at h
        split_ifs at h with h4
        · exact inOrder_leftRotate h
        · cases hr : rightRotate (.mk rk rh rs rl rr) with
          | none => rw [hr] at h; cases h
          | some right' =>
            rw [hr] at h
            rw [inOrder_leftRotate h]
            simp [inOrder, inOrder_rightRotate hr]
    · cases h; rfl

theorem inOrder_removeBalance {t t' : Node} (h : removeBalance t = some t') :
    inOrder t' = inOrder t := by
  unfold removeBalance at h
  rw [← inOrder_update t]
  split at h
  · rename_i hu; cases h; rw [hu]
  · rename_i k hh s left right hu
    rw [hu]
    simp only at h
    split_ifs at h with h1 h2 h3 h4
    · exact inOrder_rightRotate h
    · cases hl : leftRotate left with
      | none => rw [hl] at h; cases h
      | some left' =>
        rw [hl] at h
        rw [inOrder_rightRotate h]
        simp [inOrder, inOrder_leftRotate hl]
    · exact inOrder_leftRotate h
    · cases hr : rightRotate right with
      | none => rw [hr] at h; cases h
      | some right' =>
        rw [hr] at h
        rw [inOrder_leftRotate h]
        simp [inOrder, inOrder_rightRotate hr]
    · cases h; rfl

theorem insert_perm {t t' : Node} {key : ℚ} (h : insert t key = some t') :
    (inOrder t').Perm (key :: inOrder t) := by
  induction t generalizing t' with
  | null => simp [insert] at h; subst h; simp [inOrder]
  | mk k hh s left right ihl ihr =>
    unfold insert at h
    split_ifs at h with hlt
    · cases hl : insert left key with
      | none => rw [hl] at h; cases h
      | some left' =>
        rw [hl] at h
        rw [inOrder_insertBalance h, inOrder_update]
        simp only [inOrder]
        exact ((ihl hl).append_right _).trans (by simp)
    · cases hr : insert right key with
      | none => rw [hr] at h; cases h
      | some right' =>
        rw [hr] at h
        rw [inOrder_insertBalance h, inOrder_update]
        simp only [inOrder]
        have hp := ((ihr hr).cons k).append_left (inOrder left)
        refine hp.trans ?_
        rw [show inOrder left ++ k :: key :: inOrder right
            = (inOrder left ++ [k]) ++ key :: inOrder right by simp]
        exact List.perm_middle.trans (by simp)

theorem insert_sorted {t t' : Node} {key : ℚ} (hs : (inOrder t).Sorted (· ≤ ·))
    (h : insert t key = some t') : (inOrder t').Sorted (· ≤ ·) := by
  induction t generalizing t' with
  | null => simp [insert] at h; subst h; simp [inOrder]
  | mk k hh s left right ihl ihr =>
    simp only [inOrder] at hs
    rw [sorted_mid_iff] at hs
    obtain ⟨hL, hR, hLk, hkR⟩ := hs
    unfold insert at h
    split_ifs at h with hlt
    · cases hl : insert left key with
      | none => rw [hl] at h; cases h
      | some left' =>
        rw [hl] at h
        rw [inOrder_insertBalance h, inOrder_update]
        simp only [inOrder]
        rw [sorted_mid_iff]
        refine ⟨ihl hL hl, hR, ?_, hkR⟩
        intro a ha
        rcases List.mem_cons.1 ((insert_perm hl).mem_iff.1 ha) with rfl | ha
        · exact le_of_lt hlt
        · exact hLk a ha
    · cases hr : insert right key with
      | none => rw [hr] at h; cases h
      | some right' =>
        rw [hr] at h
        rw [inOrder_insertBalance h, inOrder_update]
        simp only [inOrder]
        rw [sorted_mid_iff]
        refine ⟨hL, ihr hR hr, hLk, ?_⟩
        intro b hb
        rcases List.mem_cons.1 ((insert_perm hr).mem_iff.1 hb) with rfl | hb
        · exact not_lt.1 hlt
        · exact hkR b hb

theorem minValueNode_inOrder {t : Node} {tk : ℚ} {th ts : ℤ} {tl tr : Node}
    (h : minValueNode t = some (.mk tk th ts tl tr)) :
    ∃ rest, inOrder t = tk :: rest := by
  induction t with
  | null => simp [minValueNode] at h
  | mk k hh s left right ihl _ =>
    cases left with
    | null =>
      simp only [minValueNode, Option.some.injEq, Node.mk.injEq] at h
      obtain ⟨rfl, _⟩ := h
      exact ⟨inOrder right, by simp [inOrder]⟩
    | mk lk lh ls ll lr =>
      simp only [minValueNode] at h
      obtain ⟨rest, hrest⟩ := ihl h
      exact ⟨rest ++ k :: inOrder right, by rw [inOrder, hrest]; simp⟩

theorem minValueNode_mk (k : ℚ) (hh s : ℤ) (left right : Node) :
    ∃ tk th ts tl tr, minValueNode (.mk k hh s left right) = some (.mk tk th ts tl tr) := by
  induction left generalizing k hh s right with
  | null => exact ⟨k, hh, s, .null, right, by simp [minValueNode]⟩
  | mk lk lh ls ll lr ihl _ =>
    obtain ⟨tk, th, ts, tl, tr, h⟩ := ihl lk lh ls lr
    exact ⟨tk, th, ts, tl, tr, by simpa [minValueNode] using h⟩

theorem remove_inOrder {t t' : Node} {key : ℚ} (hs : (inOrder t).Sorted (· ≤ ·))
    (h : remove t key = some t') : inOrder t' = (inOrder t).erase key := by
  induction t generalizing t' key with
  | null => simp [remove] at h; subst h; simp [inOrder]
  | mk k hh s left right ihl ihr =>
    have hs' := hs
    simp only [inOrder] at hs'
    rw [sorted_mid_iff] at hs'
    obtain ⟨hL, hR, hLk, hkR⟩ := hs'
    unfold remove at h
    split_ifs at h with hlt hgt hnull hleft
    · cases hl : remove left key with
      | none => rw [hl] at h; cases h
      | some left' =>
        rw [hl] at h
        rw [inOrder_removeBalance h]
        simp only [inOrder]
        rw [erase_mid_lt _ _ _ _ hs hlt, ihl hL hl]
    · cases hr : remove right key with
      | none => rw [hr] at h; cases h
      | some right' =>
        rw [hr] at h
        rw [inOrder_removeBalance h]
        simp only [inOrder]
        rw [erase_mid_gt _ _ _ _ hs hgt, ihr hR hr]
    · have hk : key = k := le_antisymm (not_lt.1 hgt) (not_lt.1 hlt)
      subst hk
      rw [inOrder_removeBalance h]
      simp only [inOrder]
      rw [erase_mid _ _ _ hs]
      cases left <;> cases right <;> simp [Node.isNull, inOrder] at hnull hleft ⊢
    · have hk : key = k := le_antisymm (not_lt.1 hgt) (not_lt.1 hlt)
      subst hk
      rw [inOrder_removeBalance h]
      simp only [inOrder]
      rw [erase_mid _ _ _ hs]
      cases left <;> cases right <;> simp [Node.isNull, inOrder] at hnull hleft ⊢
    · have hk : key = k := le_antisymm (not_lt.1 hgt) (not_lt.1 hlt)
      subst hk
      cases hm : minValueNode right with
      | none => rw [hm] at h; cases h
      | some temp =>
        rw [hm] at h
        cases temp with
        | null => cases h
        | mk tk th ts tl tr =>
          simp only at h
          obtain ⟨rest, hrest⟩ := minValueNode_inOrder hm
          cases hr : remove right tk with
          | none => rw [hr] at h; cases h
          | some right' =>
            rw [hr] at h
            rw [inOrder_removeBalance h]
            simp only [inOrder]
            rw [erase_mid _ _ _ hs, ihr hR hr, hrest]
            simp

/-! ## AVL tree: the size counters -/

theorem sizeInv_update_mk {k : ℚ} {hh s : ℤ} {left right : Node}
    (hl : SizeInv left) (hr : SizeInv right) : SizeInv (update (.mk k hh s left right)) := by
  simp [update, SizeInv, hl, hr]

theorem sizeInv_rightRotate {k : ℚ} {hh s : ℤ} {left right t' : Node}
    (hl : SizeInv left) (hr : SizeInv right)
    (h : rightRotate (.mk k hh s left right) = some t') : SizeInv t' := by
  cases left with
  | null => simp [rightRotate] at h
  | mk lk lh ls ll lr =>
    simp only [rightRotate, Option.some.injEq] at h
    subst h
    simp only [SizeInv] at hl
    simp [update, SizeInv, getSize, hl.1, hl.2.1, hr]

theorem sizeInv_leftRotate {k : ℚ} {hh s : ℤ} {left right t' : Node}
    (hl : SizeInv left) (hr : SizeInv right)
    (h : leftRotate (.mk k hh s left right) = some t') : SizeInv t' := by
  cases right with
  | null => simp [leftRotate] at h
  | mk rk rh rs rl rr =>
    simp only [leftRotate, Option.some.injEq] at h
    subst h
    simp only [SizeInv] at hr
    simp [update, SizeInv, getSize, hr.1, hr.2.1, hl]

theorem sizeInv_insertBalance {k : ℚ} {hh s : ℤ} {left right t' : Node} {key : ℚ}
    (hl : SizeInv left) (hr : SizeInv right)
    (h : insertBalance (update (.mk k hh s left right)) key = some t') : SizeInv t' := by
  simp only [update, insertBalance] at h
  split_ifs at h with h1 h2
  · cases left with
    | null => cases h
    | mk lk lh ls ll lr =>
      simp only at h
      split_ifs at h with h4
      · exact sizeInv_rightRotate hl hr h
      · cases hlr : leftRotate (.mk lk lh ls ll lr) with
        | none => rw [hlr] at h; cases h
        | some left' =>
          rw [hlr] at h
          simp only [SizeInv] at hl
          exact sizeInv_rightRotate (sizeInv_leftRotate hl.1 hl.2.1 hlr) hr h
  · cases right with
    | null => cases h
    | mk rk rh rs rl rr =>
      simp only at h
      split_ifs at h with h4
      · exact sizeInv_leftRotate hl hr h
      · cases hrr : rightRotate (.mk rk rh rs rl rr) with
        | none => rw [hrr] at h; cases h
        | some right' =>
          rw [hrr] at h
          simp only [SizeInv] at hr
          exact sizeInv_leftRotate hl (sizeInv_rightRotate hr.1 hr.2.1 hrr) h
  · cases h
    simp [SizeInv, hl, hr]

theorem sizeInv_removeBalance_mk {k : ℚ} {hh s : ℤ} {left right t' : Node}
    (hl : SizeInv left) (hr : SizeInv right)
    (h : removeBalance (.mk k hh s left right) = some t') : SizeInv t' := by
  simp only [update, removeBalance] at h
  split_ifs at h with h1 h2 h3 h4
  · exact sizeInv_rightRotate hl hr h
  · cases hlr : leftRotate left with
    | none => rw [hlr] at h; cases h
    | some left' =>
      rw [hlr] at h
      cases left with
      | null => simp [leftRotate] at hlr
      | mk lk lh ls ll lr =>
        simp only [SizeInv] at hl
        exact sizeInv_rightRotate (sizeInv_leftRotate hl.1 hl.2.1 hlr) hr h
  · exact sizeInv_leftRotate hl hr h
  · cases hrr : rightRotate right with
    | none => rw [hrr] at h; cases h
    | some right' =>
      rw [hrr] at h
      cases right with
      | null => simp [rightRotate] at hrr
      | mk rk rh rs rl rr =>
        simp only [SizeInv] at hr
        exact sizeInv_leftRotate hl (sizeInv_rightRotate hr.1 hr.2.1 hrr) h
  · cases h
    simp [SizeInv, hl, hr]

theorem sizeInv_removeBalance {t t' : Node} (ht : SizeInv t)
    (h : removeBalance t = some t') : SizeInv t' := by
  cases t with
  | null => simp [removeBalance, update] at h; subst h; trivial
  | mk k hh s left right =>
    simp only [SizeInv] at ht
    exact sizeInv_removeBalance_mk ht.1 ht.2.1 h

theorem insert_sizeInv {t t' : Node} {key : ℚ} (ht : SizeInv t)
    (h : insert t key = some t') : SizeInv t' := by
  induction t generalizing t' with
  | null => simp [insert] at h; subst h; simp [SizeInv, getSize]
  | mk k hh s left right ihl ihr =>
    simp only [SizeInv] at ht
    unfold insert at h
    split_ifs at h with hlt
    · cases hl : insert left key with
      | none => rw [hl] at h; cases h
      | some left' =>
        rw [hl] at h
        exact sizeInv_insertBalance (ihl ht.1 hl) ht.2.1 h
    · cases hr : insert right key with
      | none => rw [hr] at h; cases h
      | some right' =>
        rw [hr] at h
        exact sizeInv_insertBalance ht.1 (ihr ht.2.1 hr) h

theorem remove_sizeInv {t t' : Node} {key : ℚ} (ht : SizeInv t)
    (h : remove t key = some t') : SizeInv t' := by
  induction t generalizing t' key with
  | null => simp [remove] at h; subst h; trivial
  | mk k hh s left right ihl ihr =>
    simp only [SizeInv] at ht
    unfold remove at h
    split_ifs at h with hlt hgt hnull hleft
    · cases hl : remove left key with
      | none => rw [hl] at h; cases h
      | some left' =>
        rw [hl] at h
        exact sizeInv_removeBalance_mk (ihl ht.1 hl) ht.2.1 h
    · cases hr : remove right key with
      | none => rw [hr] at h; cases h
      | some right' =>
        rw [hr] at h
        exact sizeInv_removeBalance_mk ht.1 (ihr ht.2.1 hr) h
    · exact sizeInv_removeBalance ht.1 h
    · exact sizeInv_removeBalance ht.2.1 h
    · cases hm : minValueNode right with
      | none => rw [hm] at h; cases h
      | some temp =>
        rw [hm] at h
        cases temp with
        | null => cases h
        | mk tk th ts tl tr =>
          simp only at h
          cases hr : remove right tk with
          | none => rw [hr] at h; cases h
          | some right' =>
            rw [hr] at h
            exact sizeInv_removeBalance_mk ht.1 (ihr ht.2.1 hr) h

theorem getSize_eq_length {t : Node} (ht : SizeInv t) : getSize t = (inOrder t).length := by
  induction t with
  | null => simp [getSize, inOrder]
  | mk k hh s left right ihl ihr =>
    simp only [SizeInv] at ht
    simp only [getSize, inOrder, List.length_append, List.length_cons]
    rw [ht.2.2, ihl ht.1, ihr ht.2.1]
    push_cast
    ring

theorem findKthSmallest_eq {t : Node} (ht : SizeInv t) (k : ℤ) (h1 : 1 ≤ k)
    (h2 : k ≤ getSize t) : (inOrder t)[(k - 1).toNat]? = some (findKthSmallest t k) := by
  induction t generalizing k with
  | null => simp [getSize] at h2; omega
  | mk key hh s left right ihl ihr =>
    simp only [SizeInv] at ht
    have hsl := getSize_eq_length ht.1
    have hsr := getSize_eq_length ht.2.1
    simp only [getSize] at h2
    rw [ht.2.2] at h2
    simp only [findKthSmallest, inOrder]
    split_ifs with hk hk2
    · have : (k - 1).toNat = (inOrder left).length := by omega
      rw [this, List.getElem?_append_right (le_refl _)]
      simp
    · have hlt : (k - 1).toNat < (inOrder left).length := by omega
      rw [List.getElem?_append_left hlt]
      exact ihl ht.1 k h1 hk2
    · have hge : (inOrder left).length ≤ (k - 1).toNat := by omega
      rw [List.getElem?_append_right hge]
      have hidx : (k - 1).toNat - (inOrder left).length
          = (k - (getSize left + 1) - 1).toNat + 1 := by omega
      rw [hidx, List.getElem?_cons_succ]
      exact ihr ht.2.1 _ (by omega) (by omega)

/-! ## AVL tree: heights and balance -/

theorem height_null : height .null = 0 := rfl

theorem height_mk (k : ℚ) (hh s : ℤ) (left right : Node) :
    height (.mk k hh s left right) = hh := rfl

theorem getSize_null : getSize .null = 0 := rfl

theorem getSize_mk (k : ℚ) (hh s : ℤ) (left right : Node) :
    getSize (.mk k hh s left right) = s := rfl

theorem balanced_mk_iff (k : ℚ) (hh s : ℤ) (left right : Node) :
    Balanced (.mk k hh s left right) ↔
      Balanced left ∧ Balanced right ∧ hh = 1 + max (height left) (height right) ∧
        -1 ≤ height left - height right ∧ height left - height right ≤ 1 := by
  simp only [Balanced, abs_le]

theorem height_nonneg {t : Node} (ht : Balanced t) : 0 ≤ height t := by
  induction t with
  | null => simp [height]
  | mk k hh s left right ihl ihr =>
    rw [balanced_mk_iff] at ht
    have h1 := ihl ht.1
    have h2 := ihr ht.2.1
    simp only [height]
    omega

theorem exists_mk_of_height_pos {t : Node} (h : 1 ≤ height t) :
    ∃ k hh s left right, t = .mk k hh s left right := by
  cases t with
  | null => simp [height] at h
  | mk k hh s left right => exact ⟨k, hh, s, left, right, rfl⟩

theorem insertBalance_balanced (k : ℚ) (hh s : ℤ) {l r : Node} (key : ℚ)
    (hl : Balanced l) (hr : Balanced r)
    (hb1 : -2 ≤ height l - height r) (hb2 : height l - height r ≤ 2)
    (hL : height l - height r = 2 → ∃ lk lh ls ll lr, l = .mk lk lh ls ll lr ∧
      (key < lk → height ll = height lr + 1) ∧ (¬ key < lk → height lr = height ll + 1))
    (hR : height l - height r = -2 → ∃ rk rh rs rl rr, r = .mk rk rh rs rl rr ∧
      (key < rk → height rl = height rr + 1) ∧ (¬ key < rk → height rr = height rl + 1)) :
    ∃ t', insertBalance (update (.mk k hh s l r)) key = some t' ∧ Balanced t' ∧
      ((-1 ≤ height l - height r ∧ height l - height r ≤ 1) → t' = update (.mk k hh s l r)) ∧
      ((height l - height r = 2 ∨ height l - height r = -2) →
        height t' = max (height l) (height r)) := by
  have hnl := height_nonneg hl
  have hnr := height_nonneg hr
  simp only [update, insertBalance, getBalance]
  split_ifs with h1 h2
  · have hb : height l - height r = 2 := by omega
    obtain ⟨lk, lh, ls, ll, lr, rfl, hlt, hge⟩ := hL hb
    rw [balanced_mk_iff] at hl
    obtain ⟨hll, hlr, hlh, hl1, hl2⟩ := hl
    have hnll := height_nonneg hll
    have hnlr := height_nonneg hlr
    simp only [height_mk] at hb hnl
    simp only
    split_ifs with hk
    · have := hlt hk
      refine ⟨_, rfl, ?_, ?_, ?_⟩
      · simp only [update, balanced_mk_iff, height_mk]
        refine ⟨hll, ⟨hlr, hr, ?_, ?_, ?_⟩, ?_, ?_, ?_⟩ <;> first | trivial | omega
      · intro hc; simp only [height_mk] at hc; omega
      · intro _; simp only [update, height_mk]; omega
    · have hlr1 := hge hk
      obtain ⟨xk, xh, xs, xl, xr, rfl⟩ := exists_mk_of_height_pos (t := lr) (by omega)
      rw [balanced_mk_iff] at hlr
      obtain ⟨hxl, hxr, hxh, hx1, hx2⟩ := hlr
      have hnxl := height_nonneg hxl
      have hnxr := height_nonneg hxr
      simp only [height_mk] at hlr1 hlh hl1 hl2 hnlr
      refine ⟨_, rfl, ?_, ?_, ?_⟩
      · simp only [update, balanced_mk_iff, height_mk]
        refine ⟨⟨hll, hxl, ?_, ?_, ?_⟩, ⟨hxr, hr, ?_, ?_, ?_⟩, ?_, ?_, ?_⟩ <;> first | trivial | omega
      · intro hc; simp only [height_mk] at hc; omega
      · intro _; simp only [update, height_mk]; omega
  · have hb : height l - height r = -2 := by omega
    obtain ⟨rk, rh, rs, rl, rr, rfl, hlt, hge⟩ := hR hb
    rw [balanced_mk_iff] at hr
    obtain ⟨hrl, hrr, hrh, hr1, hr2⟩ := hr
    have hnrl := height_nonneg hrl
    have hnrr := height_nonneg hrr
    simp only [height_mk] at hb hnr
    simp only
    split_ifs with hk
    · have := hge (not_lt.2 hk)
      refine ⟨_, rfl, ?_, ?_, ?_⟩
      · simp only [update, balanced_mk_iff, height_mk]
        refine ⟨⟨hl, hrl, ?_, ?_, ?_⟩, hrr, ?_, ?_, ?_⟩ <;> first | trivial | omega
      · intro hc; simp only [height_mk] at hc; omega
      · intro _; simp only [update, height_mk]; omega
    · have hrl1 := hlt (not_le.1 hk)
      obtain ⟨xk, xh, xs, xl, xr, rfl⟩ := exists_mk_of_height_pos (t := rl) (by omega)
      rw [balanced_mk_iff] at hrl
      obtain ⟨hxl, hxr, hxh, hx1, hx2⟩ := hrl
      have hnxl := height_nonneg hxl
      have hnxr := height_nonneg hxr
      simp only [height_mk] at hrl1 hrh hr1 hr2 hnrl
      refine ⟨_, rfl, ?_, ?_, ?_⟩
      · simp only [update, balanced_mk_iff, height_mk]
        refine ⟨⟨hl, hxl, ?_, ?_, ?_⟩, ⟨hxr, hrr, ?_, ?_, ?_⟩, ?_, ?_, ?_⟩ <;> first | trivial | omega
      · intro hc; simp only [height_mk] at hc; omega
      · intro _; simp only [update, height_mk]; omega
  · refine ⟨_, rfl, ?_, fun _ => rfl, ?_⟩
    · rw [balanced_mk_iff]
      refine ⟨hl, hr, rfl, ?_, ?_⟩ <;> first | trivial | omega
    · intro hc; omega

theorem insert_balanced (t : Node) (key : ℚ) (ht : Balanced t) :
    ∃ t', insert t key = some t' ∧ Balanced t' ∧
      (height t' = height t ∨ height t' = height t + 1) ∧
      (height t' = height t + 1 → 1 ≤ height t →
        ∃ k' h' s' l' r', t' = .mk k' h' s' l' r' ∧
          (key < k' → height l' = height r' + 1) ∧
          (¬ key < k' → height r' = height l' + 1)) := by
  induction t with
  | null =>
    refine ⟨.mk key 1 1 .null .null, rfl, ?_, Or.inr rfl, ?_⟩
    · simp [balanced_mk_iff, Balanced, height_null]
    · intro _ h; simp [height_null] at h
  | mk k hh s left right ihl ihr =>
    rw [balanced_mk_iff] at ht
    obtain ⟨hl, hr, hhh, hb1, hb2⟩ := ht
    have hnl := height_nonneg hl
    have hnr := height_nonneg hr
    unfold insert
    split_ifs with hlt
    · obtain ⟨left', hins, hbl', hgrow, hshape⟩ := ihl hl
      rw [hins]
      obtain ⟨t', ht', hbt', hsame, hrot⟩ :=
        insertBalance_balanced k hh s key hbl' hr
          (by omega) (by omega)
          (fun h2 => hshape (by omega) (by omega))
          (fun h2 => by omega)
      refine ⟨t', ht', hbt', ?_, ?_⟩
      · simp only [height_mk]
        by_cases hc : height left' - height right ≤ 1
        · rw [hsame ⟨by omega, hc⟩]
          simp only [update, height_mk]
          omega
        · rw [hrot (Or.inl (by omega))]
          omega
      · intro hg _
        simp only [height_mk] at hg
        by_cases hc : height left' - height right ≤ 1
        · have he := hsame ⟨by omega, hc⟩
          rw [he] at hg
          simp only [update, height_mk] at hg
          refine ⟨k, _, _, left', right, he, fun _ => by omega, fun hn => absurd hlt hn⟩
        · rw [hrot (Or.inl (by omega))] at hg
          omega
    · obtain ⟨right', hins, hbr', hgrow, hshape⟩ := ihr hr
      rw [hins]
      obtain ⟨t', ht', hbt', hsame, hrot⟩ :=
        insertBalance_balanced k hh s key hl hbr'
          (by omega) (by omega)
          (fun h2 => by omega)
          (fun h2 => hshape (by omega) (by omega))
      refine ⟨t', ht', hbt', ?_, ?_⟩
      · simp only [height_mk]
        by_cases hc : -1 ≤ height left - height right'
        · rw [hsame ⟨hc, by omega⟩]
          simp only [update, height_mk]
          omega
        · rw [hrot (Or.inr (by omega))]
          omega
      · intro hg _
        simp only [height_mk] at hg
        by_cases hc : -1 ≤ height left - height right'
        · have he := hsame ⟨hc, by omega⟩
          rw [he] at hg
          simp only [update, height_mk] at hg
          refine ⟨k, _, _, left, right', he, fun hn => absurd hn hlt, fun _ => by omega⟩
        · rw [hrot (Or.inr (by omega))] at hg
          omega

theorem getBalance_mk (k : ℚ) (hh s : ℤ) (left right : Node) :
    getBalance (.mk k hh s left right) = height left - height right := rfl

theorem removeBalance_balanced (k : ℚ) (hh s : ℤ) {l r : Node}
    (hl : Balanced l) (hr : Balanced r)
    (hb1 : -2 ≤ height l - height r) (hb2 : height l - height r ≤ 2) :
    ∃ t', removeBalance (.mk k hh s l r) = some t' ∧ Balanced t' ∧
      max (height l) (height r) ≤ height t' ∧ height t' ≤ 1 + max (height l) (height r) ∧
      ((-1 ≤ height l - height r ∧ height l - height r ≤ 1) →
        t' = update (.mk k hh s l r)) := by
  have hnl := height_nonneg hl
  have hnr := height_nonneg hr
  by_cases h1 : height l - height r > 1
  · obtain ⟨lk, lh, ls, ll, lr, rfl⟩ := exists_mk_of_height_pos (t := l) (by omega)
    rw [balanced_mk_iff] at hl
    obtain ⟨hll, hlr, hlh, hl1, hl2⟩ := hl
    have hnll := height_nonneg hll
    have hnlr := height_nonneg hlr
    simp only [height_mk] at hb1 hb2 h1 hnl
    by_cases h2 : height ll - height lr ≥ 0
    · refine ⟨update (.mk lk lh ls ll (update (.mk k hh s lr r))), ?_, ?_, ?_, ?_, ?_⟩
      · simp only [removeBalance, update, getBalance_mk, height_mk]
        rw [if_pos ⟨h1, h2⟩]
        rfl
      · simp only [update, balanced_mk_iff, height_mk]
        refine ⟨hll, ⟨hlr, hr, ?_, ?_, ?_⟩, ?_, ?_, ?_⟩ <;> first | trivial | omega
      · simp only [update, height_mk]; omega
      · simp only [update, height_mk]; omega
      · intro hc; simp only [height_mk] at hc; omega
    · obtain ⟨xk, xh, xs, xl, xr, rfl⟩ := exists_mk_of_height_pos (t := lr) (by omega)
      rw [balanced_mk_iff] at hlr
      obtain ⟨hxl, hxr, hxh, hx1, hx2⟩ := hlr
      have hnxl := height_nonneg hxl
      have hnxr := height_nonneg hxr
      simp only [height_mk] at hlh hl1 hl2 hnlr h2
      refine ⟨update (.mk xk xh xs (update (.mk lk lh ls ll xl)) (update (.mk k hh s xr r))),
        ?_, ?_, ?_, ?_, ?_⟩
      · simp only [removeBalance, update, getBalance_mk, height_mk]
        rw [if_neg (fun hc => h2 hc.2), if_pos ⟨h1, by omega⟩]
        rfl
      · simp only [update, balanced_mk_iff, height_mk]
        refine ⟨⟨hll, hxl, ?_, ?_, ?_⟩, ⟨hxr, hr, ?_, ?_, ?_⟩, ?_, ?_, ?_⟩ <;>
          first | trivial | omega
      · simp only [update, height_mk]; omega
      · simp only [update, height_mk]; omega
      · intro hc; simp only [height_mk] at hc; omega
  · by_cases h3 : height l - height r < -1
    · obtain ⟨rk, rh, rs, rl, rr, rfl⟩ := exists_mk_of_height_pos (t := r) (by omega)
      rw [balanced_mk_iff] at hr
      obtain ⟨hrl, hrr, hrh, hr1, hr2⟩ := hr
      have hnrl := height_nonneg hrl
      have hnrr := height_nonneg hrr
      simp only [height_mk] at hb1 hb2 h1 h3 hnr
      by_cases h4 : height rl - height rr ≤ 0
      · refine ⟨update (.mk rk rh rs (update (.mk k hh s l rl)) rr), ?_, ?_, ?_, ?_, ?_⟩
        · simp only [removeBalance, update, getBalance_mk, height_mk]
          rw [if_neg (fun hc => h1 hc.1), if_neg (fun hc => h1 hc.1), if_pos ⟨h3, h4⟩]
          rfl
        · simp only [update, balanced_mk_iff, height_mk]
          refine ⟨⟨hl, hrl, ?_, ?_, ?_⟩, hrr, ?_, ?_, ?_⟩ <;> first | trivial | omega
        · simp only [update, height_mk]; omega
        · simp only [update, height_mk]; omega
        · intro hc; simp only [height_mk] at hc; omega
      · obtain ⟨xk, xh, xs, xl, xr, rfl⟩ := exists_mk_of_height_pos (t := rl) (by omega)
        rw [balanced_mk_iff] at hrl
        obtain ⟨hxl, hxr, hxh, hx1, hx2⟩ := hrl
        have hnxl := height_nonneg hxl
        have hnxr := height_nonneg hxr
        simp only [height_mk] at hrh hr1 hr2 hnrl h4
        refine ⟨update (.mk xk xh xs (update (.mk k hh s l xl)) (update (.mk rk rh rs xr rr))),
          ?_, ?_, ?_, ?_, ?_⟩
        · simp only [removeBalance, update, getBalance_mk, height_mk]
          rw [if_neg (fun hc => h1 hc.1), if_neg (fun hc => h1 hc.1),
            if_neg (fun hc => h4 hc.2), if_pos ⟨h3, by omega⟩]
          rfl
        · simp only [update, balanced_mk_iff, height_mk]
          refine ⟨⟨hl, hxl, ?_, ?_, ?_⟩, ⟨hxr, hrr, ?_, ?_, ?_⟩, ?_, ?_, ?_⟩ <;>
            first | trivial | omega
        · simp only [update, height_mk]; omega
        · simp only [update, height_mk]; omega
        · intro hc; simp only [height_mk] at hc; omega
    · refine ⟨update (.mk k hh s l r), ?_, ?_, ?_, ?_, fun _ => rfl⟩
      · simp only [removeBalance, update, getBalance_mk]
        rw [if_neg (fun hc => h1 hc.1), if_neg (fun hc => h1 hc.1),
          if_neg (fun hc => h3 hc.1), if_neg (fun hc => h3 hc.1)]
      · simp only [update, balanced_mk_iff]
        refine ⟨hl, hr, trivial, ?_, ?_⟩ <;> omega
      · simp only [update, height_mk]; omega
      · simp only [update, height_mk]; omega

theorem height_removeBalance_child {t : Node} (ht : Balanced t) :
    ∃ t', removeBalance t = some t' ∧ Balanced t' ∧ height t' = height t := by
  cases t with
  | null => exact ⟨.null, rfl, trivial, rfl⟩
  | mk k hh s l r =>
    rw [balanced_mk_iff] at ht
    obtain ⟨hl, hr, hhh, hb1, hb2⟩ := ht
    obtain ⟨t', ht', hbt', _, _, hsame⟩ :=
      removeBalance_balanced k hh s hl hr (by omega) (by omega)
    refine ⟨t', ht', hbt', ?_⟩
    rw [hsame ⟨hb1, hb2⟩]
    simp only [update, height_mk]
    omega

theorem remove_balanced (t : Node) (key : ℚ) (ht : Balanced t) :
    ∃ t', remove t key = some t' ∧ Balanced t' ∧
      height t - 1 ≤ height t' ∧ height t' ≤ height t := by
  induction t generalizing key with
  | null => exact ⟨.null, rfl, trivial, by simp [height_null], le_refl _⟩
  | mk k hh s left right ihl ihr =>
    have ht0 := ht
    rw [balanced_mk_iff] at ht
    obtain ⟨hl, hr, hhh, hb1, hb2⟩ := ht
    have hnl := height_nonneg hl
    have hnr := height_nonneg hr
    have key_step : ∀ (k0 : ℚ) (l' r' : Node), Balanced l' → Balanced r' →
        height left - 1 ≤ height l' → height l' ≤ height left →
        height right - 1 ≤ height r' → height r' ≤ height right →
        (height l' = height left ∨ height r' = height right) →
        ∃ t', removeBalance (.mk k0 hh s l' r') = some t' ∧ Balanced t' ∧
          height (.mk k hh s left right) - 1 ≤ height t' ∧
          height t' ≤ height (.mk k hh s left right) := by
      intro k0 l' r' hbl' hbr' hl1 hl2 hr1 hr2 hone
      obtain ⟨t', ht', hbt', h1, h2, hsame⟩ :=
        removeBalance_balanced k0 hh s hbl' hbr' (by omega) (by omega)
      refine ⟨t', ht', hbt', ?_⟩
      simp only [height_mk]
      by_cases hc : -1 ≤ height l' - height r' ∧ height l' - height r' ≤ 1
      · have he : height t' = 1 + max (height l') (height r') := by rw [hsame hc]; rfl
        omega
      · omega
    unfold remove
    split_ifs with hlt hgt hnull hleft
    · obtain ⟨left', hrem, hbl', hlo, hhi⟩ := ihl key hl
      rw [hrem]
      exact key_step k left' right hbl' hr hlo hhi (by omega) (le_refl _) (Or.inr rfl)
    · obtain ⟨right', hrem, hbr', hlo, hhi⟩ := ihr key hr
      rw [hrem]
      exact key_step k left right' hl hbr' (by omega) (le_refl _) hlo hhi (Or.inl rfl)
    · obtain ⟨t', ht', hbt', he⟩ := height_removeBalance_child hl
      refine ⟨t', ht', hbt', ?_⟩
      cases right with
      | null => simp only [height_mk, height_null] at *; omega
      | mk rk rh rs rl rr =>
        cases left <;> simp [Node.isNull] at hnull hleft
    · obtain ⟨t', ht', hbt', he⟩ := height_removeBalance_child hr
      refine ⟨t', ht', hbt', ?_⟩
      cases left with
      | null => simp only [height_mk, height_null] at *; omega
      | mk lk lh ls ll lr => simp [Node.isNull] at hleft
    · cases right with
      | null => simp [Node.isNull] at hnull
      | mk rk rh rs rl rr =>
        obtain ⟨tk, th, ts, tl, tr, hm⟩ := minValueNode_mk rk rh rs rl rr
        rw [hm]
        simp only
        obtain ⟨right', hrem, hbr', hlo, hhi⟩ := ihr tk hr
        rw [hrem]
        exact key_step tk left right' hl hbr' (by omega) (le_refl _) hlo hhi (Or.inl rfl)

/-! ## AVL tree: invariants of every reachable tree -/

theorem remove_sorted {t t' : Node} {key : ℚ} (hs : (inOrder t).Sorted (· ≤ ·))
    (h : remove t key = some t') : (inOrder t').Sorted (· ≤ ·) := by
  rw [remove_inOrder hs h]
  exact hs.sublist (List.erase_sublist _ _)

theorem step_inv {t : Node} (hb : Balanced t) (hz : SizeInv t)
    (hs : (inOrder t).Sorted (· ≤ ·)) (op : Op) :
    ∃ t', step t op = some t' ∧ Balanced t' ∧ SizeInv t' ∧ (inOrder t').Sorted (· ≤ ·) := by
  cases op with
  | insert value =>
    obtain ⟨t', ht', hb', _⟩ := insert_balanced t value hb
    exact ⟨t', ht', hb', insert_sizeInv hz ht', insert_sorted hs ht'⟩
  | remove value =>
    obtain ⟨t', ht', hb', _⟩ := remove_balanced t value hb
    exact ⟨t', ht', hb', remove_sizeInv hz ht', remove_sorted hs ht'⟩

theorem runFrom_inv (ops : List Op) {t : Node} (hb : Balanced t) (hz : SizeInv t)
    (hs : (inOrder t).Sorted (· ≤ ·)) :
    ∃ t', runFrom t ops = some t' ∧ Balanced t' ∧ SizeInv t' ∧
      (inOrder t').Sorted (· ≤ ·) := by
  induction ops generalizing t with
  | nil => exact ⟨t, rfl, hb, hz, hs⟩
  | cons op ops ih =>
    obtain ⟨t1, h1, hb1, hz1, hs1⟩ := step_inv hb hz hs op
    obtain ⟨t2, h2, hb2, hz2, hs2⟩ := ih hb1 hz1 hs1
    exact ⟨t2, by simp only [runFrom, h1, h2], hb2, hz2, hs2⟩

theorem run_inv (ops : List Op) :
    ∃ t, run ops = some t ∧ Balanced t ∧ SizeInv t ∧ (inOrder t).Sorted (· ≤ ·) :=
  runFrom_inv ops (t := .null) trivial trivial (by simp [inOrder])

theorem reachable_inv {t : Node} (h : Reachable t) :
    Balanced t ∧ SizeInv t ∧ (inOrder t).Sorted (· ≤ ·) := by
  obtain ⟨ops, hops⟩ := h
  obtain ⟨t', ht', hb, hz, hs⟩ := run_inv ops
  rw [hops] at ht'
  cases ht'
  exact ⟨hb, hz, hs⟩

end SensorAVL

/-! ## Red-black tree: the in-order sequence -/

namespace SensorRedBlack

theorem size_null : size .null = 0 := rfl

theorem size_mk (k : ℚ) (left right : Node) (c : Bool) (s : ℤ) :
    size (.mk k left right c s) = s := rfl

theorem inOrder_updateSize (t : Node) : inOrder (updateSize t) = inOrder t := by
  cases t <;> simp [updateSize, inOrder]

theorem inOrder_flipChild (t : Node) : inOrder (flipChild t) = inOrder t := by
  cases t <;> simp [flipChild, inOrder]

theorem inOrder_flipColors (t : Node) : inOrder (flipColors t) = inOrder t := by
  cases t <;> simp [flipColors, inOrder, inOrder_flipChild]

theorem inOrder_blacken (t : Node) : inOrder (blacken t) = inOrder t := by
  cases t <;> simp [blacken, inOrder]

theorem inOrder_rotateLeft {t t' : Node} (h : rotateLeft t = some t') :
    inOrder t' = inOrder t := by
  unfold rotateLeft at h
  split at h
  · cases h; simp [updateSize, inOrder]
  · cases h

theorem inOrder_rotateRight {t t' : Node} (h : rotateRight t = some t') :
    inOrder t' = inOrder t := by
  unfold rotateRight at h
  split at h
  · cases h; simp [updateSize, inOrder]
  · cases h

theorem inOrder_insertFix {t t' : Node} (h : insertFix t = some t') :
    inOrder t' = inOrder t := by
  unfold insertFix at h
  split at h
  · cases h
  · rename_i h1 e1
    split at h
    · cases h
    · rename_i h2 e2
      cases h
      have a1 : inOrder h1 = inOrder t := by
        split_ifs at e1
        · exact inOrder_rotateLeft e1
        · cases e1; rfl
      have a2 : inOrder h2 = inOrder h1 := by
        split_ifs at e2
        · exact inOrder_rotateRight e2
        · cases e2; rfl
      rw [inOrder_updateSize]
      split_ifs
      · rw [inOrder_flipColors, a2, a1]
      · rw [a2, a1]

theorem insertFix_mk (k : ℚ) (left right : Node) (c : Bool) (s : ℤ) :
    ∃ k' l' r' c' s', insertFix (.mk k left right c s) = some (.mk k' l' r' c' s') := by
  have step1 : ∃ k1 l1 r1 c1 s1,
      (if isRed (Node.mk k left right c s).right && !isRed (Node.mk k left right c s).left
        then rotateLeft (.mk k left right c s) else some (.mk k left right c s))
        = some (.mk k1 l1 r1 c1 s1) := by
    split_ifs with hc
    · cases right with
      | null => simp [Node.right, isRed] at hc
      | mk rk rl rr rc rs => exact ⟨_, _, _, _, _, rfl⟩
    · exact ⟨_, _, _, _, _, rfl⟩
  obtain ⟨k1, l1, r1, c1, s1, e1⟩ := step1
  have step2 : ∃ k2 l2 r2 c2 s2,
      (if isRed (Node.mk k1 l1 r1 c1 s1).left && isRed (Node.mk k1 l1 r1 c1 s1).left.left
        then rotateRight (.mk k1 l1 r1 c1 s1) else some (.mk k1 l1 r1 c1 s1))
        = some (.mk k2 l2 r2 c2 s2) := by
    split_ifs with hc
    · cases l1 with
      | null => simp [Node.left, isRed] at hc
      | mk lk ll lr lc ls => exact ⟨_, _, _, _, _, rfl⟩
    · exact ⟨_, _, _, _, _, rfl⟩
  obtain ⟨k2, l2, r2, c2, s2, e2⟩ := step2
  unfold insertFix
  rw [e1]
  simp only
  rw [e2]
  simp only
  split_ifs
  · exact ⟨_, _, _, _, _, rfl⟩
  · exact ⟨_, _, _, _, _, rfl⟩

theorem insert_mk (t : Node) (key : ℚ) :
    ∃ k' l' r' c' s', insert t key = some (.mk k' l' r' c' s') := by
  induction t with
  | null => exact ⟨_, _, _, _, _, rfl⟩
  | mk k left right c s ihl ihr =>
    unfold insert
    split_ifs with hlt
    · obtain ⟨k', l', r', c', s', e⟩ := ihl
      rw [e]
      exact insertFix_mk _ _ _ _ _
    · obtain ⟨k', l', r', c', s', e⟩ := ihr
      rw [e]
      exact insertFix_mk _ _ _ _ _

theorem rb_insert_perm {t t' : Node} {key : ℚ} (h : insert t key = some t') :
    (inOrder t').Perm (key :: inOrder t) := by
  induction t generalizing t' with
  | null => simp [insert] at h; subst h; simp [inOrder]
  | mk k left right c s ihl ihr =>
    unfold insert at h
    split_ifs at h with hlt
    · cases hl : insert left key with
      | none => rw [hl] at h; cases h
      | some left' =>
        rw [hl] at h
        rw [inOrder_insertFix h]
        simp only [inOrder]
        exact ((ihl hl).append_right _).trans (by simp)
    · cases hr : insert right key with
      | none => rw [hr] at h; cases h
      | some right' =>
        rw [hr] at h
        rw [inOrder_insertFix h]
        simp only [inOrder]
        have hp := ((ihr hr).cons k).append_left (inOrder left)
        refine hp.trans ?_
        rw [show inOrder left ++ k :: key :: inOrder right
            = (inOrder left ++ [k]) ++ key :: inOrder right by simp]
        exact List.perm_middle.trans (by simp)

theorem rb_insert_sorted {t t' : Node} {key : ℚ} (hs : (inOrder t).Sorted (· ≤ ·))
    (h : insert t key = some t') : (inOrder t').Sorted (· ≤ ·) := by
  induction t generalizing t' with
  | null => simp [insert] at h; subst h; simp [inOrder]
  | mk k left right c s ihl ihr =>
    simp only [inOrder] at hs
    rw [sorted_mid_iff] at hs
    obtain ⟨hL, hR, hLk, hkR⟩ := hs
    unfold insert at h
    split_ifs at h with hlt
    · cases hl : insert left key with
      | none => rw [hl] at h; cases h
      | some left' =>
        rw [hl] at h
        rw [inOrder_insertFix h]
        simp only [inOrder]
        rw [sorted_mid_iff]
        refine ⟨ihl hL hl, hR, ?_, hkR⟩
        intro a ha
        rcases List.mem_cons.1 ((rb_insert_perm hl).mem_iff.1 ha) with rfl | ha
        · exact le_of_lt hlt
        · exact hLk a ha
    · cases hr : insert right key with
      | none => rw [hr] at h; cases h
      | some right' =>
        rw [hr] at h
        rw [inOrder_insertFix h]
        simp only [inOrder]
        rw [sorted_mid_iff]
        refine ⟨hL, ihr hR hr, hLk, ?_⟩
        intro b hb
        rcases List.mem_cons.1 ((rb_insert_perm hr).mem_iff.1 hb) with rfl | hb
        · exact not_lt.1 hlt
        · exact hkR b hb

theorem minNode_inOrder {t : Node} {tk : ℚ} {tl tr : Node} {tc : Bool} {ts : ℤ}
    (h : minNode t = some (.mk tk tl tr tc ts)) :
    ∃ rest, inOrder t = tk :: rest := by
  induction t with
  | null => simp [minNode] at h
  | mk k left right c s ihl _ =>
    cases left with
    | null =>
      simp only [minNode, Option.some.injEq, Node.mk.injEq] at h
      obtain ⟨rfl, _⟩ := h
      exact ⟨inOrder right, by simp [inOrder]⟩
    | mk lk ll lr lc ls =>
      simp only [minNode] at h
      obtain ⟨rest, hrest⟩ := ihl h
      exact ⟨rest ++ k :: inOrder right, by rw [inOrder, hrest]; simp⟩

theorem minNode_mk (k : ℚ) (left right : Node) (c : Bool) (s : ℤ) :
    ∃ tk tl tr tc ts, minNode (.mk k left right c s) = some (.mk tk tl tr tc ts) := by
  induction left generalizing k right c s with
  | null => exact ⟨k, .null, right, c, s, by simp [minNode]⟩
  | mk lk ll lr lc ls ihl _ =>
    obtain ⟨tk, tl, tr, tc, ts, h⟩ := ihl lk lr lc ls
    exact ⟨tk, tl, tr, tc, ts, by simpa [minNode] using h⟩

theorem remove_isSome (t : Node) (key : ℚ) : ∃ t', remove t key = some t' := by
  induction t generalizing key with
  | null => exact ⟨.null, rfl⟩
  | mk k left right c s ihl ihr =>
    unfold remove
    split_ifs with hlt hgt hnull hleft
    · obtain ⟨l', e⟩ := ihl key
      rw [e]; exact ⟨_, rfl⟩
    · obtain ⟨r', e⟩ := ihr key
      rw [e]; exact ⟨_, rfl⟩
    · exact ⟨_, rfl⟩
    · exact ⟨_, rfl⟩
    · cases right with
      | null => simp [Node.isNull] at hnull
      | mk rk rl rr rc rs =>
        obtain ⟨tk, tl, tr, tc, ts, hm⟩ := minNode_mk rk rl rr rc rs
        rw [hm]
        simp only
        obtain ⟨r', e⟩ := ihr tk
        rw [e]; exact ⟨_, rfl⟩

theorem rb_remove_inOrder {t t' : Node} {key : ℚ} (hs : (inOrder t).Sorted (· ≤ ·))
    (h : remove t key = some t') : inOrder t' = (inOrder t).erase key := by
  induction t generalizing t' key with
  | null => simp [remove] at h; subst h; simp [inOrder]
  | mk k left right c s ihl ihr =>
    have hs' := hs
    simp only [inOrder] at hs'
    rw [sorted_mid_iff] at hs'
    obtain ⟨hL, hR, hLk, hkR⟩ := hs'
    unfold remove at h
    split_ifs at h with hlt hgt hnull hleft
    · cases hl : remove left key with
      | none => rw [hl] at h; cases h
      | some left' =>
        rw [hl] at h
        cases h
        rw [inOrder_updateSize]
        simp only [inOrder]
        rw [erase_mid_lt _ _ _ _ hs hlt, ihl hL hl]
    · cases hr : remove right key with
      | none => rw [hr] at h; cases h
      | some right' =>
        rw [hr] at h
        cases h
        rw [inOrder_updateSize]
        simp only [inOrder]
        rw [erase_mid_gt _ _ _ _ hs hgt, ihr hR hr]
    · have hk : key = k := le_antisymm (not_lt.1 hgt) (not_lt.1 hlt)
      subst hk
      cases h
      rw [inOrder_updateSize]
      simp only [inOrder]
      rw [erase_mid _ _ _ hs]
      cases left <;> cases right <;> simp [Node.isNull, inOrder] at hnull hleft ⊢
    · have hk : key = k := le_antisymm (not_lt.1 hgt) (not_lt.1 hlt)
      subst hk
      cases h
      rw [inOrder_updateSize]
      simp only [inOrder]
      rw [erase_mid _ _ _ hs]
      cases left <;> cases right <;> simp [Node.isNull, inOrder] at hnull hleft ⊢
    · have hk : key = k := le_antisymm (not_lt.1 hgt) (not_lt.1 hlt)
      subst hk
      cases hm : minNode right with
      | none => rw [hm] at h; cases h
      | some temp =>
        rw [hm] at h
        cases temp with
        | null => cases h
        | mk tk tl tr tc ts =>
          simp only at h
          obtain ⟨rest, hrest⟩ := minNode_inOrder hm
          cases hr : remove right tk with
          | none => rw [hr] at h; cases h
          | some right' =>
            rw [hr] at h
            cases h
            rw [inOrder_updateSize]
            simp only [inOrder]
            rw [erase_mid _ _ _ hs, ihr hR hr, hrest]
            simp

/-! ## Red-black tree: the size counters -/

theorem sizeInv_updateSize_mk {k : ℚ} {left right : Node} {c : Bool} {s : ℤ}
    (hl : SizeInv left) (hr : SizeInv right) : SizeInv (updateSize (.mk k left right c s)) := by
  simp [updateSize, SizeInv, hl, hr]

theorem sizeInv_updateSize {t : Node} (ht : SizeInv t) : SizeInv (updateSize t) := by
  cases t with
  | null => trivial
  | mk k left right c s =>
    simp only [SizeInv] at ht
    exact sizeInv_updateSize_mk ht.1 ht.2.1

theorem sizeInv_flipChild {t : Node} (ht : SizeInv t) : SizeInv (flipChild t) := by
  cases t with
  | null => trivial
  | mk k left right c s => simpa [flipChild, SizeInv] using ht

theorem sizeInv_blacken {t : Node} (ht : SizeInv t) : SizeInv (blacken t) := by
  cases t with
  | null => trivial
  | mk k left right c s => simpa [blacken, SizeInv] using ht

theorem childrenSizeInv_rotateLeft {t t' : Node} (ht : ChildrenSizeInv t)
    (h : rotateLeft t = some t') : ChildrenSizeInv t' := by
  unfold rotateLeft at h
  split at h
  · cases h
    simp only [ChildrenSizeInv, Node.left, Node.right] at ht ⊢
    have hx := ht.2
    simp only [SizeInv] at hx
    exact ⟨sizeInv_updateSize_mk ht.1 hx.1, hx.2.1⟩
  · cases h

theorem childrenSizeInv_rotateRight {t t' : Node} (ht : ChildrenSizeInv t)
    (h : rotateRight t = some t') : ChildrenSizeInv t' := by
  unfold rotateRight at h
  split at h
  · cases h
    simp only [ChildrenSizeInv, Node.left, Node.right] at ht ⊢
    have hx := ht.1
    simp only [SizeInv] at hx
    exact ⟨hx.1, sizeInv_updateSize_mk hx.2.1 ht.2⟩
  · cases h

theorem childrenSizeInv_flipColors {t : Node} (ht : ChildrenSizeInv t) :
    ChildrenSizeInv (flipColors t) := by
  cases t with
  | null => exact ht
  | mk k left right c s =>
    simp only [ChildrenSizeInv, Node.left, Node.right, flipColors] at ht ⊢
    exact ⟨sizeInv_flipChild ht.1, sizeInv_flipChild ht.2⟩

theorem sizeInv_updateSize_of_children {t : Node} (ht : ChildrenSizeInv t) :
    SizeInv (updateSize t) := by
  cases t with
  | null => trivial
  | mk k left right c s => exact sizeInv_updateSize_mk ht.1 ht.2

theorem sizeInv_insertFix {t t' : Node} (ht : ChildrenSizeInv t)
    (h : insertFix t = some t') : SizeInv t' := by
  unfold insertFix at h
  split at h
  · cases h
  · rename_i h1 e1
    split at h
    · cases h
    · rename_i h2 e2
      cases h
      have a1 : ChildrenSizeInv h1 := by
        split_ifs at e1
        · exact childrenSizeInv_rotateLeft ht e1
        · cases e1; exact ht
      have a2 : ChildrenSizeInv h2 := by
        split_ifs at e2
        · exact childrenSizeInv_rotateRight a1 e2
        · cases e2; exact a1
      apply sizeInv_updateSize_of_children
      split_ifs
      · exact childrenSizeInv_flipColors a2
      · exact a2

theorem rb_insert_sizeInv {t t' : Node} {key : ℚ} (ht : SizeInv t)
    (h : insert t key = some t') : SizeInv t' := by
  induction t generalizing t' with
  | null => simp [insert] at h; subst h; simp [SizeInv, size]
  | mk k left right c s ihl ihr =>
    simp only [SizeInv] at ht
    unfold insert at h
    split_ifs at h with hlt
    · cases hl : insert left key with
      | none => rw [hl] at h; cases h
      | some left' =>
        rw [hl] at h
        exact sizeInv_insertFix (t := .mk k left' right c s) ⟨ihl ht.1 hl, ht.2.1⟩ h
    · cases hr : insert right key with
      | none => rw [hr] at h; cases h
      | some right' =>
        rw [hr] at h
        exact sizeInv_insertFix (t := .mk k left right' c s) ⟨ht.1, ihr ht.2.1 hr⟩ h

theorem rb_remove_sizeInv {t t' : Node} {key : ℚ} (ht : SizeInv t)
    (h : remove t key = some t') : SizeInv t' := by
  induction t generalizing t' key with
  | null => simp [remove] at h; subst h; trivial
  | mk k left right c s ihl ihr =>
    simp only [SizeInv] at ht
    unfold remove at h
    split_ifs at h with hlt hgt hnull hleft
    · cases hl : remove left key with
      | none => rw [hl] at h; cases h
      | some left' =>
        rw [hl] at h
        cases h
        exact sizeInv_updateSize_mk (ihl ht.1 hl) ht.2.1
    · cases hr : remove right key with
      | none => rw [hr] at h; cases h
      | some right' =>
        rw [hr] at h
        cases h
        exact sizeInv_updateSize_mk ht.1 (ihr ht.2.1 hr)
    · cases h; exact sizeInv_updateSize ht.1
    · cases h; exact sizeInv_updateSize ht.2.1
    · cases hm : minNode right with
      | none => rw [hm] at h; cases h
      | some temp =>
        rw [hm] at h
        cases temp with
        | null => cases h
        | mk tk tl tr tc ts =>
          simp only at h
          cases hr : remove right tk with
          | none => rw [hr] at h; cases h
          | some right' =>
            rw [hr] at h
            cases h
            exact sizeInv_updateSize_mk ht.1 (ihr ht.2.1 hr)

theorem size_eq_length {t : Node} (ht : SizeInv t) : size t = (inOrder t).length := by
  induction t with
  | null => simp [size, inOrder]
  | mk k left right c s ihl ihr =>
    simp only [SizeInv] at ht
    simp only [size, inOrder, List.length_append, List.length_cons]
    rw [ht.2.2, ihl ht.1, ihr ht.2.1]
    push_cast
    ring

theorem select_eq {t : Node} (ht : SizeInv t) (k : ℤ) (h1 : 0 ≤ k)
    (h2 : k < size t) : (inOrder t)[k.toNat]? = some (select t k) := by
  induction t generalizing k with
  | null => simp [size] at h2; omega
  | mk key left right c s ihl ihr =>
    simp only [SizeInv] at ht
    have hsl := size_eq_length ht.1
    have hsr := size_eq_length ht.2.1
    simp only [size] at h2
    rw [ht.2.2] at h2
    simp only [select, inOrder]
    split_ifs with hk hk2
    · have hlt : k.toNat < (inOrder left).length := by omega
      rw [List.getElem?_append_left hlt]
      exact ihl ht.1 k h1 hk
    · have hge : (inOrder left).length ≤ k.toNat := by omega
      rw [List.getElem?_append_right hge]
      have hidx : k.toNat - (inOrder left).length = (k - size left - 1).toNat + 1 := by omega
      rw [hidx, List.getElem?_cons_succ]
      exact ihr ht.2.1 _ (by omega) (by omega)
    · have : k.toNat = (inOrder left).length := by omega
      rw [this, List.getElem?_append_right (le_refl _)]
      simp

/-! ## Red-black tree: invariants of every reachable tree -/

theorem rb_remove_sorted {t t' : Node} {key : ℚ} (hs : (inOrder t).Sorted (· ≤ ·))
    (h : remove t key = some t') : (inOrder t').Sorted (· ≤ ·) := by
  rw [rb_remove_inOrder hs h]
  exact hs.sublist (List.erase_sublist _ _)

theorem insertValue_eq (t : Node) (value : ℚ) :
    ∃ t', insert t value = some t' ∧ insertValue t value = some (blacken t') := by
  obtain ⟨k', l', r', c', s', e⟩ := insert_mk t value
  exact ⟨_, e, by simp only [insertValue, e]⟩

theorem removeValue_eq (t : Node) (value : ℚ) :
    ∃ t', remove t value = some t' ∧ removeValue t value = some (blacken t') := by
  obtain ⟨t', e⟩ := remove_isSome t value
  exact ⟨_, e, by simp only [removeValue, e]⟩

theorem rb_step_inv {t : Node} (hz : SizeInv t) (hs : (inOrder t).Sorted (· ≤ ·)) (op : Op) :
    ∃ t', step t op = some t' ∧ SizeInv t' ∧ (inOrder t').Sorted (· ≤ ·) := by
  cases op with
  | insert value =>
    obtain ⟨t', ht', hv⟩ := insertValue_eq t value
    refine ⟨blacken t', hv, sizeInv_blacken (rb_insert_sizeInv hz ht'), ?_⟩
    rw [inOrder_blacken]
    exact rb_insert_sorted hs ht'
  | remove value =>
    obtain ⟨t', ht', hv⟩ := removeValue_eq t value
    refine ⟨blacken t', hv, sizeInv_blacken (rb_remove_sizeInv hz ht'), ?_⟩
    rw [inOrder_blacken]
    exact rb_remove_sorted hs ht'

theorem rb_runFrom_inv (ops : List Op) {t : Node} (hz : SizeInv t)
    (hs : (inOrder t).Sorted (· ≤ ·)) :
    ∃ t', runFrom t ops = some t' ∧ SizeInv t' ∧ (inOrder t').Sorted (· ≤ ·) := by
  induction ops generalizing t with
  | nil => exact ⟨t, rfl, hz, hs⟩
  | cons op ops ih =>
    obtain ⟨t1, h1, hz1, hs1⟩ := rb_step_inv hz hs op
    obtain ⟨t2, h2, hz2, hs2⟩ := ih hz1 hs1
    exact ⟨t2, by simp only [runFrom, h1, h2], hz2, hs2⟩

theorem rb_run_inv (ops : List Op) :
    ∃ t, run ops = some t ∧ SizeInv t ∧ (inOrder t).Sorted (· ≤ ·) :=
  rb_runFrom_inv ops (t := .null) trivial (by simp [inOrder])

theorem rb_reachable_inv {t : Node} (h : Reachable t) :
    SizeInv t ∧ (inOrder t).Sorted (· ≤ ·) := by
  obtain ⟨ops, hops⟩ := h
  obtain ⟨t', ht', hz, hs⟩ := rb_run_inv ops
  rw [hops] at ht'
  cases ht'
  exact ⟨hz, hs⟩

end SensorRedBlack

/-! ## The median of both trees -/

namespace SensorAVL

theorem median_eq {t : Node} (hz : SizeInv t) (hne : inOrder t ≠ []) :
    standardMedian (inOrder t) = some (median t) := by
  have hlen := getSize_eq_length hz
  have hpos : 0 < (inOrder t).length := List.length_pos.2 hne
  have h0 : ¬ (inOrder t).length = 0 := by omega
  have h0' : ¬ ((inOrder t).length : ℤ) = 0 := by omega
  unfold standardMedian median
  simp only
  rw [hlen, if_neg h0, if_neg h0', Int.tmod_eq_emod (by omega) (by omega),
    Int.tdiv_eq_ediv (by omega) (by omega)]
  by_cases hodd : (inOrder t).length % 2 = 1
  · have hodd' : ((inOrder t).length : ℤ) % 2 ≠ 0 := by omega
    rw [if_pos hodd, if_pos hodd']
    have h := findKthSmallest_eq hz (((inOrder t).length : ℤ) / 2 + 1) (by omega) (by omega)
    have hi : (((inOrder t).length : ℤ) / 2 + 1 - 1).toNat = (inOrder t).length / 2 := by omega
    rw [hi] at h
    exact h
  · have hev' : ¬ ((inOrder t).length : ℤ) % 2 ≠ 0 := by omega
    rw [if_neg hodd, if_neg hev']
    have ha := findKthSmallest_eq hz (((inOrder t).length : ℤ) / 2) (by omega) (by omega)
    have hb := findKthSmallest_eq hz (((inOrder t).length : ℤ) / 2 + 1) (by omega) (by omega)
    have hia : (((inOrder t).length : ℤ) / 2 - 1).toNat = (inOrder t).length / 2 - 1 := by omega
    have hib : (((inOrder t).length : ℤ) / 2 + 1 - 1).toNat = (inOrder t).length / 2 := by omega
    rw [hia] at ha
    rw [hib] at hb
    rw [ha, hb]

end SensorAVL

namespace SensorRedBlack

theorem rb_median_eq {t : Node} (hz : SizeInv t) (hne : inOrder t ≠ []) :
    standardMedian (inOrder t) = some (median t) := by
  have hlen := size_eq_length hz
  have hpos : 0 < (inOrder t).length := List.length_pos.2 hne
  have hnn : t.isNull = false := by
    cases t with
    | null => simp [inOrder] at hne
    | mk k l r c s => rfl
  have h0 : ¬ (inOrder t).length = 0 := by omega
  unfold standardMedian median
  rw [if_neg h0, hnn]
  simp only [Bool.false_eq_true, if_false]
  rw [hlen, Int.tmod_eq_emod (by omega) (by omega),
    Int.tdiv_eq_ediv (by omega) (by omega)]
  by_cases hodd : (inOrder t).length % 2 = 1
  · have hodd' : ((inOrder t).length : ℤ) % 2 ≠ 0 := by omega
    rw [if_pos hodd, if_pos hodd']
    have h := select_eq hz (((inOrder t).length : ℤ) / 2) (by omega) (by omega)
    have hi : (((inOrder t).length : ℤ) / 2).toNat = (inOrder t).length / 2 := by omega
    rw [hi] at h
    exact h
  · have hev' : ¬ ((inOrder t).length : ℤ) % 2 ≠ 0 := by omega
    rw [if_neg hodd, if_neg hev']
    have ha := select_eq hz (((inOrder t).length : ℤ) / 2 - 1) (by omega) (by omega)
    have hb := select_eq hz (((inOrder t).length : ℤ) / 2) (by omega) (by omega)
    have hia : (((inOrder t).length : ℤ) / 2 - 1).toNat = (inOrder t).length / 2 - 1 := by omega
    have hib : (((inOrder t).length : ℤ) / 2).toNat = (inOrder t).length / 2 := by omega
    rw [hia] at ha
    rw [hib] at hb
    rw [ha, hb]

end SensorRedBlack

/-! ## Removing an absent key -/

namespace SensorAVL

theorem remove_absent_inOrder {t t' : Node} {key : ℚ} (hk : key ∉ inOrder t)
    (h : remove t key = some t') : inOrder t' = inOrder t := by
  induction t generalizing t' with
  | null => simp [remove] at h; subst h; rfl
  | mk k hh s left right ihl ihr =>
    simp only [inOrder, List.mem_append, List.mem_cons, not_or] at hk
    obtain ⟨hkl, hkk, hkr⟩ := hk
    unfold remove at h
    split_ifs at h with hlt hgt hnull hleft
    · cases hl : remove left key with
      | none => rw [hl] at h; cases h
      | some left' =>
        rw [hl] at h
        rw [inOrder_removeBalance h]
        simp only [inOrder, ihl hkl hl]
    · cases hr : remove right key with
      | none => rw [hr] at h; cases h
      | some right' =>
        rw [hr] at h
        rw [inOrder_removeBalance h]
        simp only [inOrder, ihr hkr hr]
    all_goals exact absurd (le_antisymm (not_lt.1 hgt) (not_lt.1 hlt)) hkk

end SensorAVL

namespace SensorRedBlack

theorem rb_remove_absent_inOrder {t t' : Node} {key : ℚ} (hk : key ∉ inOrder t)
    (h : remove t key = some t') : inOrder t' = inOrder t := by
  induction t generalizing t' with
  | null => simp [remove] at h; subst h; rfl
  | mk k left right c s ihl ihr =>
    simp only [inOrder, List.mem_append, List.mem_cons, not_or] at hk
    obtain ⟨hkl, hkk, hkr⟩ := hk
    unfold remove at h
    split_ifs at h with hlt hgt hnull hleft
    · cases hl : remove left key with
      | none => rw [hl] at h; cases h
      | some left' =>
        rw [hl] at h
        cases h
        rw [inOrder_updateSize]
        simp only [inOrder, ihl hkl hl]
    · cases hr : remove right key with
      | none => rw [hr] at h; cases h
      | some right' =>
        rw [hr] at h
        cases h
        rw [inOrder_updateSize]
        simp only [inOrder, ihr hkr hr]
    all_goals exact absurd (le_antisymm (not_lt.1 hgt) (not_lt.1 hlt)) hkk

end SensorRedBlack

/-! ## Range queries report a sorted part of the in-order sequence -/

namespace SensorAVL

theorem rangeQueryRec_sublist (t : Node) (lo hi : ℚ) :
    (rangeQueryRec t lo hi).Sublist (inOrder t) := by
  induction t with
  | null => simp [rangeQueryRec, inOrder]
  | mk k hh s left right ihl ihr =>
    simp only [rangeQueryRec, inOrder, List.append_assoc]
    refine List.Sublist.append ?_ ?_
    · split_ifs
      · exact ihl
      · exact List.nil_sublist _
    · have h1 : (if k ≥ lo ∧ k ≤ hi then [k] else []).Sublist [k] := by
        split_ifs
        · exact List.Sublist.refl _
        · exact List.nil_sublist _
      have h2 : (if hi > k then rangeQueryRec right lo hi else []).Sublist (inOrder right) := by
        split_ifs
        · exact ihr
        · exact List.nil_sublist _
      exact List.Sublist.append h1 h2

theorem rangeQueryRec_mem (t : Node) (lo hi v : ℚ) (hv : v ∈ rangeQueryRec t lo hi) :
    lo ≤ v ∧ v ≤ hi := by
  induction t with
  | null => simp [rangeQueryRec] at hv
  | mk k hh s left right ihl ihr =>
    simp only [rangeQueryRec, List.mem_append] at hv
    rcases hv with (hv | hv) | hv
    · split_ifs at hv
      · exact ihl hv
      · simp at hv
    · split_ifs at hv with hc
      · simp only [List.mem_singleton] at hv
        subst hv
        exact hc
      · simp at hv
    · split_ifs at hv
      · exact ihr hv
      · simp at hv

end SensorAVL

namespace SensorRedBlack

theorem rb_rangeQueryRec_sublist (t : Node) (lo hi : ℚ) :
    (rangeQueryRec t lo hi).Sublist (inOrder t) := by
  induction t with
  | null => simp [rangeQueryRec, inOrder]
  | mk k left right c s ihl ihr =>
    simp only [rangeQueryRec, inOrder, List.append_assoc]
    refine List.Sublist.append ?_ ?_
    · split_ifs
      · exact ihl
      · exact List.nil_sublist _
    · have h1 : (if k ≥ lo ∧ k ≤ hi then [k] else []).Sublist [k] := by
        split_ifs
        · exact List.Sublist.refl _
        · exact List.nil_sublist _
      have h2 : (if hi > k then rangeQueryRec right lo hi else []).Sublist (inOrder right) := by
        split_ifs
        · exact ihr
        · exact List.nil_sublist _
      exact List.Sublist.append h1 h2

theorem rb_rangeQueryRec_mem (t : Node) (lo hi v : ℚ) (hv : v ∈ rangeQueryRec t lo hi) :
    lo ≤ v ∧ v ≤ hi := by
  induction t with
  | null => simp [rangeQueryRec] at hv
  | mk k left right c s ihl ihr =>
    simp only [rangeQueryRec, List.mem_append] at hv
    rcases hv with (hv | hv) | hv
    · split_ifs at hv
      · exact ihl hv
      · simp at hv
    · split_ifs at hv with hc
      · simp only [List.mem_singleton] at hv
        subst hv
        exact hc
      · simp at hv
    · split_ifs at hv
      · exact ihr hv
      · simp at hv

end SensorRedBlack

/-! ## Bounded traversals -/

theorem take_step (A B : List ℚ) (key : ℚ) (k : ℤ) (hk : 0 < k)
    (r1 : List ℚ × ℤ) (f : ℤ → List ℚ × ℤ)
    (h1 : r1 = (A.take k.toNat, k - min k A.length))
    (h3 : ∀ j : ℤ, 0 ≤ j → f j = (B.take j.toNat, j - min j B.length)) :
    (r1.1 ++ (if r1.2 > 0 then (([key] : List ℚ), r1.2 - 1) else ([], r1.2)).1 ++
        (f (if r1.2 > 0 then (([key] : List ℚ), r1.2 - 1) else ([], r1.2)).2).1,
      (f (if r1.2 > 0 then (([key] : List ℚ), r1.2 - 1) else ([], r1.2)).2).2)
      = ((A ++ key :: B).take k.toNat, k - min k ((A ++ key :: B).length : ℤ)) := by
  subst h1
  simp only [List.length_append, List.length_cons]
  by_cases hc : k - min k (A.length : ℤ) > 0
  · have hlen : (A.length : ℤ) < k := by omega
    rw [if_pos hc]
    simp only
    rw [h3 _ (by omega)]
    have e1 : k.toNat = A.length + ((k - min k (A.length : ℤ) - 1).toNat + 1) := by omega
    rw [e1, List.take_append, List.take_succ_cons]
    have e2 : List.take (A.length + ((k - min k (A.length : ℤ) - 1).toNat + 1)) A = A :=
      List.take_of_length_le (by omega)
    rw [e2]
    refine Prod.ext (by simp) ?_
    simp only
    push_cast
    omega
  · have hlen : k ≤ (A.length : ℤ) := by omega
    rw [if_neg hc]
    simp only
    rw [h3 _ (by omega)]
    have e0 : k - min k (A.length : ℤ) = 0 := by omega
    rw [e0]
    have e1 : List.take k.toNat (A ++ key :: B) = List.take k.toNat A :=
      List.take_append_of_le_length (by omega)
    rw [e1]
    refine Prod.ext (by simp) ?_
    simp only
    push_cast
    omega

namespace SensorAVL

theorem getMinK_eq (t : Node) (k : ℤ) (hk : 0 ≤ k) :
    getMinK t k = ((inOrder t).take k.toNat, k - min k ((inOrder t).length : ℤ)) := by
  induction t generalizing k with
  | null =>
    simp only [getMinK, inOrder, List.take_nil, List.reverse_nil, List.length_nil]
    refine Prod.ext rfl ?_
    simp only
    push_cast
    omega
  | mk key hh s left right ihl ihr =>
    simp only [getMinK, inOrder]
    by_cases h0 : k ≤ 0
    · rw [if_pos h0]
      have : k = 0 := by omega
      subst this
      refine Prod.ext (by simp) ?_
      simp only [List.length_append, List.length_cons]
      push_cast
      omega
    · rw [if_neg h0]
      exact take_step (inOrder left) (inOrder right) key k (by omega) (getMinK left k)
        (getMinK right) (ihl k hk) (fun j hj => ihr j hj)

theorem getMaxK_eq (t : Node) (k : ℤ) (hk : 0 ≤ k) :
    getMaxK t k = ((inOrder t).reverse.take k.toNat, k - min k ((inOrder t).length : ℤ)) := by
  induction t generalizing k with
  | null =>
    simp only [getMaxK, inOrder, List.take_nil, List.reverse_nil, List.length_nil]
    refine Prod.ext rfl ?_
    simp only
    push_cast
    omega
  | mk key hh s left right ihl ihr =>
    simp only [getMaxK, inOrder]
    by_cases h0 : k ≤ 0
    · rw [if_pos h0]
      have : k = 0 := by omega
      subst this
      refine Prod.ext (by simp) ?_
      simp only [List.length_append, List.length_cons]
      push_cast
      omega
    · rw [if_neg h0]
      have h := take_step (inOrder right).reverse (inOrder left).reverse key k (by omega)
        (getMaxK right k) (getMaxK left)
        (by rw [ihr k hk, List.length_reverse])
        (fun j hj => by rw [ihl j hj, List.length_reverse])
      rw [h]
      refine Prod.ext (by simp) ?_
      simp only [List.length_append, List.length_cons, List.length_reverse]
      push_cast
      omega

end SensorAVL

namespace SensorRedBlack

theorem rb_getMinK_eq (t : Node) (k : ℤ) (hk : 0 ≤ k) :
    getMinK t k = ((inOrder t).take k.toNat, k - min k ((inOrder t).length : ℤ)) := by
  induction t generalizing k with
  | null =>
    simp only [getMinK, inOrder, List.take_nil, List.reverse_nil, List.length_nil]
    refine Prod.ext rfl ?_
    simp only
    push_cast
    omega
  | mk key left right c s ihl ihr =>
    simp only [getMinK, inOrder]
    by_cases h0 : k ≤ 0
    · rw [if_pos h0]
      have : k = 0 := by omega
      subst this
      refine Prod.ext (by simp) ?_
      simp only [List.length_append, List.length_cons]
      push_cast
      omega
    · rw [if_neg h0]
      exact take_step (inOrder left) (inOrder right) key k (by omega) (getMinK left k)
        (getMinK right) (ihl k hk) (fun j hj => ihr j hj)

theorem rb_getMaxK_eq (t : Node) (k : ℤ) (hk : 0 ≤ k) :
    getMaxK t k = ((inOrder t).reverse.take k.toNat, k - min k ((inOrder t).length : ℤ)) := by
  induction t generalizing k with
  | null =>
    simp only [getMaxK, inOrder, List.take_nil, List.reverse_nil, List.length_nil]
    refine Prod.ext rfl ?_
    simp only
    push_cast
    omega
  | mk key left right c s ihl ihr =>
    simp only [getMaxK, inOrder]
    by_cases h0 : k ≤ 0
    · rw [if_pos h0]
      have : k = 0 := by omega
      subst this
      refine Prod.ext (by simp) ?_
      simp only [List.length_append, List.length_cons]
      push_cast
      omega
    · rw [if_neg h0]
      have h := take_step (inOrder right).reverse (inOrder left).reverse key k (by omega)
        (getMaxK right k) (getMaxK left)
        (by rw [ihr k hk, List.length_reverse])
        (fun j hj => by rw [ihl j hj, List.length_reverse])
      rw [h]
      refine Prod.ext (by simp) ?_
      simp only [List.length_append, List.length_cons, List.length_reverse]
      push_cast
      omega

end SensorRedBlack

/-! ## Red-black tree: colour invariants and black-balance under insertion -/

namespace SensorRedBlack

theorem isRed_mk (k : ℚ) (l r : Node) (c : Bool) (s : ℤ) : isRed (.mk k l r c s) = c := by
  cases c <;> rfl

theorem isRed_null : isRed .null = false := rfl

theorem left_mk (k : ℚ) (l r : Node) (c : Bool) (s : ℤ) : (Node.mk k l r c s).left = l := rfl

theorem right_mk (k : ℚ) (l r : Node) (c : Bool) (s : ℤ) : (Node.mk k l r c s).right = r := rfl

theorem flipChild_mk (k : ℚ) (l r : Node) (c : Bool) (s : ℤ) :
    flipChild (.mk k l r c s) = .mk k l r (!c) s := rfl

theorem flipColors_mk (k : ℚ) (l r : Node) (c : Bool) (s : ℤ) :
    flipColors (.mk k l r c s) = .mk k (flipChild l) (flipChild r) (!c) s := rfl

theorem updateSize_mk (k : ℚ) (l r : Node) (c : Bool) (s : ℤ) :
    updateSize (.mk k l r c s) = .mk k l r c (1 + size l + size r) := rfl

theorem blackHeight_mk (k : ℚ) (l r : Node) (c : Bool) (s : ℤ) :
    blackHeight (.mk k l r c s) = blackHeight l + (if c = BLACK then 1 else 0) := rfl

theorem colourInv_of_below {t : Node} (h : ColourInvBelow t)
    (hc : isRed t = true → isRed t.left = false) : ColourInv t := by
  cases t with
  | null => trivial
  | mk k l r c s =>
    simp only [ColourInvBelow] at h
    simp only [isRed_mk, Node.left] at hc
    exact ⟨h.1, h.2.1, h.2.2, hc⟩

theorem below_of_colourInv {t : Node} (h : ColourInv t) : ColourInvBelow t := by
  cases t with
  | null => trivial
  | mk k l r c s =>
    simp only [ColourInv] at h
    exact ⟨h.1, h.2.1, h.2.2.1⟩

theorem flipChild_red {t : Node} (h : ColourInvBelow t) (hred : isRed t = true) :
    ColourInv (flipChild t) ∧ isRed (flipChild t) = false ∧
      blackHeight (flipChild t) = blackHeight t + 1 ∧
      (BlackHeightInv t → BlackHeightInv (flipChild t)) := by
  cases t with
  | null => simp [isRed] at hred
  | mk k l r c s =>
    simp only [isRed_mk] at hred
    subst hred
    simp only [ColourInvBelow] at h
    refine ⟨?_, ?_, ?_, ?_⟩
    · simp only [flipChild, ColourInv]
      exact ⟨h.1, h.2.1, h.2.2, by simp⟩
    · simp [flipChild, isRed_mk]
    · simp [flipChild, blackHeight]
    · intro hb
      simpa [flipChild, BlackHeightInv] using hb

theorem insertFix_colour (k : ℚ) (l r : Node) (c : Bool) (s : ℤ)
    (hl : ColourInvBelow l) (hr : ColourInv r)
    (hrr : isRed l = true → isRed l.left = true → isRed r = false ∧ c = BLACK)
    (hc : c = RED → isRed l = true → isRed r = true → False)
    (bl : BlackHeightInv l) (br : BlackHeightInv r) (hb : blackHeight l = blackHeight r) :
    ∃ t', insertFix (.mk k l r c s) = some t' ∧ ColourInvBelow t' ∧
      (c = BLACK → ColourInv t') ∧ BlackHeightInv t' ∧
      blackHeight t' = blackHeight (.mk k l r c s) := by
  by_cases hA : isRed r = true ∧ isRed l = false
  · -- rotateLeft; the other two steps do not fire
    obtain ⟨hA1, hA2⟩ := hA
    rcases r with _ | ⟨rk, rl, rr, rc, rs⟩
    · simp [isRed] at hA1
    simp only [isRed_mk] at hA1
    subst hA1
    simp only [ColourInv] at hr
    obtain ⟨hrl, hrr', hrr2, hrl2⟩ := hr
    have hrl3 : isRed rl = false := hrl2 trivial
    have hcl : ColourInv l := colourInv_of_below hl (fun h => by rw [hA2] at h; cases h)
    simp only [BlackHeightInv] at br
    simp only [blackHeight] at hb
    refine ⟨updateSize (.mk rk (updateSize (.mk k l rl RED s)) rr c s), ?_, ?_, ?_, ?_, ?_⟩
    · simp [insertFix, Node.left, Node.right, isRed_mk, hA2, rotateLeft, updateSize, hrr2]
    · simp only [updateSize, ColourInvBelow, ColourInv]
      exact ⟨⟨hcl, hrl, hrl3, fun _ => hA2⟩, hrr', hrr2⟩
    · intro hcb
      simp only [updateSize, ColourInv]
      exact ⟨⟨hcl, hrl, hrl3, fun _ => hA2⟩, hrr', hrr2,
        fun hcr => absurd (hcb.symm.trans hcr) (by decide)⟩
    · simp only [updateSize, BlackHeightInv, blackHeight]
      refine ⟨⟨bl, br.1, ?_⟩, br.2.1, ?_⟩ <;> simp at * <;> omega
    · simp only [updateSize, blackHeight]
      simp
  · have hr0 : isRed r = true → isRed l = true := by
      intro h1
      cases h2 : isRed l with
      | true => rfl
      | false => exact absurd ⟨h1, h2⟩ hA
    by_cases hB : isRed l = true ∧ isRed l.left = true
    · -- rotateRight, then flipColors
      obtain ⟨hB1, hB2⟩ := hB
      obtain ⟨hrn, hcb⟩ := hrr hB1 hB2
      rcases l with _ | ⟨lk, ll, lr, lc, ls⟩
      · simp [isRed] at hB1
      simp only [isRed_mk] at hB1
      subst hB1
      simp only [Node.left] at hB2
      simp only [ColourInvBelow] at hl
      obtain ⟨hll, hlr, hlr2⟩ := hl
      obtain ⟨f1, f2, f3, f4⟩ := flipChild_red (below_of_colourInv hll) hB2
      simp only [BlackHeightInv] at bl
      simp only [blackHeight] at hb
      subst hcb
      refine ⟨updateSize (.mk lk (flipChild ll)
        (flipChild (updateSize (.mk k lr r RED s))) (!BLACK) s), ?_, ?_, ?_, ?_, ?_⟩
      · simp only [insertFix, left_mk, right_mk, isRed_mk, hrn, hB2, rotateRight,
          updateSize_mk, flipColors_mk, Bool.false_and, Bool.and_self, Bool.false_eq_true,
          if_false, if_true]
      · simp only [updateSize_mk, flipChild_mk, ColourInvBelow, ColourInv, isRed_mk]
        exact ⟨f1, ⟨hlr, hr, hrn, by simp⟩, by simp⟩
      · intro _
        simp only [updateSize_mk, flipChild_mk, ColourInv, isRed_mk]
        exact ⟨f1, ⟨hlr, hr, hrn, by simp⟩, by simp, fun _ => f2⟩
      · simp only [updateSize_mk, flipChild_mk, BlackHeightInv, blackHeight_mk, f3]
        simp only [Bool.true_eq_false, if_false, Nat.add_zero] at hb
        refine ⟨f4 bl.1, ⟨bl.2.1, br, ?_⟩, ?_⟩
        · omega
        · simp
          omega
      · simp only [updateSize_mk, blackHeight_mk, f3]
        simp
    · have hl0 : ColourInv l := colourInv_of_below hl (fun h1 => by
        cases h2 : isRed l.left with
        | false => rfl
        | true => exact absurd ⟨h1, h2⟩ hB)
      by_cases hC : isRed l = true ∧ isRed r = true
      · -- flipColors only
        obtain ⟨hC1, hC2⟩ := hC
        have hcb : c = BLACK := by
          cases c with
          | false => rfl
          | true => exact absurd hC2 (fun h => hc rfl hC1 h)
        subst hcb
        obtain ⟨f1, f2, f3, f4⟩ := flipChild_red hl hC1
        obtain ⟨g1, g2, g3, g4⟩ := flipChild_red (below_of_colourInv hr) hC2
        have hll : isRed l.left = false := by
          cases h2 : isRed l.left with
          | false => rfl
          | true => exact absurd ⟨hC1, h2⟩ hB
        refine ⟨updateSize (.mk k (flipChild l) (flipChild r) (!BLACK) s), ?_, ?_, ?_, ?_, ?_⟩
        · simp only [insertFix, left_mk, right_mk, hC1, hC2, hll, updateSize_mk,
            flipColors_mk, Bool.not_true, Bool.and_false, Bool.and_self, Bool.false_eq_true,
            if_false, if_true]
        · simp only [updateSize_mk, ColourInvBelow]
          exact ⟨f1, g1, g2⟩
        · intro _
          simp only [updateSize_mk, ColourInv]
          exact ⟨f1, g1, g2, fun _ => f2⟩
        · simp only [updateSize_mk, BlackHeightInv]
          exact ⟨f4 bl, g4 br, by omega⟩
        · simp only [updateSize_mk, blackHeight_mk, f3]
          simp
      · -- no step fires
        have hrn : isRed r = false := by
          cases h1 : isRed r with
          | false => rfl
          | true => exact absurd ⟨hr0 h1, h1⟩ hC
        have hll : (isRed l && isRed l.left) = false := by
          cases h1 : isRed l with
          | false => rfl
          | true =>
            cases h2 : isRed l.left with
            | false => rfl
            | true => exact absurd ⟨h1, h2⟩ hB
        refine ⟨updateSize (.mk k l r c s), ?_, ?_, ?_, ?_, ?_⟩
        · simp only [insertFix, left_mk, right_mk, hrn, hll, Bool.false_and, Bool.and_false,
            Bool.false_eq_true, if_false]
        · simp only [updateSize_mk, ColourInvBelow]
          exact ⟨hl0, hr, hrn⟩
        · intro hcb
          simp only [updateSize_mk, ColourInv]
          exact ⟨hl0, hr, hrn, fun hcr => absurd (hcb.symm.trans hcr) (by decide)⟩
        · simp only [updateSize_mk, BlackHeightInv]
          exact ⟨bl, br, hb⟩
        · simp only [updateSize_mk, blackHeight_mk]

theorem insert_colour (t : Node) (key : ℚ) (h1 : ColourInv t) (h2 : BlackHeightInv t) :
    ∃ t', insert t key = some t' ∧ ColourInvBelow t' ∧ (isRed t = false → ColourInv t') ∧
      BlackHeightInv t' ∧ blackHeight t' = blackHeight t := by
  induction t with
  | null =>
    refine ⟨.mk key .null .null RED 1, rfl, ?_, ?_, ?_, ?_⟩
    · simp [ColourInvBelow, ColourInv, isRed_null]
    · intro _; simp [ColourInv, isRed_null]
    · simp [BlackHeightInv]
    · simp [blackHeight]
  | mk k l r c s ihl ihr =>
    simp only [ColourInv] at h1
    obtain ⟨cl, cr, hrn, hcl⟩ := h1
    simp only [BlackHeightInv] at h2
    obtain ⟨bl, br, hb⟩ := h2
    unfold insert
    split_ifs with hlt
    · obtain ⟨l', e, p1, p2, p3, p4⟩ := ihl cl bl
      rw [e]
      obtain ⟨t', q0, q1, q2, q3, q4⟩ := insertFix_colour k l' r c s p1 cr
        (fun a b => ⟨hrn, by
          cases c with
          | false => rfl
          | true =>
            have hci := p2 (hcl rfl)
            cases l' with
            | null => simp [isRed_null] at a
            | mk lk ll lr lc ls =>
              simp only [ColourInv] at hci
              simp only [isRed_mk] at a
              simp only [left_mk] at b
              rw [hci.2.2.2 a] at b
              cases b⟩)
        (fun _ _ hr' => by rw [hrn] at hr'; cases hr')
        p3 br (by omega)
      refine ⟨t', q0, q1, ?_, q3, ?_⟩
      · intro hc
        simp only [isRed_mk] at hc
        exact q2 hc
      · rw [q4, blackHeight_mk, blackHeight_mk, p4]
    · obtain ⟨r', e, p1, p2, p3, p4⟩ := ihr cr br
      rw [e]
      have cr' := p2 hrn
      obtain ⟨t', q0, q1, q2, q3, q4⟩ := insertFix_colour k l r' c s (below_of_colourInv cl) cr'
        (fun a b => by
          cases l with
          | null => simp [isRed_null] at a
          | mk lk ll lr lc ls =>
            simp only [ColourInv] at cl
            simp only [isRed_mk] at a
            simp only [left_mk] at b
            rw [cl.2.2.2 a] at b
            cases b)
        (fun hc a _ => by rw [hcl hc] at a; cases a)
        bl p3 (by omega)
      refine ⟨t', q0, q1, ?_, q3, ?_⟩
      · intro hc
        simp only [isRed_mk] at hc
        exact q2 hc
      · rw [q4, blackHeight_mk, blackHeight_mk]

theorem blacken_colour {t : Node} (h : ColourInvBelow t) (hb : BlackHeightInv t) :
    ColourInv (blacken t) ∧ isRed (blacken t) = false ∧ BlackHeightInv (blacken t) := by
  cases t with
  | null => exact ⟨trivial, rfl, trivial⟩
  | mk k l r c s =>
    simp only [ColourInvBelow] at h
    simp only [BlackHeightInv] at hb
    refine ⟨?_, ?_, ?_⟩
    · simp only [blacken, ColourInv]
      exact ⟨h.1, h.2.1, h.2.2, fun hc => absurd hc (by decide)⟩
    · simp [blacken, isRed_mk]
    · simpa [blacken, BlackHeightInv] using hb

theorem runFrom_inserts_colour (vs : List ℚ) {t : Node} (h1 : ColourInv t)
    (h2 : isRed t = false) (h3 : BlackHeightInv t) :
    ∃ t', runFrom t (vs.map Op.insert) = some t' ∧ ColourInv t' ∧ isRed t' = false ∧
      BlackHeightInv t' := by
  induction vs generalizing t with
  | nil => exact ⟨t, rfl, h1, h2, h3⟩
  | cons v vs ih =>
    obtain ⟨t1, e1, p1, _, p3, _⟩ := insert_colour t v h1 h3
    obtain ⟨t1', e1', ev⟩ := insertValue_eq t v
    rw [e1] at e1'
    cases e1'
    obtain ⟨q1, q2, q3⟩ := blacken_colour p1 p3
    obtain ⟨t2, e2, r1, r2, r3⟩ := ih q1 q2 q3
    exact ⟨t2, by simp only [List.map_cons, runFrom, step, ev, e2], r1, r2, r3⟩

theorem blackCounts_eq {t : Node} (h : BlackHeightInv t) :
    ∀ p ∈ blackCounts t, p = blackHeight t := by
  induction t with
  | null => intro p hp; simpa [blackCounts, blackHeight] using hp
  | mk k l r c s ihl ihr =>
    simp only [BlackHeightInv] at h
    intro p hp
    simp only [blackCounts, List.mem_map, List.mem_append] at hp
    obtain ⟨n, hn, rfl⟩ := hp
    have hn' : n = blackHeight l := by
      rcases hn with hn | hn
      · exact ihl h.1 n hn
      · rw [h.2.2]; exact ihr h.2.1 n hn
    subst hn'
    rw [blackHeight_mk]
    split_ifs <;> rfl

theorem blackBalanced_of_inv {t : Node} (h : BlackHeightInv t) : BlackBalanced t := by
  intro p hp q hq
  rw [blackCounts_eq h p hp, blackCounts_eq h q hq]

end SensorRedBlack

/-! ## The two-heap container -/

namespace SensorHeap

theorem pushMax_sorted {q : List ℚ} (v : ℚ) (h : q.Sorted (· ≥ ·)) :
    (pushMax v q).Sorted (· ≥ ·) := h.orderedInsert v q

theorem pushMin_sorted {q : List ℚ} (v : ℚ) (h : q.Sorted (· ≤ ·)) :
    (pushMin v q).Sorted (· ≤ ·) := h.orderedInsert v q

theorem mem_pushMax {q : List ℚ} {v a : ℚ} : a ∈ pushMax v q ↔ a = v ∨ a ∈ q :=
  List.mem_orderedInsert _

theorem mem_pushMin {q : List ℚ} {v a : ℚ} : a ∈ pushMin v q ↔ a = v ∨ a ∈ q :=
  List.mem_orderedInsert _

theorem pushMax_perm (v : ℚ) (q : List ℚ) : (pushMax v q).Perm (v :: q) :=
  List.perm_orderedInsert _ _ _

theorem pushMin_perm (v : ℚ) (q : List ℚ) : (pushMin v q).Perm (v :: q) :=
  List.perm_orderedInsert _ _ _

theorem pushMax_length (v : ℚ) (q : List ℚ) : (pushMax v q).length = q.length + 1 :=
  List.orderedInsert_length _ _ _

theorem pushMin_length (v : ℚ) (q : List ℚ) : (pushMin v q).length = q.length + 1 :=
  List.orderedInsert_length _ _ _

theorem balanceHeaps_inv {h : Heaps} {vs : List ℚ} (hi : HeapInv h vs)
    (h1 : h.maxHeap.length ≤ h.minHeap.length + 2)
    (h2 : h.minHeap.length ≤ h.maxHeap.length + 1) :
    HeapInv (balanceHeaps h) vs ∧
      ((balanceHeaps h).maxHeap.length = (balanceHeaps h).minHeap.length ∨
        (balanceHeaps h).maxHeap.length = (balanceHeaps h).minHeap.length + 1) := by
  obtain ⟨s1, s2, hx, hp⟩ := hi
  obtain ⟨mx, mn⟩ := h
  simp only at s1 s2 hx hp h1 h2
  unfold balanceHeaps
  simp only
  split_ifs with c1 c2
  · cases mx with
    | nil => simp at c1
    | cons top rest =>
      simp only
      simp only [List.length_cons] at c1 h1
      rw [List.sorted_cons] at s1
      refine ⟨⟨s1.2, pushMin_sorted top s2, ?_, ?_⟩, ?_⟩
      · intro a ha b hb
        rcases mem_pushMin.1 hb with rfl | hb
        · exact s1.1 a ha
        · exact hx a (List.mem_cons_of_mem _ ha) b hb
      · refine List.Perm.trans ?_ hp
        refine (List.Perm.append_left rest (pushMin_perm top mn)).trans ?_
        exact List.perm_middle
      · rw [pushMin_length]
        omega
  · cases mn with
    | nil => simp at c2
    | cons top rest =>
      simp only
      simp only [List.length_cons] at c1 c2 h2
      rw [List.sorted_cons] at s2
      refine ⟨⟨pushMax_sorted top s1, s2.2, ?_, ?_⟩, ?_⟩
      · intro a ha b hb
        rcases mem_pushMax.1 ha with rfl | ha
        · exact s2.1 b hb
        · exact hx a ha b (List.mem_cons_of_mem _ hb)
      · refine List.Perm.trans ?_ hp
        refine (List.Perm.append_right rest (pushMax_perm top mx)).trans ?_
        exact (List.perm_middle).symm
      · rw [pushMax_length]
        omega
  · simp only at c1 c2
    refine ⟨⟨s1, s2, hx, hp⟩, ?_⟩
    simp only
    omega

theorem insert_inv {h : Heaps} {vs : List ℚ} (hi : HeapInv h vs)
    (hs : h.maxHeap.length = h.minHeap.length ∨ h.maxHeap.length = h.minHeap.length + 1)
    (v : ℚ) :
    HeapInv (insert h v) (vs ++ [v]) ∧
      ((insert h v).maxHeap.length = (insert h v).minHeap.length ∨
        (insert h v).maxHeap.length = (insert h v).minHeap.length + 1) := by
  obtain ⟨s1, s2, hx, hp⟩ := hi
  obtain ⟨mx, mn⟩ := h
  simp only at s1 s2 hx hp hs
  have hperm_max : (pushMax v mx ++ mn).Perm (vs ++ [v]) := by
    refine ((pushMax_perm v mx).append_right mn).trans ?_
    refine (List.Perm.cons v hp).trans ?_
    exact (List.perm_append_singleton v vs).symm
  have hperm_min : (mx ++ pushMin v mn).Perm (vs ++ [v]) := by
    refine (List.Perm.append_left mx (pushMin_perm v mn)).trans ?_
    refine List.perm_middle.trans ?_
    refine (List.Perm.cons v hp).trans ?_
    exact (List.perm_append_singleton v vs).symm
  unfold insert
  cases mx with
  | nil =>
    have hmn : mn = [] := by
      cases mn with
      | nil => rfl
      | cons b bs => simp at hs
    subst hmn
    simp only
    refine balanceHeaps_inv ⟨pushMax_sorted v s1, s2, ?_, hperm_max⟩ ?_ ?_
    · intro a _ b hb; simp at hb
    · simp [pushMax]
    · simp [pushMax]
  | cons top rest =>
    simp only
    have htop : ∀ a ∈ top :: rest, a ≤ top := by
      intro a ha
      rcases List.mem_cons.1 ha with rfl | ha
      · exact le_refl _
      · exact (List.sorted_cons.1 s1).1 a ha
    split_ifs with hlt
    · refine balanceHeaps_inv ⟨pushMax_sorted v s1, s2, ?_, hperm_max⟩ ?_ ?_
      · intro a ha b hb
        rcases mem_pushMax.1 ha with rfl | ha
        · exact le_of_lt (lt_of_lt_of_le hlt (hx top (List.mem_cons_self _ _) b hb))
        · exact hx a ha b hb
      · simp only [pushMax_length]; omega
      · simp only [pushMax_length]; omega
    · refine balanceHeaps_inv ⟨s1, pushMin_sorted v s2, ?_, hperm_min⟩ ?_ ?_
      · intro a ha b hb
        rcases mem_pushMin.1 hb with rfl | hb
        · exact le_trans (htop a ha) (not_lt.1 hlt)
        · exact hx a ha b hb
      · simp only [pushMin_length]; omega
      · simp only [pushMin_length]; omega

theorem insertAll_inv (vs : List ℚ) {h : Heaps} {ws : List ℚ} (hi : HeapInv h ws)
    (hs : h.maxHeap.length = h.minHeap.length ∨ h.maxHeap.length = h.minHeap.length + 1) :
    HeapInv (insertAll h vs) (ws ++ vs) ∧
      ((insertAll h vs).maxHeap.length = (insertAll h vs).minHeap.length ∨
        (insertAll h vs).maxHeap.length = (insertAll h vs).minHeap.length + 1) := by
  induction vs generalizing h ws with
  | nil => simpa [insertAll] using ⟨hi, hs⟩
  | cons v vs ih =>
    obtain ⟨hi', hs'⟩ := insert_inv hi hs v
    have := ih hi' hs'
    simpa [insertAll] using this

theorem sorted_eq_of_inv {h : Heaps} {vs : List ℚ} (hi : HeapInv h vs) :
    vs.insertionSort (· ≤ ·) = h.maxHeap.reverse ++ h.minHeap := by
  obtain ⟨s1, s2, hx, hp⟩ := hi
  have hsorted : (h.maxHeap.reverse ++ h.minHeap).Sorted (· ≤ ·) := by
    unfold List.Sorted
    rw [List.pairwise_append]
    refine ⟨?_, s2, ?_⟩
    · rw [List.pairwise_reverse]
      exact s1
    · intro a ha b hb
      exact hx a (List.mem_reverse.1 ha) b hb
  have hperm : (vs.insertionSort (· ≤ ·)).Perm (h.maxHeap.reverse ++ h.minHeap) :=
    (List.perm_insertionSort _ vs).trans
      (hp.symm.trans ((List.reverse_perm h.maxHeap).symm.append_right _))
  exact List.eq_of_perm_of_sorted hperm (List.sorted_insertionSort _ vs) hsorted

theorem median_of_inv {h : Heaps} {vs : List ℚ} (hi : HeapInv h vs)
    (hs : h.maxHeap.length = h.minHeap.length ∨ h.maxHeap.length = h.minHeap.length + 1) :
    standardMedian (vs.insertionSort (· ≤ ·)) = if vs = [] then none else some (median h) := by
  rw [sorted_eq_of_inv hi]
  have hp := hi.2.2.2
  obtain ⟨mx, mn⟩ := h
  simp only at hs hp ⊢
  cases mx with
  | nil =>
    have hmn : mn = [] := by
      cases mn with
      | nil => rfl
      | cons b bs => simp at hs
    subst hmn
    have hvs : vs = [] := by simpa using hp.symm
    subst hvs
    rfl
  | cons top rest =>
    have hvs : vs ≠ [] := by
      intro he
      subst he
      simp at hp
    rw [if_neg hvs]
    have htop : ∀ (M : List ℚ), ((top :: rest).reverse ++ M)[rest.length]? = some top := by
      intro M
      rw [List.reverse_cons, List.append_assoc,
        List.getElem?_append_right (by simp)]
      simp
    unfold standardMedian median
    simp only [List.length_append, List.length_reverse, List.length_cons] at hs ⊢
    rcases hs with he | ho
    · cases mn with
      | nil => simp at he
      | cons mtop mrest =>
        simp only [List.length_cons] at he ⊢
        have h0 : ¬ (rest.length + 1 + (mrest.length + 1) = 0) := by omega
        have h1 : ¬ ((rest.length + 1 + (mrest.length + 1)) % 2 = 1) := by omega
        have hi1 : (rest.length + 1 + (mrest.length + 1)) / 2 - 1 = rest.length := by omega
        have hi2 : (rest.length + 1 + (mrest.length + 1)) / 2 = rest.length + 1 := by omega
        have hmt : ((top :: rest).reverse ++ mtop :: mrest)[rest.length + 1]? = some mtop := by
          rw [List.getElem?_append_right (by simp)]
          simp
        rw [if_neg h0, if_neg h1, hi1, hi2, htop, hmt, if_pos he]
    · have h0 : ¬ (rest.length + 1 + mn.length = 0) := by omega
      have h1 : (rest.length + 1 + mn.length) % 2 = 1 := by omega
      have hi1 : (rest.length + 1 + mn.length) / 2 = rest.length := by omega
      have hne : ¬ (rest.length + 1 = mn.length) := by omega
      rw [if_neg h0, if_pos h1, hi1, htop, if_neg hne]

end SensorHeap

/-! ## Ordered nodes -/

namespace SensorAVL

theorem ordered_of_sorted {t : Node} (h : (inOrder t).Sorted (· ≤ ·)) : Ordered t := by
  induction t with
  | null => trivial
  | mk k hh s l r ihl ihr =>
    simp only [inOrder] at h
    rw [sorted_mid_iff] at h
    exact ⟨ihl h.1, ihr h.2.1, h.2.2.1, h.2.2.2⟩

end SensorAVL

namespace SensorRedBlack

theorem rb_ordered_of_sorted {t : Node} (h : (inOrder t).Sorted (· ≤ ·)) : Ordered t := by
  induction t with
  | null => trivial
  | mk k l r c s ihl ihr =>
    simp only [inOrder] at h
    rw [sorted_mid_iff] at h
    exact ⟨ihl h.1, ihr h.2.1, h.2.2.1, h.2.2.2⟩

end SensorRedBlack

/-! ## Removing an absent key returns the same tree -/

namespace SensorAVL

theorem removeBalance_self {k : ℚ} {hh s : ℤ} {l r : Node}
    (hb : Balanced (.mk k hh s l r)) (hz : SizeInv (.mk k hh s l r)) :
    removeBalance (.mk k hh s l r) = some (.mk k hh s l r) := by
  rw [balanced_mk_iff] at hb
  obtain ⟨_, _, hhh, hb1, hb2⟩ := hb
  simp only [SizeInv] at hz
  obtain ⟨_, _, hs⟩ := hz
  simp only [removeBalance, update, getBalance_mk]
  rw [if_neg (fun hc => by omega), if_neg (fun hc => by omega),
    if_neg (fun hc => by omega), if_neg (fun hc => by omega), ← hhh, ← hs]

theorem remove_absent_self {t : Node} {key : ℚ} (hb : Balanced t) (hz : SizeInv t)
    (hk : key ∉ inOrder t) : remove t key = some t := by
  induction t with
  | null => rfl
  | mk k hh s l r ihl ihr =>
    simp only [inOrder, List.mem_append, List.mem_cons, not_or] at hk
    obtain ⟨hkl, hkk, hkr⟩ := hk
    have hb' := hb
    have hz' := hz
    rw [balanced_mk_iff] at hb'
    simp only [SizeInv] at hz'
    unfold remove
    by_cases hlt : key < k
    · rw [if_pos hlt, ihl hb'.1 hz'.1 hkl]
      exact removeBalance_self hb hz
    · rw [if_neg hlt]
      have hgt : key > k := lt_of_le_of_ne (not_lt.1 hlt) (fun h => hkk h.symm)
      rw [if_pos hgt, ihr hb'.2.1 hz'.2.1 hkr]
      exact removeBalance_self hb hz

end SensorAVL

namespace SensorRedBlack

theorem rb_remove_absent_self {t : Node} {key : ℚ} (hz : SizeInv t)
    (hk : key ∉ inOrder t) : remove t key = some t := by
  induction t with
  | null => rfl
  | mk k l r c s ihl ihr =>
    simp only [inOrder, List.mem_append, List.mem_cons, not_or] at hk
    obtain ⟨hkl, hkk, hkr⟩ := hk
    simp only [SizeInv] at hz
    unfold remove
    by_cases hlt : key < k
    · rw [if_pos hlt, ihl hz.1 hkl]
      simp only [updateSize, ← hz.2.2]
    · rw [if_neg hlt]
      have hgt : key > k := lt_of_le_of_ne (not_lt.1 hlt) (fun h => hkk h.symm)
      rw [if_pos hgt, ihr hz.2.1 hkr]
      simp only [updateSize, ← hz.2.2]

theorem isRed_blacken (t : Node) : isRed (blacken t) = false := by
  cases t <;> rfl

theorem blacken_of_black {t : Node} (h : isRed t = false) : blacken t = t := by
  cases t with
  | null => rfl
  | mk k l r c s =>
    rw [isRed_mk] at h
    subst h
    rfl

theorem step_black {t t' : Node} {op : Op} (h : step t op = some t') : isRed t' = false := by
  cases op with
  | insert v =>
    obtain ⟨t1, _, hv⟩ := insertValue_eq t v
    simp only [step] at h
    rw [hv] at h
    cases h
    exact isRed_blacken _
  | remove v =>
    obtain ⟨t1, _, hv⟩ := removeValue_eq t v
    simp only [step] at h
    rw [hv] at h
    cases h
    exact isRed_blacken _

theorem runFrom_black (ops : List Op) {t t' : Node} (h0 : isRed t = false)
    (h : runFrom t ops = some t') : isRed t' = false := by
  induction ops generalizing t with
  | nil => simp only [runFrom] at h; cases h; exact h0
  | cons op ops ih =>
    simp only [runFrom] at h
    cases hs : step t op with
    | none => rw [hs] at h; cases h
    | some t1 =>
      rw [hs] at h
      exact ih (step_black hs) h

theorem reachable_black {t : Node} (h : Reachable t) : isRed t = false := by
  obtain ⟨ops, hops⟩ := h
  exact runFrom_black ops (t := .null) rfl hops

end SensorRedBlack

/-! ## Selection outside the range of ranks -/

namespace SensorRedBlack

theorem size_nonneg {t : Node} (hz : SizeInv t) : 0 ≤ size t := by
  rw [size_eq_length hz]
  exact Int.natCast_nonneg _

theorem select_neg (t : Node) (hz : SizeInv t) (k : ℤ) (hk : k < 0) : select t k = -1 := by
  induction t with
  | null => rfl
  | mk key l r c s ihl ihr =>
    simp only [SizeInv] at hz
    have := size_nonneg hz.1
    simp only [select]
    rw [if_pos (by omega)]
    exact ihl hz.1

theorem select_ge_size (t : Node) (hz : SizeInv t) (k : ℤ) (hk : size t ≤ k) :
    select t k = -1 := by
  induction t generalizing k with
  | null => rfl
  | mk key l r c s ihl ihr =>
    simp only [SizeInv] at hz
    have h1 := size_nonneg hz.1
    have h2 := size_nonneg hz.2.1
    simp only [size_mk] at hk
    simp only [select]
    rw [if_neg (by omega), if_pos (by omega)]
    exact ihr hz.2.1 _ (by omega)

end SensorRedBlack

namespace SensorAVL

theorem getSize_nonneg {t : Node} (hz : SizeInv t) : 0 ≤ getSize t := by
  rw [getSize_eq_length hz]
  exact Int.natCast_nonneg _

theorem findKthSmallest_lt_one (t : Node) (hz : SizeInv t) (k : ℤ) (hk : k < 1) :
    findKthSmallest t k = -1 := by
  induction t with
  | null => rfl
  | mk key hh s l r ihl ihr =>
    simp only [SizeInv] at hz
    have := getSize_nonneg hz.1
    simp only [findKthSmallest]
    rw [if_neg (by omega), if_pos (by omega)]
    exact ihl hz.1

theorem findKthSmallest_gt_size (t : Node) (hz : SizeInv t) (k : ℤ) (hk : getSize t < k) :
    findKthSmallest t k = -1 := by
  induction t generalizing k with
  | null => rfl
  | mk key hh s l r ihl ihr =>
    simp only [SizeInv] at hz
    have h1 := getSize_nonneg hz.1
    have h2 := getSize_nonneg hz.2.1
    simp only [getSize_mk] at hk
    simp only [findKthSmallest]
    rw [if_neg (by omega), if_neg (by omega)]
    exact ihr hz.2.1 _ (by omega)

end SensorAVL

/-! ## Range queries on distinct keys -/

theorem filter_range_left (L : List ℚ) (k lo hi : ℚ) (h : ∀ x ∈ L, x < k) (hk : ¬ lo < k) :
    L.filter (fun v => decide (lo ≤ v ∧ v ≤ hi)) = [] := by
  rw [List.filter_eq_nil_iff]
  intro x hx
  have := h x hx
  simp only [decide_eq_true_eq, not_and]
  intro h1
  exact absurd (lt_of_le_of_lt h1 this) hk

theorem filter_range_right (R : List ℚ) (k lo hi : ℚ) (h : ∀ x ∈ R, k < x) (hk : ¬ hi > k) :
    R.filter (fun v => decide (lo ≤ v ∧ v ≤ hi)) = [] := by
  rw [List.filter_eq_nil_iff]
  intro x hx
  have := h x hx
  simp only [decide_eq_true_eq, not_and]
  intro _ h2
  exact hk (lt_of_lt_of_le this h2)

theorem strict_mid_iff (L R : List ℚ) (k : ℚ) :
    (L ++ k :: R).Sorted (· < ·) ↔
      L.Sorted (· < ·) ∧ R.Sorted (· < ·) ∧ (∀ a ∈ L, a < k) ∧ (∀ b ∈ R, k < b) := by
  unfold List.Sorted
  rw [List.pairwise_append, List.pairwise_cons]
  constructor
  · rintro ⟨hL, ⟨hk, hR⟩, hLR⟩
    exact ⟨hL, hR, fun a ha => hLR a ha k (List.mem_cons_self _ _), hk⟩
  · rintro ⟨hL, hR, hLk, hkR⟩
    refine ⟨hL, ⟨hkR, hR⟩, ?_⟩
    intro a ha b hb
    rcases List.mem_cons.1 hb with rfl | hb
    · exact hLk a ha
    · exact lt_trans (hLk a ha) (hkR b hb)

namespace SensorAVL

theorem rangeQueryRec_eq_filter (t : Node) (lo hi : ℚ) (h : (inOrder t).Sorted (· < ·)) :
    rangeQueryRec t lo hi = (inOrder t).filter (fun v => decide (lo ≤ v ∧ v ≤ hi)) := by
  induction t with
  | null => rfl
  | mk k hh s l r ihl ihr =>
    simp only [inOrder] at h
    rw [strict_mid_iff] at h
    obtain ⟨hL, hR, hLk, hkR⟩ := h
    simp only [rangeQueryRec, inOrder, List.filter_append, List.filter_cons, List.append_assoc]
    have e1 : (if lo < k then rangeQueryRec l lo hi else [])
        = (inOrder l).filter (fun v => decide (lo ≤ v ∧ v ≤ hi)) := by
      split_ifs with hc
      · exact ihl hL
      · exact (filter_range_left _ k lo hi hLk hc).symm
    have e3 : (if hi > k then rangeQueryRec r lo hi else [])
        = (inOrder r).filter (fun v => decide (lo ≤ v ∧ v ≤ hi)) := by
      split_ifs with hc
      · exact ihr hR
      · exact (filter_range_right _ k lo hi hkR hc).symm
    rw [e1, e3]
    congr 1
    by_cases hc : k ≥ lo ∧ k ≤ hi
    · rw [if_pos hc, if_pos (by simpa using hc)]
      rfl
    · rw [if_neg hc, if_neg (by simpa using hc)]
      rfl

end SensorAVL

namespace SensorRedBlack

theorem rb_rangeQueryRec_eq_filter (t : Node) (lo hi : ℚ) (h : (inOrder t).Sorted (· < ·)) :
    rangeQueryRec t lo hi = (inOrder t).filter (fun v => decide (lo ≤ v ∧ v ≤ hi)) := by
  induction t with
  | null => rfl
  | mk k l r c s ihl ihr =>
    simp only [inOrder] at h
    rw [strict_mid_iff] at h
    obtain ⟨hL, hR, hLk, hkR⟩ := h
    simp only [rangeQueryRec, inOrder, List.filter_append, List.filter_cons, List.append_assoc]
    have e1 : (if lo < k then rangeQueryRec l lo hi else [])
        = (inOrder l).filter (fun v => decide (lo ≤ v ∧ v ≤ hi)) := by
      split_ifs with hc
      · exact ihl hL
      · exact (filter_range_left _ k lo hi hLk hc).symm
    have e3 : (if hi > k then rangeQueryRec r lo hi else [])
        = (inOrder r).filter (fun v => decide (lo ≤ v ∧ v ≤ hi)) := by
      split_ifs with hc
      · exact ihr hR
      · exact (filter_range_right _ k lo hi hkR hc).symm
    rw [e1, e3]
    congr 1
    by_cases hc : k ≥ lo ∧ k ≤ hi
    · rw [if_pos hc, if_pos (by simpa using hc)]
      rfl
    · rw [if_neg hc, if_neg (by simpa using hc)]
      rfl

end SensorRedBlack

/-! ## The height of an AVL tree -/

theorem two_pow_le_fib (h : ℕ) : 2 ^ (h / 2) ≤ Nat.fib (h + 2) := by
  induction h using Nat.strong_induction_on with
  | _ h ih =>
    match h with
    | 0 => decide
    | 1 => decide
    | n + 2 =>
      have h1 := ih n (by omega)
      have h2 : Nat.fib (n + 2) ≤ Nat.fib (n + 3) := Nat.fib_mono (by omega)
      have e1 : (n + 2) / 2 = n / 2 + 1 := by omega
      have e2 : Nat.fib (n + 2 + 2) = Nat.fib (n + 2) + Nat.fib (n + 3) := Nat.fib_add_two
      rw [e1, e2, pow_succ]
      omega

namespace SensorAVL

theorem fib_le_length {t : Node} (hb : Balanced t) :
    Nat.fib ((height t).toNat + 2) ≤ (inOrder t).length + 1 := by
  induction t with
  | null => simp [height, inOrder]
  | mk k hh s l r ihl ihr =>
    rw [balanced_mk_iff] at hb
    obtain ⟨hl, hr, hhh, hb1, hb2⟩ := hb
    have h1 := ihl hl
    have h2 := ihr hr
    have n1 := height_nonneg hl
    have n2 := height_nonneg hr
    simp only [height_mk, inOrder, List.length_append, List.length_cons]
    by_cases hc : height r ≤ height l
    · have e : hh.toNat + 2 = ((height l).toNat + 1) + 2 := by omega
      rw [e, Nat.fib_add_two]
      have m : Nat.fib ((height l).toNat + 1) ≤ Nat.fib ((height r).toNat + 2) :=
        Nat.fib_mono (by omega)
      have e' : (height l).toNat + 1 + 1 = (height l).toNat + 2 := by omega
      rw [e']
      omega
    · have e : hh.toNat + 2 = ((height r).toNat + 1) + 2 := by omega
      rw [e, Nat.fib_add_two]
      have m : Nat.fib ((height r).toNat + 1) ≤ Nat.fib ((height l).toNat + 2) :=
        Nat.fib_mono (by omega)
      have e' : (height r).toNat + 1 + 1 = (height r).toNat + 2 := by omega
      rw [e']
      omega

end SensorAVL

/-! ## The median read off a sorted vector -/

theorem medianaPadrao_perm {l l' : List ℚ} (h : l.Perm l') :
    medianaPadrao l = medianaPadrao l' := by
  have : l.insertionSort (· ≤ ·) = l'.insertionSort (· ≤ ·) :=
    List.eq_of_perm_of_sorted
      (((List.perm_insertionSort _ l).trans h).trans (List.perm_insertionSort _ l').symm)
      (List.sorted_insertionSort _ l) (List.sorted_insertionSort _ l')
  simp only [medianaPadrao, this]

theorem medianaPadrao_sorted {s : List ℚ} (h : s.Sorted (· ≤ ·)) :
    medianaPadrao s = (standardMedian s).getD 0 := by
  simp only [medianaPadrao, List.Sorted.insertionSort_eq h]

theorem standardMedian_getD (s : List ℚ) :
    (standardMedian s).getD 0 =
      if s.isEmpty then 0
      else if s.length % 2 = 1 then s.getD (s.length / 2) 0
      else (s.getD (s.length / 2 - 1) 0 + s.getD (s.length / 2) 0) / 2 := by
  cases s with
  | nil => simp [standardMedian]
  | cons a t =>
    have h1 : (a :: t).length / 2 < (a :: t).length := Nat.div_lt_self (by simp) (by decide)
    have h2 : (a :: t).length / 2 - 1 < (a :: t).length := by omega
    simp only [standardMedian, List.isEmpty_cons, Bool.false_eq_true, if_false]
    rw [if_neg (by simp)]
    simp only [List.getD_eq_getElem?_getD, List.getElem?_eq_getElem h1,
      List.getElem?_eq_getElem h2]
    split_ifs <;> simp

theorem standardMedian_isSome {s : List ℚ} (h : s ≠ []) :
    standardMedian s = some ((standardMedian s).getD 0) := by
  cases s with
  | nil => exact absurd rfl h
  | cons a t =>
    have h1 : (a :: t).length / 2 < (a :: t).length := Nat.div_lt_self (by simp) (by decide)
    have h2 : (a :: t).length / 2 - 1 < (a :: t).length := by omega
    simp only [standardMedian]
    rw [if_neg (by simp)]
    simp only [List.getElem?_eq_getElem h1, List.getElem?_eq_getElem h2]
    split_ifs <;> rfl

/-! ## The lazy insertion sort of `ListaOrdenadaManual` -/

namespace ListaOrdenadaManual

theorem deslocar_spec (x : ℚ) : ∀ (m : ℕ) (P Q : List ℚ) (h : ℚ), P.length = m →
    ∃ R, deslocar (P ++ h :: Q) x m = R ++ Q ∧ R.Perm (x :: P) ∧
      (P.Sorted (· ≤ ·) → R.Sorted (· ≤ ·)) := by
  intro m
  induction m with
  | zero =>
    intro P Q h hP
    have : P = [] := List.length_eq_zero.mp hP
    subst this
    exact ⟨[x], by simp [deslocar], List.Perm.refl _, fun _ => List.sorted_singleton x⟩
  | succ m ih =>
    intro P Q h hP
    obtain ⟨P', a, rfl⟩ : ∃ P' a, P = P' ++ [a] := by
      rcases List.eq_nil_or_concat P with h0 | ⟨P', a, h0⟩
      · subst h0; simp at hP
      · exact ⟨P', a, by rw [h0, List.concat_eq_append]⟩
    have hP' : P'.length = m := by simpa using hP
    have hget : (P' ++ [a] ++ h :: Q).getD m 0 = a := by
      rw [List.getD_eq_getElem?_getD, List.append_assoc,
        List.getElem?_append_right (by omega)]
      simp [hP']
    have hset : ∀ y, (P' ++ [a] ++ h :: Q).set (m + 1) y = P' ++ a :: y :: Q := by
      intro y
      rw [List.append_assoc, List.set_append]
      simp [hP']
    simp only [deslocar, hget, hset]
    by_cases hax : a > x
    · rw [if_pos hax]
      obtain ⟨R, hR, hperm, hsorted⟩ := ih P' (a :: Q) a hP'
      refine ⟨R ++ [a], by rw [hR]; simp, ?_, fun hs => ?_⟩
      · have : (x :: (P' ++ [a])) = (x :: P') ++ [a] := rfl
        rw [this]
        exact hperm.append_right [a]
      · simp only [List.Sorted, List.pairwise_append] at hs ⊢
        refine ⟨hsorted hs.1, List.pairwise_singleton _ a, fun y hy b hb => ?_⟩
        have hb' : b = a := by simpa using hb
        subst hb'
        rcases List.mem_cons.mp (hperm.subset hy) with h1 | h1
        · rw [h1]; exact le_of_lt hax
        · exact hs.2.2 y h1 b (by simp)
    · rw [if_neg hax]
      refine ⟨P' ++ [a] ++ [x], by simp, ?_, fun hs => ?_⟩
      · exact List.perm_append_singleton x (P' ++ [a])
      · have hs0 := hs
        simp only [List.Sorted, List.pairwise_append] at hs ⊢
        refine ⟨⟨hs.1, hs.2.1, hs.2.2⟩, List.pairwise_singleton _ x, fun y hy b hb => ?_⟩
        have hb' : b = x := by simpa using hb
        subst hb'
        rcases List.mem_append.mp hy with h1 | h1
        · exact le_trans (hs.2.2 y h1 a (by simp)) (not_lt.mp hax)
        · have : y = a := by simpa using h1
          rw [this]; exact not_lt.mp hax

theorem ordenar_fold : ∀ (T S : List ℚ), S.Sorted (· ≤ ·) →
    ∃ R, (List.range' S.length T.length).foldl (fun c i => deslocar c (c.getD i 0) i) (S ++ T)
        = R ∧ R.Sorted (· ≤ ·) ∧ R.Perm (S ++ T) := by
  intro T
  induction T with
  | nil => intro S hS; exact ⟨S, by simp, hS, by simp⟩
  | cons h T ih =>
    intro S hS
    obtain ⟨R, hR, hperm, hsorted⟩ := deslocar_spec h S.length S T h rfl
    have hget : (S ++ h :: T).getD S.length 0 = h := by
      rw [List.getD_eq_getElem?_getD, List.getElem?_append_right (le_refl _)]
      simp
    have hlen : R.length = S.length + 1 := by simpa using hperm.length_eq
    obtain ⟨R', hR', hs', hp'⟩ := ih R (hsorted hS)
    refine ⟨R', ?_, hs', ?_⟩
    · rw [List.length_cons, List.range'_succ, List.foldl_cons, hget, hR, ← hlen]
      exact hR'
    · refine hp'.trans ?_
      refine (hperm.append_right T).trans ?_
      simp only [List.cons_append]
      exact (List.perm_middle).symm

theorem ordenarAgora_eq (c : List ℚ) : ordenarAgora c = c.insertionSort (· ≤ ·) := by
  cases c with
  | nil => simp [ordenarAgora]
  | cons a T =>
    obtain ⟨R, hR, hs, hp⟩ := ordenar_fold T [a] (List.sorted_singleton a)
    have : ordenarAgora (a :: T) = R := by
      simp only [ordenarAgora, List.length_cons, Nat.add_sub_cancel]
      simpa using hR
    rw [this]
    exact List.eq_of_perm_of_sorted (hp.trans (List.perm_insertionSort _ _).symm) hs
      (List.sorted_insertionSort _ _)

/-- What the benchmark keeps true of a list: the values are those of `l`,
and they are in order whenever the flag says so. -/
theorem chamar_inv {e : Estado} {l : List ℚ} (hp : e.container.Perm l)
    (hs : e.estaOrdenado = true → e.container.Sorted (· ≤ ·)) (c : Chamada) :
    (chamar e c).container.Perm
        (match c with
          | .inserir v => v :: l
          | .remover v => l.erase v
          | .mediana => l) ∧
      ((chamar e c).estaOrdenado = true → (chamar e c).container.Sorted (· ≤ ·)) := by
  cases c with
  | inserir v =>
    simp only [chamar, inserir]
    exact ⟨(List.perm_append_singleton v _).trans (hp.cons v), fun h => by simp at h⟩
  | remover v =>
    simp only [chamar, remover]
    exact ⟨hp.erase v, fun h => (hs h).sublist (List.erase_sublist v _)⟩
  | mediana =>
    simp only [chamar, calcularMediana]
    by_cases he : e.container.isEmpty = true
    · rw [if_pos he]; exact ⟨hp, hs⟩
    · rw [if_neg he]
      by_cases hf : e.estaOrdenado = false
      · simp only [hf, if_true, ordenarAgora_eq]
        exact ⟨(List.perm_insertionSort _ _).trans hp, fun _ => List.sorted_insertionSort _ _⟩
      · simp only [hf, if_false]
        exact ⟨hp, hs⟩

theorem lista_executar_inv (cs : List Chamada) :
    (executar cs).container.Perm (conteudo cs) ∧
      ((executar cs).estaOrdenado = true → (executar cs).container.Sorted (· ≤ ·)) := by
  induction cs using List.reverseRecOn with
  | nil => simp [executar, conteudo, vazio]
  | append_singleton cs c ih =>
    have := chamar_inv ih.1 ih.2 c
    simp only [executar, conteudo, List.foldl_append, List.foldl_cons, List.foldl_nil] at this ⊢
    cases c <;> exact this

theorem lista_calcularMediana_eq {e : Estado} {l : List ℚ} (hp : e.container.Perm l)
    (hs : e.estaOrdenado = true → e.container.Sorted (· ≤ ·)) :
    (calcularMediana e).1 = medianaPadrao l := by
  rw [← medianaPadrao_perm hp]
  simp only [calcularMediana]
  by_cases he : e.container.isEmpty = true
  · rw [if_pos he]
    have : e.container = [] := List.isEmpty_iff.mp he
    simp [this, medianaPadrao, standardMedian]
  · rw [if_neg he]
    have key : ∀ s : List ℚ, s.Sorted (· ≤ ·) → s.Perm e.container →
        (if s.length % 2 = 1 then s.getD (s.length / 2) 0
          else (s.getD (s.length / 2 - 1) 0 + s.getD (s.length / 2) 0) * (1 / 2))
          = medianaPadrao e.container := by
      intro s hss hsp
      rw [← medianaPadrao_perm hsp, medianaPadrao_sorted hss, standardMedian_getD]
      have : s.isEmpty = false := by
        cases s with
        | nil => simp at hsp; simp [hsp] at he
        | cons _ _ => rfl
      rw [this]
      simp only [Bool.false_eq_true, if_false]
      split_ifs <;> ring
    by_cases hf : e.estaOrdenado = false
    · simp only [hf, if_true, ordenarAgora_eq]
      exact key _ (List.sorted_insertionSort _ _) (List.perm_insertionSort _ _)
    · simp only [hf, if_false]
      exact key _ (hs (by simpa using hf)) (List.Perm.refl _)

end ListaOrdenadaManual

/-! ## The array heap of `MinHeapCustomizado` -/

namespace MinHeapCustomizado

theorem length_swap (d : List ℚ) (i j : ℕ) : (swap d i j).length = d.length := by
  simp [swap]

theorem swap_perm (d : List ℚ) (i j : ℕ) (hi : i < d.length) (hj : j < d.length) :
    (swap d i j).Perm d := by
  rw [List.perm_iff_count]
  intro a
  have hj' : j < (d.set i (d.getD j 0)).length := by simpa using hj
  simp only [swap]
  rw [List.count_set _ _ _ _ hj', List.count_set _ _ _ _ hi]
  simp only [List.getD_eq_getElem _ _ hi, List.getD_eq_getElem _ _ hj, List.getElem_set]
  have h1 := List.count_pos_iff.mpr (List.getElem_mem hi)
  have h2 := List.count_pos_iff.mpr (List.getElem_mem hj)
  by_cases hij : i = j
  · subst hij
    simp only [if_true]
    by_cases h : d[i] = a
    · rw [h] at h1
      simp only [h, if_true, beq_self_eq_true]
      omega
    · simp [h]
  · simp only [if_neg hij]
    by_cases h : d[i] = a <;> by_cases h' : d[j] = a
    · rw [h] at h1
      simp only [h, h', if_true, beq_self_eq_true]
      omega
    · rw [h] at h1
      have h'' : ¬ a = d[j] := fun e => h' e.symm
      simp only [h, h', h'', if_true, if_false, beq_self_eq_true, beq_iff_eq]
      omega
    · rw [h'] at h2
      have h'' : ¬ a = d[i] := fun e => h e.symm
      simp only [h, h', h'', if_true, if_false, beq_self_eq_true, beq_iff_eq]
      omega
    · simp [h, h']

theorem promoverElemento_perm : ∀ (idx : ℕ) (d : List ℚ), idx < d.length →
    (promoverElemento d idx).Perm d := by
  intro idx
  induction idx using Nat.strong_induction_on with
  | _ idx ih =>
    intro d hidx
    rw [promoverElemento]
    by_cases h0 : idx > 0
    · rw [if_pos h0]
      by_cases hle : d.getD (pai idx) 0 ≤ d.getD idx 0
      · rw [if_pos hle]
      · rw [if_neg hle]
        have hp : pai idx < idx := by simp only [pai]; omega
        exact (ih (pai idx) hp _ (by rw [length_swap]; omega)).trans
          (swap_perm d idx (pai idx) hidx (by omega))
    · rw [if_neg h0]

theorem menorDe_cases (d : List ℚ) (idx : ℕ) :
    menorDe d idx = idx ∨ (idx < menorDe d idx ∧ menorDe d idx < d.length) := by
  simp only [menorDe, filhoEsq, filhoDir]
  split_ifs <;> omega

theorem rebaixarElemento_perm : ∀ (n : ℕ) (d : List ℚ) (idx : ℕ), d.length - idx = n →
    idx < d.length → (rebaixarElemento d idx).Perm d := by
  intro n
  induction n using Nat.strong_induction_on with
  | _ n ih =>
    intro d idx hn hidx
    rw [rebaixarElemento]
    by_cases h : menorDe d idx = idx
    · rw [dif_pos h]
    · rw [dif_neg h]
      rcases menorDe_cases d idx with h1 | ⟨h1, h2⟩
      · exact absurd h1 h
      · exact (ih ((swap d idx (menorDe d idx)).length - menorDe d idx)
            (by rw [length_swap]; omega) _ _ rfl (by rw [length_swap]; exact h2)).trans
          (swap_perm d idx _ hidx h2)

theorem inserir_perm (d : List ℚ) (v : ℚ) : (inserir d v).Perm (v :: d) := by
  simp only [inserir]
  exact (promoverElemento_perm _ _ (by simp)).trans (List.perm_append_singleton v d)

theorem remover_perm (d : List ℚ) (v : ℚ) : (remover d v).Perm (d.erase v) := by
  simp only [remover]
  by_cases hmem : v ∈ d
  · have hlt : d.indexOf v < d.length := List.indexOf_lt_length.mpr hmem
    rw [if_neg (by omega)]
    have hbase : ((d.set (d.indexOf v) (d.getLastD 0)).dropLast).Perm (d.erase v) := by
      obtain ⟨A, B, rfl, hA⟩ := List.eq_append_cons_of_mem hmem
      have hidx : (A ++ v :: B).indexOf v = A.length := by
        rw [List.indexOf_append_of_not_mem hA, List.indexOf_cons_self, Nat.add_zero]
      have herase : (A ++ v :: B).erase v = A ++ B := by
        rw [List.erase_append_right _ hA, List.erase_cons_head]
      rw [hidx, herase]
      rcases List.eq_nil_or_concat B with hB | ⟨B', l, hB⟩
      · subst hB
        simp [List.set_append]
      · rw [hB, List.concat_eq_append]
        have hlast : (A ++ v :: (B' ++ [l])).getLastD 0 = l := by
          have e : A ++ v :: (B' ++ [l]) = (A ++ v :: B') ++ [l] := by simp
          rw [e, List.getLastD_eq_getLast?, List.getLast?_concat]
          rfl
        rw [hlast, List.set_append]
        simp only [lt_self_iff_false, if_false, Nat.sub_self, List.set_cons_zero]
        have : A ++ l :: (B' ++ [l]) = (A ++ l :: B') ++ [l] := by simp
        rw [this, List.dropLast_concat]
        have h2 : A ++ (B' ++ [l]) = A ++ B' ++ [l] := by simp
        rw [h2]
        exact (List.perm_middle).trans (List.perm_append_singleton l (A ++ B')).symm
    by_cases hlen : d.indexOf v < ((d.set (d.indexOf v) (d.getLastD 0)).dropLast).length
    · rw [if_pos hlen]
      exact ((promoverElemento_perm _ _ (by
          rw [(rebaixarElemento_perm _ _ _ rfl hlen).length_eq]; exact hlen)).trans
        (rebaixarElemento_perm _ _ _ rfl hlen)).trans hbase
    · rw [if_neg hlen]
      exact hbase
  · rw [if_pos (List.indexOf_eq_length.mpr hmem), List.erase_of_not_mem hmem]

theorem executar_perm (cs : List Chamada) : (executar cs).Perm (conteudo cs) := by
  induction cs using List.reverseRecOn with
  | nil => simp [executar, conteudo]
  | append_singleton cs c ih =>
    simp only [executar, conteudo, List.foldl_append, List.foldl_cons, List.foldl_nil] at ih ⊢
    cases c with
    | inserir v => exact (inserir_perm _ v).trans (ih.cons v)
    | remover v => exact (remover_perm _ v).trans (ih.erase v)
    | mediana => exact ih

theorem heap_calcularMediana_eq (d : List ℚ) : calcularMediana d = medianaPadrao d := by
  simp only [calcularMediana, medianaPadrao, standardMedian_getD]
  by_cases he : d.isEmpty = true
  · have : d = [] := List.isEmpty_iff.mp he
    subst this
    simp
  · have hne : d ≠ [] := fun h => he (by simp [h])
    have hne' : (d.insertionSort (· ≤ ·)).isEmpty = false := by
      cases hh : d.insertionSort (· ≤ ·) with
      | nil =>
        have := (List.perm_insertionSort (· ≤ ·) d).length_eq
        rw [hh] at this
        exact absurd (List.length_eq_zero.mp this.symm) hne
      | cons _ _ => rfl
    rw [if_neg he, hne']
    simp only [Bool.false_eq_true, if_false]
    by_cases hpar : (d.insertionSort (· ≤ ·)).length % 2 = 0
    · rw [if_pos hpar, if_neg (by omega)]; ring
    · rw [if_neg hpar, if_pos (by omega)]

end MinHeapCustomizado

/-! ## `ArvoreBalanceada` follows `SensorAVL` -/

namespace ArvoreBalanceada

theorem alt_deSensor (t : SensorAVL.Node) : alt (deSensor t) = SensorAVL.height t := by
  cases t <;> rfl

theorem fatorBal_deSensor (t : SensorAVL.Node) :
    fatorBal (deSensor t) = SensorAVL.getBalance t := by
  cases t with
  | null => rfl
  | mk k h s l r => simp only [deSensor, fatorBal, alt_deSensor, SensorAVL.getBalance]

theorem isNull_deSensor (t : SensorAVL.Node) : (deSensor t).isNull = t.isNull := by
  cases t <;> rfl

theorem emOrdem_deSensor (t : SensorAVL.Node) : emOrdem (deSensor t) = SensorAVL.inOrder t := by
  induction t with
  | null => rfl
  | mk k h s l r ihl ihr => simp only [deSensor, emOrdem, SensorAVL.inOrder, ihl, ihr]

theorem rotacionarEsquerda_deSensor (t : SensorAVL.Node) :
    rotacionarEsquerda (deSensor t) = (SensorAVL.leftRotate t).map deSensor := by
  cases t with
  | null => rfl
  | mk k h s l r =>
    cases r with
    | null => rfl
    | mk rk rh rs rl rr =>
      simp only [deSensor, rotacionarEsquerda, SensorAVL.leftRotate, SensorAVL.update,
        Option.map_some', alt_deSensor, SensorAVL.height_mk, add_comm]

theorem rotacionarDireita_deSensor (t : SensorAVL.Node) :
    rotacionarDireita (deSensor t) = (SensorAVL.rightRotate t).map deSensor := by
  cases t with
  | null => rfl
  | mk k h s l r =>
    cases l with
    | null => rfl
    | mk lk lh ls ll lr =>
      simp only [deSensor, rotacionarDireita, SensorAVL.rightRotate, SensorAVL.update,
        Option.map_some', alt_deSensor, SensorAVL.height_mk, add_comm]

theorem deSensor_mk (k : ℚ) (h s : ℤ) (l r : SensorAVL.Node) :
    deSensor (.mk k h s l r) = .mk k (deSensor l) (deSensor r) h := rfl

theorem inserirBal_deSensor (k : ℚ) (h s : ℤ) (l r : SensorAVL.Node) (chave : ℚ) :
    inserirBal (deSensor (.mk k h s l r)) chave
      = (SensorAVL.insertBalance (SensorAVL.update (.mk k h s l r)) chave).map deSensor := by
  simp only [deSensor_mk, inserirBal, SensorAVL.update, SensorAVL.insertBalance,
    SensorAVL.getBalance, alt_deSensor]
  by_cases h1 : SensorAVL.height l - SensorAVL.height r > 1
  · rw [if_pos h1, if_pos h1]
    cases l with
    | null => rfl
    | mk lk lh ls ll lr =>
      simp only [deSensor_mk]
      by_cases h2 : chave < lk
      · rw [if_pos h2, if_pos h2, ← deSensor_mk lk lh ls ll lr,
          ← deSensor_mk k _ (1 + SensorAVL.getSize (.mk lk lh ls ll lr) + SensorAVL.getSize r),
          rotacionarDireita_deSensor]
      · rw [if_neg h2, if_neg h2, ← deSensor_mk lk lh ls ll lr, rotacionarEsquerda_deSensor]
        cases hrot : SensorAVL.leftRotate (.mk lk lh ls ll lr) with
        | none => rfl
        | some l' =>
          simp only [Option.map_some']
          rw [← deSensor_mk k _ (1 + SensorAVL.getSize (.mk lk lh ls ll lr) + SensorAVL.getSize r),
            rotacionarDireita_deSensor]
  · rw [if_neg h1, if_neg h1]
    by_cases h3 : SensorAVL.height l - SensorAVL.height r < -1
    · rw [if_pos h3, if_pos h3]
      cases r with
      | null => rfl
      | mk rk rh rs rl rr =>
        simp only [deSensor_mk]
        by_cases h2 : chave ≥ rk
        · rw [if_pos h2, if_pos h2, ← deSensor_mk rk rh rs rl rr,
            ← deSensor_mk k _ (1 + SensorAVL.getSize l + SensorAVL.getSize (.mk rk rh rs rl rr)),
            rotacionarEsquerda_deSensor]
        · rw [if_neg h2, if_neg h2, ← deSensor_mk rk rh rs rl rr, rotacionarDireita_deSensor]
          cases hrot : SensorAVL.rightRotate (.mk rk rh rs rl rr) with
          | none => rfl
          | some r' =>
            simp only [Option.map_some']
            rw [← deSensor_mk k _
                (1 + SensorAVL.getSize l + SensorAVL.getSize (.mk rk rh rs rl rr)),
              rotacionarEsquerda_deSensor]
    · rw [if_neg h3, if_neg h3]
      rfl

theorem inserirRec_deSensor (t : SensorAVL.Node) (chave : ℚ) :
    inserirRec (deSensor t) chave = (SensorAVL.insert t chave).map deSensor := by
  induction t with
  | null => rfl
  | mk k h s l r ihl ihr =>
    simp only [deSensor_mk, inserirRec, SensorAVL.insert]
    by_cases h1 : chave < k
    · rw [if_pos h1, if_pos h1, ihl]
      cases SensorAVL.insert l chave with
      | none => rfl
      | some l' =>
        simp only [Option.map_some']
        rw [← deSensor_mk, inserirBal_deSensor]
    · rw [if_neg h1, if_neg h1, ihr]
      cases SensorAVL.insert r chave with
      | none => rfl
      | some r' =>
        simp only [Option.map_some']
        rw [← deSensor_mk, inserirBal_deSensor]

theorem removerBal_deSensor (t : SensorAVL.Node) :
    removerBal (deSensor t) = (SensorAVL.removeBalance t).map deSensor := by
  cases t with
  | null => rfl
  | mk k h s l r =>
    simp only [deSensor_mk, removerBal, SensorAVL.removeBalance, SensorAVL.update,
      SensorAVL.getBalance_mk, alt_deSensor, fatorBal_deSensor]
    by_cases c1 : SensorAVL.height l - SensorAVL.height r > 1 ∧ SensorAVL.getBalance l ≥ 0
    · rw [if_pos c1, if_pos c1, ← deSensor_mk k _ (1 + SensorAVL.getSize l + SensorAVL.getSize r),
        rotacionarDireita_deSensor]
    · rw [if_neg c1, if_neg c1]
      by_cases c2 : SensorAVL.height l - SensorAVL.height r > 1 ∧ SensorAVL.getBalance l < 0
      · rw [if_pos c2, if_pos c2, rotacionarEsquerda_deSensor]
        cases SensorAVL.leftRotate l with
        | none => rfl
        | some l' =>
          simp only [Option.map_some']
          rw [← deSensor_mk k _ (1 + SensorAVL.getSize l + SensorAVL.getSize r),
            rotacionarDireita_deSensor]
      · rw [if_neg c2, if_neg c2]
        by_cases c3 : SensorAVL.height l - SensorAVL.height r < -1 ∧ SensorAVL.getBalance r ≤ 0
        · rw [if_pos c3, if_pos c3,
            ← deSensor_mk k _ (1 + SensorAVL.getSize l + SensorAVL.getSize r),
            rotacionarEsquerda_deSensor]
        · rw [if_neg c3, if_neg c3]
          by_cases c4 : SensorAVL.height l - SensorAVL.height r < -1 ∧
              SensorAVL.getBalance r > 0
          · rw [if_pos c4, if_pos c4, rotacionarDireita_deSensor]
            cases SensorAVL.rightRotate r with
            | none => rfl
            | some r' =>
              simp only [Option.map_some']
              rw [← deSensor_mk k _ (1 + SensorAVL.getSize l + SensorAVL.getSize r),
                rotacionarEsquerda_deSensor]
          · rw [if_neg c4, if_neg c4]
            rfl

theorem minNo_deSensor (t : SensorAVL.Node) :
    minNo (deSensor t) = ((SensorAVL.minValueNode t).map deSensor).getD .null := by
  induction t with
  | null => rfl
  | mk k h s l r ihl _ =>
    cases l with
    | null => rfl
    | mk lk lh ls ll lr =>
      simp only [deSensor_mk, minNo, SensorAVL.minValueNode]
      rw [← deSensor_mk lk lh ls ll lr, ihl]

theorem removerRec_deSensor (t : SensorAVL.Node) (chave : ℚ) :
    removerRec (deSensor t) chave = (SensorAVL.remove t chave).map deSensor := by
  induction t generalizing chave with
  | null => rfl
  | mk k h s l r ihl ihr =>
    simp only [deSensor_mk, removerRec, SensorAVL.remove, isNull_deSensor]
    by_cases h1 : chave < k
    · rw [if_pos h1, if_pos h1, ihl]
      cases SensorAVL.remove l chave with
      | none => rfl
      | some l' =>
        simp only [Option.map_some']
        rw [← deSensor_mk, removerBal_deSensor]
    · rw [if_neg h1, if_neg h1]
      by_cases h2 : chave > k
      · rw [if_pos h2, if_pos h2, ihr]
        cases SensorAVL.remove r chave with
        | none => rfl
        | some r' =>
          simp only [Option.map_some']
          rw [← deSensor_mk, removerBal_deSensor]
      · rw [if_neg h2, if_neg h2]
        by_cases h3 : (l.isNull || r.isNull) = true
        · rw [if_pos h3, if_pos h3]
          by_cases h4 : (!l.isNull) = true
          · rw [if_pos h4, if_pos h4, removerBal_deSensor]
          · rw [if_neg h4, if_neg h4, removerBal_deSensor]
        · rw [if_neg h3, if_neg h3, minNo_deSensor]
          cases hm : SensorAVL.minValueNode r with
          | none => rfl
          | some m =>
            cases m with
            | null => rfl
            | mk tk th ts tl tr =>
              simp only [Option.map_some', Option.getD_some, deSensor_mk]
              rw [ihr]
              cases SensorAVL.remove r tk with
              | none => rfl
              | some r' =>
                simp only [Option.map_some']
                rw [← deSensor_mk, removerBal_deSensor]

theorem buscarFaixa_deSensor (t : SensorAVL.Node) (mn mx : ℚ) :
    buscarFaixa (deSensor t) mn mx = SensorAVL.rangeQueryRec t mn mx := by
  induction t with
  | null => rfl
  | mk k h s l r ihl ihr =>
    simp only [deSensor_mk, buscarFaixa, SensorAVL.rangeQueryRec, ihl, ihr]

/-- The benchmark tree after the calls `cs` is the image of a `SensorAVL`
tree that keeps its invariants and holds the values of `conteudo`. -/
theorem executarDe_inv : ∀ (cs : List Chamada) (t : SensorAVL.Node) (l : List ℚ),
    SensorAVL.Balanced t → SensorAVL.SizeInv t → (SensorAVL.inOrder t).Sorted (· ≤ ·) →
    (SensorAVL.inOrder t).Perm l →
    ∃ t', executarDe (deSensor t) cs = some (deSensor t') ∧ SensorAVL.Balanced t' ∧
      SensorAVL.SizeInv t' ∧ (SensorAVL.inOrder t').Sorted (· ≤ ·) ∧
      (SensorAVL.inOrder t').Perm
        (cs.foldl (fun l c =>
          match c with
          | .inserir v => v :: l
          | .remover v => l.erase v
          | .mediana => l) l) := by
  intro cs
  induction cs with
  | nil => intro t l hb hz hs hp; exact ⟨t, rfl, hb, hz, hs, hp⟩
  | cons c cs ih =>
    intro t l hb hz hs hp
    cases c with
    | inserir v =>
      obtain ⟨t1, h1, hb1, hz1, hs1⟩ := SensorAVL.step_inv hb hz hs (.insert v)
      have hp1 := (SensorAVL.insert_perm h1).trans (hp.cons v)
      obtain ⟨t', h', r'⟩ := ih t1 (v :: l) hb1 hz1 hs1 hp1
      refine ⟨t', ?_, r'⟩
      have : chamar (deSensor t) (.inserir v) = some (deSensor t1) := by
        simp only [chamar, inserirRec_deSensor]
        rw [show SensorAVL.insert t v = some t1 from h1]
        rfl
      simp only [executarDe, this]
      exact h'
    | remover v =>
      obtain ⟨t1, h1, hb1, hz1, hs1⟩ := SensorAVL.step_inv hb hz hs (.remove v)
      have hp1 : (SensorAVL.inOrder t1).Perm (l.erase v) := by
        rw [SensorAVL.remove_inOrder hs h1]
        exact hp.erase v
      obtain ⟨t', h', r'⟩ := ih t1 (l.erase v) hb1 hz1 hs1 hp1
      refine ⟨t', ?_, r'⟩
      have : chamar (deSensor t) (.remover v) = some (deSensor t1) := by
        simp only [chamar, removerRec_deSensor]
        rw [show SensorAVL.remove t v = some t1 from h1]
        rfl
      simp only [executarDe, this]
      exact h'
    | mediana =>
      obtain ⟨t', h', r'⟩ := ih t l hb hz hs hp
      refine ⟨t', ?_, r'⟩
      simp only [executarDe, chamar]
      exact h'

theorem arvore_executar_inv (cs : List Chamada) :
    ∃ t', executar cs = some (deSensor t') ∧ SensorAVL.Balanced t' ∧
      SensorAVL.SizeInv t' ∧ (SensorAVL.inOrder t').Sorted (· ≤ ·) ∧
      (SensorAVL.inOrder t').Perm (conteudo cs) :=
  executarDe_inv cs .null [] trivial trivial (by simp [SensorAVL.inOrder])
    (by simp [SensorAVL.inOrder])

theorem arvore_calcularMediana_eq {raiz : NoAVL} {l : List ℚ}
    (hs : (emOrdem raiz).Sorted (· ≤ ·)) (hp : (emOrdem raiz).Perm l) :
    calcularMediana raiz = medianaPadrao l := by
  rw [← medianaPadrao_perm hp, medianaPadrao_sorted hs, standardMedian_getD]
  simp only [calcularMediana]
  by_cases he : (emOrdem raiz).isEmpty = true
  · rw [if_pos he, if_pos he]
  · rw [if_neg he, if_neg he]
    by_cases hpar : (emOrdem raiz).length % 2 = 1
    · rw [if_pos (by omega), if_pos hpar]
    · rw [if_neg (by omega), if_neg hpar]

end ArvoreBalanceada

/-! ## The claims -/

/-- C1: every sequence of public `insert` / `remove` calls on an empty
`SensorAVL` runs through, and on the resulting tree `median()` is the
standard median of the in-order key sequence whenever that sequence is not
empty (for the empty sequence the standard median is undefined). -/
theorem avl_median_eq_standardMedian (ops : List SensorAVL.Op) :
    ∃ t, SensorAVL.run ops = some t ∧
      standardMedian (SensorAVL.inOrder t) =
        if SensorAVL.inOrder t = [] then none else some (SensorAVL.median t) := by
  obtain ⟨t, ht, _, hz, _⟩ := SensorAVL.run_inv ops
  refine ⟨t, ht, ?_⟩
  split_ifs with he
  · rw [he]; rfl
  · exact SensorAVL.median_eq hz he

/-- C2: every sequence of public `insert` / `remove` calls on an empty
`SensorRedBlack` runs through, and on the resulting tree `median()` is the
standard median of the in-order key sequence whenever that sequence is not
empty. -/
theorem redBlack_median_eq_standardMedian (ops : List SensorRedBlack.Op) :
    ∃ t, SensorRedBlack.run ops = some t ∧
      standardMedian (SensorRedBlack.inOrder t) =
        if SensorRedBlack.inOrder t = [] then none else some (SensorRedBlack.median t) := by
  obtain ⟨t, ht, hz, _⟩ := SensorRedBlack.rb_run_inv ops
  refine ⟨t, ht, ?_⟩
  split_ifs with he
  · rw [he]; rfl
  · exact SensorRedBlack.rb_median_eq hz he

/-- C3: on a tree whose nodes all satisfy the size invariant, for a rank `k`
with `0 ≤ k < size(root)`, `select(root, k)` (red-black) and
`findKthSmallest(root, k + 1)` (AVL) return element `k` of the in-order key
sequence; every tree reached by inserts and removes satisfies the size
invariant. -/
theorem select_eq_inOrder_get (a : SensorAVL.Node) (b : SensorRedBlack.Node) (ka kb : ℤ)
    (ha : SensorAVL.SizeInv a) (hb : SensorRedBlack.SizeInv b)
    (hka : 0 ≤ ka) (hka' : ka < SensorAVL.getSize a)
    (hkb : 0 ≤ kb) (hkb' : kb < SensorRedBlack.size b) :
    (SensorRedBlack.inOrder b)[kb.toNat]? = some (SensorRedBlack.select b kb) ∧
    (SensorAVL.inOrder a)[ka.toNat]? = some (SensorAVL.findKthSmallest a (ka + 1)) ∧
    (∀ t, SensorAVL.Reachable t → SensorAVL.SizeInv t) ∧
    (∀ t, SensorRedBlack.Reachable t → SensorRedBlack.SizeInv t) := by
  refine ⟨SensorRedBlack.select_eq hb kb hkb hkb', ?_,
    fun t ht => (SensorAVL.reachable_inv ht).2.1, fun t ht => (SensorRedBlack.rb_reachable_inv ht).1⟩
  have h := SensorAVL.findKthSmallest_eq ha (ka + 1) (by omega) (by omega)
  rwa [show ka + 1 - 1 = ka by omega] at h

/-- Witness of C3: rank 1 in the AVL tree and in the red-black tree holding
10, 20, 30. -/
theorem select_eq_inOrder_get_witness :
    (SensorRedBlack.inOrder
        (.mk 20 (.mk 10 .null .null false 1) (.mk 30 .null .null false 1) false 3))[(1 : ℤ).toNat]?
      = some (SensorRedBlack.select
        (.mk 20 (.mk 10 .null .null false 1) (.mk 30 .null .null false 1) false 3) 1) ∧
    (SensorAVL.inOrder (.mk 20 2 3 (.mk 10 1 1 .null .null) (.mk 30 1 1 .null .null)))[(1 : ℤ).toNat]?
      = some (SensorAVL.findKthSmallest
        (.mk 20 2 3 (.mk 10 1 1 .null .null) (.mk 30 1 1 .null .null)) (1 + 1)) :=
  have h := select_eq_inOrder_get
    (.mk 20 2 3 (.mk 10 1 1 .null .null) (.mk 30 1 1 .null .null))
    (.mk 20 (.mk 10 .null .null false 1) (.mk 30 .null .null false 1) false 3) 1 1
    (by simp [SensorAVL.SizeInv, SensorAVL.getSize])
    (by simp [SensorRedBlack.SizeInv, SensorRedBlack.size])
    (by decide) (by decide) (by decide) (by decide)
  ⟨h.1, h.2.1⟩

/-- C4 (fails on the code): after `insert(5)`, `insert(5)` the in-order
sequence restricted to `[5, 5]` is `[5, 5]`, but `rangeQueryRec(root, 5, 5)`
reports `[5]` only, in the AVL tree (the second 5 is the right child and
`maxVal > node->key` is false) and in the red-black tree (after the left
rotation the first 5 is the left child and `minVal < node->key` is false). -/
theorem rangeQuery_misses_duplicate :
    (SensorAVL.run [.insert 5, .insert 5]).map
        (fun t => (SensorAVL.rangeQueryRec t 5 5,
          (SensorAVL.inOrder t).filter (fun v => decide (5 ≤ v ∧ v ≤ 5))))
      = some ([5], [5, 5]) ∧
    (SensorRedBlack.run [.insert 5, .insert 5]).map
        (fun t => (SensorRedBlack.rangeQueryRec t 5 5,
          (SensorRedBlack.inOrder t).filter (fun v => decide (5 ≤ v ∧ v ≤ 5))))
      = some ([5], [5, 5]) := by
  constructor <;> decide

/-- C5: every sequence of public `insert` / `remove` calls on an empty
`SensorAVL` runs through and leaves a tree in which every node stores the
height `1 + max(height(left), height(right))` and has children whose heights
differ by at most one. -/
theorem avl_balance_invariant (ops : List SensorAVL.Op) :
    ∃ t, SensorAVL.run ops = some t ∧ SensorAVL.Balanced t := by
  obtain ⟨t, ht, hb, _⟩ := SensorAVL.run_inv ops
  exact ⟨t, ht, hb⟩

/-- C6: every sequence of public `insert` / `remove` calls on an empty
`SensorAVL` runs through and leaves a tree in which every node stores
`1 + size(left) + size(right)`; hence `size(root)` is the number of stored
keys. -/
theorem avl_size_invariant (ops : List SensorAVL.Op) :
    ∃ t, SensorAVL.run ops = some t ∧ SensorAVL.SizeInv t ∧
      SensorAVL.getSize t = (SensorAVL.inOrder t).length := by
  obtain ⟨t, ht, _, hz, _⟩ := SensorAVL.run_inv ops
  exact ⟨t, ht, hz, SensorAVL.getSize_eq_length hz⟩

/-- C7: every sequence of public `insert` / `remove` calls on an empty
`SensorRedBlack` runs through and leaves a tree in which every node stores
`1 + size(left) + size(right)`, although a rotation hands the counter stored
in the old subtree root, whatever it is, to the new subtree root. -/
theorem redBlack_size_invariant (ops : List SensorRedBlack.Op) :
    (∃ t, SensorRedBlack.run ops = some t ∧ SensorRedBlack.SizeInv t) ∧
    (∀ h x, SensorRedBlack.rotateLeft h = some x → SensorRedBlack.size x = SensorRedBlack.size h) ∧
    (∀ h x, SensorRedBlack.rotateRight h = some x →
      SensorRedBlack.size x = SensorRedBlack.size h) := by
  obtain ⟨t, ht, hz, _⟩ := SensorRedBlack.rb_run_inv ops
  refine ⟨⟨t, ht, hz⟩, ?_, ?_⟩
  · intro h x hx
    unfold SensorRedBlack.rotateLeft at hx
    split at hx
    · cases hx; rfl
    · cases hx
  · intro h x hx
    unfold SensorRedBlack.rotateRight at hx
    split at hx
    · cases hx; rfl
    · cases hx

/-- C8: every sequence of public `insert` / `remove` calls on an empty tree,
AVL or red-black, runs through and leaves a tree whose in-order key sequence
is non-decreasing. -/
theorem inOrder_sorted (opsA : List SensorAVL.Op) (opsB : List SensorRedBlack.Op) :
    (∃ t, SensorAVL.run opsA = some t ∧ (SensorAVL.inOrder t).Sorted (· ≤ ·)) ∧
    (∃ t, SensorRedBlack.run opsB = some t ∧ (SensorRedBlack.inOrder t).Sorted (· ≤ ·)) := by
  obtain ⟨a, ha, _, _, hsa⟩ := SensorAVL.run_inv opsA
  obtain ⟨b, hb, _, hsb⟩ := SensorRedBlack.rb_run_inv opsB
  exact ⟨⟨a, ha, hsa⟩, ⟨b, hb, hsb⟩⟩

/-- C9: on every reachable tree, AVL or red-black, `insert` of any key `v`
succeeds; the in-order sequence of the result is a permutation of the old one
with one more `v`, and `size(root)` grows by exactly 1, also when `v` is
already present. -/
theorem insert_adds_one_key (a : SensorAVL.Node) (b : SensorRedBlack.Node) (v : ℚ)
    (ha : SensorAVL.Reachable a) (hb : SensorRedBlack.Reachable b) :
    (∃ a', SensorAVL.insert a v = some a' ∧
      (SensorAVL.inOrder a').Perm (v :: SensorAVL.inOrder a) ∧
      SensorAVL.getSize a' = SensorAVL.getSize a + 1) ∧
    (∃ b', SensorRedBlack.insertValue b v = some b' ∧
      (SensorRedBlack.inOrder b').Perm (v :: SensorRedBlack.inOrder b) ∧
      SensorRedBlack.size b' = SensorRedBlack.size b + 1) := by
  obtain ⟨hba, hza, _⟩ := SensorAVL.reachable_inv ha
  obtain ⟨hzb, _⟩ := SensorRedBlack.rb_reachable_inv hb
  constructor
  · obtain ⟨a', ha', _⟩ := SensorAVL.insert_balanced a v hba
    have hp := SensorAVL.insert_perm ha'
    refine ⟨a', ha', hp, ?_⟩
    rw [SensorAVL.getSize_eq_length (SensorAVL.insert_sizeInv hza ha'),
      SensorAVL.getSize_eq_length hza, hp.length_eq]
    simp
  · obtain ⟨b', hb', hv⟩ := SensorRedBlack.insertValue_eq b v
    have hp := SensorRedBlack.rb_insert_perm hb'
    refine ⟨_, hv, by rw [SensorRedBlack.inOrder_blacken]; exact hp, ?_⟩
    rw [SensorRedBlack.size_eq_length
        (SensorRedBlack.sizeInv_blacken (SensorRedBlack.rb_insert_sizeInv hzb hb')),
      SensorRedBlack.size_eq_length hzb, SensorRedBlack.inOrder_blacken, hp.length_eq]
    simp

/-- Witness of C9: inserting a second 5 into the trees that hold 5. -/
theorem insert_adds_one_key_witness :
    (∃ a', SensorAVL.insert (.mk 5 1 1 .null .null) 5 = some a' ∧
      (SensorAVL.inOrder a').Perm (5 :: SensorAVL.inOrder (.mk 5 1 1 .null .null)) ∧
      SensorAVL.getSize a' = SensorAVL.getSize (.mk 5 1 1 .null .null) + 1) ∧
    (∃ b', SensorRedBlack.insertValue (.mk 5 .null .null false 1) 5 = some b' ∧
      (SensorRedBlack.inOrder b').Perm
        (5 :: SensorRedBlack.inOrder (.mk 5 .null .null false 1)) ∧
      SensorRedBlack.size b' = SensorRedBlack.size (.mk 5 .null .null false 1) + 1) :=
  insert_adds_one_key (.mk 5 1 1 .null .null) (.mk 5 .null .null false 1) 5
    ⟨[.insert 5], by decide⟩ ⟨[.insert 5], by decide⟩

/-- C10: on every reachable tree, AVL or red-black, `remove` of a key `v`
that occurs in the tree succeeds; the in-order sequence of the result is the
old one with exactly one occurrence of `v` deleted, and `size(root)` drops by
exactly 1, also when `v` occurs several times and when the matching node has
two children. -/
theorem remove_deletes_one_key (a : SensorAVL.Node) (b : SensorRedBlack.Node) (va vb : ℚ)
    (ha : SensorAVL.Reachable a) (hb : SensorRedBlack.Reachable b)
    (hva : va ∈ SensorAVL.inOrder a) (hvb : vb ∈ SensorRedBlack.inOrder b) :
    (∃ a', SensorAVL.remove a va = some a' ∧
      SensorAVL.inOrder a' = (SensorAVL.inOrder a).erase va ∧
      (va :: SensorAVL.inOrder a').Perm (SensorAVL.inOrder a) ∧
      SensorAVL.getSize a' = SensorAVL.getSize a - 1) ∧
    (∃ b', SensorRedBlack.removeValue b vb = some b' ∧
      SensorRedBlack.inOrder b' = (SensorRedBlack.inOrder b).erase vb ∧
      (vb :: SensorRedBlack.inOrder b').Perm (SensorRedBlack.inOrder b) ∧
      SensorRedBlack.size b' = SensorRedBlack.size b - 1) := by
  obtain ⟨hba, hza, hsa⟩ := SensorAVL.reachable_inv ha
  obtain ⟨hzb, hsb⟩ := SensorRedBlack.rb_reachable_inv hb
  constructor
  · obtain ⟨a', ha', _⟩ := SensorAVL.remove_balanced a va hba
    have he := SensorAVL.remove_inOrder hsa ha'
    refine ⟨a', ha', he, ?_, ?_⟩
    · rw [he]; exact (List.perm_cons_erase hva).symm
    · have hpos : 0 < (SensorAVL.inOrder a).length := List.length_pos_of_mem hva
      rw [SensorAVL.getSize_eq_length (SensorAVL.remove_sizeInv hza ha'),
        SensorAVL.getSize_eq_length hza, he, List.length_erase_of_mem hva]
      omega
  · obtain ⟨b', hb', hv⟩ := SensorRedBlack.removeValue_eq b vb
    have he := SensorRedBlack.rb_remove_inOrder hsb hb'
    refine ⟨_, hv, by rw [SensorRedBlack.inOrder_blacken]; exact he, ?_, ?_⟩
    · rw [SensorRedBlack.inOrder_blacken, he]; exact (List.perm_cons_erase hvb).symm
    · have hpos : 0 < (SensorRedBlack.inOrder b).length := List.length_pos_of_mem hvb
      rw [SensorRedBlack.size_eq_length
          (SensorRedBlack.sizeInv_blacken (SensorRedBlack.rb_remove_sizeInv hzb hb')),
        SensorRedBlack.size_eq_length hzb, SensorRedBlack.inOrder_blacken, he,
        List.length_erase_of_mem hvb]
      omega

/-- Witness of C10: removing 20 where it occurs twice and the matching node
has two children. -/
theorem remove_deletes_one_key_witness :
    (∃ a', SensorAVL.remove
        (.mk 20 3 4 (.mk 10 1 1 .null .null) (.mk 30 2 2 (.mk 20 1 1 .null .null) .null)) 20
        = some a' ∧
      SensorAVL.inOrder a' = (SensorAVL.inOrder
        (.mk 20 3 4 (.mk 10 1 1 .null .null) (.mk 30 2 2 (.mk 20 1 1 .null .null) .null))).erase 20 ∧
      (20 :: SensorAVL.inOrder a').Perm (SensorAVL.inOrder
        (.mk 20 3 4 (.mk 10 1 1 .null .null) (.mk 30 2 2 (.mk 20 1 1 .null .null) .null))) ∧
      SensorAVL.getSize a' = SensorAVL.getSize
        (.mk 20 3 4 (.mk 10 1 1 .null .null) (.mk 30 2 2 (.mk 20 1 1 .null .null) .null)) - 1) ∧
    (∃ b', SensorRedBlack.removeValue
        (.mk 25 (.mk 20 (.mk 10 .null .null false 1) (.mk 20 .null .null false 1) true 3)
          (.mk 30 .null .null false 1) false 5) 20 = some b' ∧
      SensorRedBlack.inOrder b' = (SensorRedBlack.inOrder
        (.mk 25 (.mk 20 (.mk 10 .null .null false 1) (.mk 20 .null .null false 1) true 3)
          (.mk 30 .null .null false 1) false 5)).erase 20 ∧
      (20 :: SensorRedBlack.inOrder b').Perm (SensorRedBlack.inOrder
        (.mk 25 (.mk 20 (.mk 10 .null .null false 1) (.mk 20 .null .null false 1) true 3)
          (.mk 30 .null .null false 1) false 5)) ∧
      SensorRedBlack.size b' = SensorRedBlack.size
        (.mk 25 (.mk 20 (.mk 10 .null .null false 1) (.mk 20 .null .null false 1) true 3)
          (.mk 30 .null .null false 1) false 5) - 1) :=
  remove_deletes_one_key
    (.mk 20 3 4 (.mk 10 1 1 .null .null) (.mk 30 2 2 (.mk 20 1 1 .null .null) .null))
    (.mk 25 (.mk 20 (.mk 10 .null .null false 1) (.mk 20 .null .null false 1) true 3)
      (.mk 30 .null .null false 1) false 5) 20 20
    ⟨[.insert 20, .insert 10, .insert 30, .insert 20], by decide⟩
    ⟨[.insert 20, .insert 10, .insert 30, .insert 25, .insert 20], by decide⟩
    (by decide) (by decide)

/-- C11: removing a key that does not occur leaves the in-order key sequence
and the number of stored keys unchanged: in every AVL tree that satisfies the
height invariant (the stored heights steer the rotations) and in every
red-black tree the call returns, the in-order sequence and its length are the
same, and `size(root)` is the same when the size invariant holds. -/
theorem remove_absent_unchanged (a : SensorAVL.Node) (b : SensorRedBlack.Node) (va vb : ℚ)
    (ha : SensorAVL.Balanced a) (hva : va ∉ SensorAVL.inOrder a)
    (hvb : vb ∉ SensorRedBlack.inOrder b) :
    (∃ a', SensorAVL.remove a va = some a' ∧
      SensorAVL.inOrder a' = SensorAVL.inOrder a ∧
      (SensorAVL.inOrder a').length = (SensorAVL.inOrder a).length ∧
      (SensorAVL.SizeInv a → SensorAVL.getSize a' = SensorAVL.getSize a)) ∧
    (∃ b', SensorRedBlack.removeValue b vb = some b' ∧
      SensorRedBlack.inOrder b' = SensorRedBlack.inOrder b ∧
      (SensorRedBlack.inOrder b').length = (SensorRedBlack.inOrder b).length ∧
      (SensorRedBlack.SizeInv b → SensorRedBlack.size b' = SensorRedBlack.size b)) := by
  constructor
  · obtain ⟨a', ha', _⟩ := SensorAVL.remove_balanced a va ha
    have he := SensorAVL.remove_absent_inOrder hva ha'
    refine ⟨a', ha', he, by rw [he], fun hz => ?_⟩
    rw [SensorAVL.getSize_eq_length (SensorAVL.remove_sizeInv hz ha'),
      SensorAVL.getSize_eq_length hz, he]
  · obtain ⟨b', hb', hv⟩ := SensorRedBlack.removeValue_eq b vb
    have he := SensorRedBlack.rb_remove_absent_inOrder hvb hb'
    refine ⟨_, hv, by rw [SensorRedBlack.inOrder_blacken, he],
      by rw [SensorRedBlack.inOrder_blacken, he], fun hz => ?_⟩
    rw [SensorRedBlack.size_eq_length
        (SensorRedBlack.sizeInv_blacken (SensorRedBlack.rb_remove_sizeInv hz hb')),
      SensorRedBlack.size_eq_length hz, SensorRedBlack.inOrder_blacken, he]

/-- Witness of C11: removing 15 from the trees that hold 10, 20, 30. -/
theorem remove_absent_unchanged_witness :
    (∃ a', SensorAVL.remove (.mk 20 2 3 (.mk 10 1 1 .null .null) (.mk 30 1 1 .null .null)) 15
        = some a' ∧
      SensorAVL.inOrder a' =
        SensorAVL.inOrder (.mk 20 2 3 (.mk 10 1 1 .null .null) (.mk 30 1 1 .null .null)) ∧
      (SensorAVL.inOrder a').length = (SensorAVL.inOrder
        (.mk 20 2 3 (.mk 10 1 1 .null .null) (.mk 30 1 1 .null .null))).length ∧
      (SensorAVL.SizeInv (.mk 20 2 3 (.mk 10 1 1 .null .null) (.mk 30 1 1 .null .null)) →
        SensorAVL.getSize a' = SensorAVL.getSize
          (.mk 20 2 3 (.mk 10 1 1 .null .null) (.mk 30 1 1 .null .null)))) ∧
    (∃ b', SensorRedBlack.removeValue
        (.mk 20 (.mk 10 .null .null false 1) (.mk 30 .null .null false 1) false 3) 15
        = some b' ∧
      SensorRedBlack.inOrder b' = SensorRedBlack.inOrder
        (.mk 20 (.mk 10 .null .null false 1) (.mk 30 .null .null false 1) false 3) ∧
      (SensorRedBlack.inOrder b').length = (SensorRedBlack.inOrder
        (.mk 20 (.mk 10 .null .null false 1) (.mk 30 .null .null false 1) false 3)).length ∧
      (SensorRedBlack.SizeInv
          (.mk 20 (.mk 10 .null .null false 1) (.mk 30 .null .null false 1) false 3) →
        SensorRedBlack.size b' = SensorRedBlack.size
          (.mk 20 (.mk 10 .null .null false 1) (.mk 30 .null .null false 1) false 3))) :=
  remove_absent_unchanged
    (.mk 20 2 3 (.mk 10 1 1 .null .null) (.mk 30 1 1 .null .null))
    (.mk 20 (.mk 10 .null .null false 1) (.mk 30 .null .null false 1) false 3) 15 15
    (by simp [SensorAVL.Balanced, SensorAVL.height])
    (by decide) (by decide)

/-- C12: for every tree, AVL or red-black, and every `k ≥ 0`, `getMinK`
prints the first `min(k, size)` keys of the in-order sequence and `getMaxK`
the first `min(k, size)` keys of the reversed in-order sequence (all keys when
`k` exceeds the size), and the counter ends at `k - min(k, size)`. -/
theorem kExtremes_eq_take (a : SensorAVL.Node) (b : SensorRedBlack.Node) (k : ℤ)
    (hk : 0 ≤ k) :
    (SensorAVL.getMinK a k =
        ((SensorAVL.inOrder a).take k.toNat, k - min k ((SensorAVL.inOrder a).length : ℤ)) ∧
      SensorAVL.getMaxK a k =
        ((SensorAVL.inOrder a).reverse.take k.toNat,
          k - min k ((SensorAVL.inOrder a).length : ℤ)) ∧
      (((SensorAVL.inOrder a).take k.toNat).length : ℤ)
        = min k ((SensorAVL.inOrder a).length : ℤ)) ∧
    (SensorRedBlack.getMinK b k =
        ((SensorRedBlack.inOrder b).take k.toNat,
          k - min k ((SensorRedBlack.inOrder b).length : ℤ)) ∧
      SensorRedBlack.getMaxK b k =
        ((SensorRedBlack.inOrder b).reverse.take k.toNat,
          k - min k ((SensorRedBlack.inOrder b).length : ℤ)) ∧
      (((SensorRedBlack.inOrder b).take k.toNat).length : ℤ)
        = min k ((SensorRedBlack.inOrder b).length : ℤ)) := by
  refine ⟨⟨SensorAVL.getMinK_eq a k hk, SensorAVL.getMaxK_eq a k hk, ?_⟩,
    ⟨SensorRedBlack.rb_getMinK_eq b k hk, SensorRedBlack.rb_getMaxK_eq b k hk, ?_⟩⟩
  · rw [List.length_take]; omega
  · rw [List.length_take]; omega

/-- Witness of C12: `k = 5` on the trees that hold 10, 20, 30, where `k`
exceeds the size. -/
theorem kExtremes_eq_take_witness :
    SensorAVL.getMinK (.mk 20 2 3 (.mk 10 1 1 .null .null) (.mk 30 1 1 .null .null)) 5
      = ([10, 20, 30], 2) ∧
    SensorRedBlack.getMaxK
      (.mk 20 (.mk 10 .null .null false 1) (.mk 30 .null .null false 1) false 3) 5
      = ([30, 20, 10], 2) := by
  have h := kExtremes_eq_take
    (.mk 20 2 3 (.mk 10 1 1 .null .null) (.mk 30 1 1 .null .null))
    (.mk 20 (.mk 10 .null .null false 1) (.mk 30 .null .null false 1) false 3) 5 (by decide)
  refine ⟨h.1.1.trans (by decide), h.2.2.1.trans (by decide)⟩

/-- C13: after every sequence of public `insert` calls on an empty
`SensorRedBlack` the root is BLACK, no node has a RED right child and no RED
node has a RED left child. -/
theorem redBlack_colour_invariants (vs : List ℚ) :
    ∃ t, SensorRedBlack.runInserts vs = some t ∧ SensorRedBlack.isRed t = false ∧
      SensorRedBlack.ColourInv t := by
  obtain ⟨t, e, h1, h2, _⟩ :=
    SensorRedBlack.runFrom_inserts_colour vs (t := .null) trivial rfl trivial
  exact ⟨t, e, h2, h1⟩

/-- C14: after every sequence of public `insert` calls on an empty
`SensorRedBlack` all paths from the root to an empty link pass through the
same number of BLACK nodes. -/
theorem redBlack_black_balance (vs : List ℚ) :
    ∃ t, SensorRedBlack.runInserts vs = some t ∧ SensorRedBlack.BlackBalanced t := by
  obtain ⟨t, e, _, _, h3⟩ :=
    SensorRedBlack.runFrom_inserts_colour vs (t := .null) trivial rfl trivial
  exact ⟨t, e, SensorRedBlack.blackBalanced_of_inv h3⟩

/-- C15: deletion does not keep the black-balance: after `insert` of 10, 20,
30 the tree is black-balanced and holds 10; after `remove(10)` the leftmost
path passes through 1 BLACK node and the other paths through 2, while the
size invariant and the order of the in-order sequence still hold. -/
theorem redBlack_remove_breaks_black_balance :
    ∃ (vs : List ℚ) (key : ℚ) (t t' : SensorRedBlack.Node),
      SensorRedBlack.runInserts vs = some t ∧ key ∈ SensorRedBlack.inOrder t ∧
      SensorRedBlack.BlackBalanced t ∧
      SensorRedBlack.removeValue t key = some t' ∧
      SensorRedBlack.blackCounts t' = [1, 2, 2] ∧
      ¬ SensorRedBlack.BlackBalanced t' ∧
      SensorRedBlack.SizeInv t' ∧ (SensorRedBlack.inOrder t').Sorted (· ≤ ·) := by
  refine ⟨[10, 20, 30], 10,
    .mk 20 (.mk 10 .null .null false 1) (.mk 30 .null .null false 1) false 3,
    .mk 20 .null (.mk 30 .null .null false 1) false 2, by decide, by decide, ?_, by decide,
    by decide, ?_, ?_, ?_⟩
  · unfold SensorRedBlack.BlackBalanced; decide
  · unfold SensorRedBlack.BlackBalanced; decide
  · simp [SensorRedBlack.SizeInv, SensorRedBlack.size]
  · norm_num [SensorRedBlack.inOrder]

/-- C16: on a tree, AVL or red-black, whose in-order key sequence is
non-decreasing, the output of `rangeQueryRec(root, lo, hi)` is a subsequence
of the in-order sequence, is non-decreasing, holds only keys `v` with
`lo ≤ v ≤ hi`, and is empty when `lo > hi`. -/
theorem rangeQuery_sound (a : SensorAVL.Node) (b : SensorRedBlack.Node) (lo hi : ℚ)
    (ha : (SensorAVL.inOrder a).Sorted (· ≤ ·))
    (hb : (SensorRedBlack.inOrder b).Sorted (· ≤ ·)) :
    ((SensorAVL.rangeQueryRec a lo hi).Sublist (SensorAVL.inOrder a) ∧
      (SensorAVL.rangeQueryRec a lo hi).Sorted (· ≤ ·) ∧
      (∀ v ∈ SensorAVL.rangeQueryRec a lo hi, lo ≤ v ∧ v ≤ hi) ∧
      (hi < lo → SensorAVL.rangeQueryRec a lo hi = [])) ∧
    ((SensorRedBlack.rangeQueryRec b lo hi).Sublist (SensorRedBlack.inOrder b) ∧
      (SensorRedBlack.rangeQueryRec b lo hi).Sorted (· ≤ ·) ∧
      (∀ v ∈ SensorRedBlack.rangeQueryRec b lo hi, lo ≤ v ∧ v ≤ hi) ∧
      (hi < lo → SensorRedBlack.rangeQueryRec b lo hi = [])) := by
  refine ⟨⟨SensorAVL.rangeQueryRec_sublist a lo hi,
      ha.sublist (SensorAVL.rangeQueryRec_sublist a lo hi),
      fun v hv => SensorAVL.rangeQueryRec_mem a lo hi v hv, fun hlt => ?_⟩,
    ⟨SensorRedBlack.rb_rangeQueryRec_sublist b lo hi,
      hb.sublist (SensorRedBlack.rb_rangeQueryRec_sublist b lo hi),
      fun v hv => SensorRedBlack.rb_rangeQueryRec_mem b lo hi v hv, fun hlt => ?_⟩⟩
  · refine List.eq_nil_iff_forall_not_mem.2 (fun v hv => ?_)
    obtain ⟨h1, h2⟩ := SensorAVL.rangeQueryRec_mem a lo hi v hv
    exact absurd (le_trans h1 h2) (not_le.2 hlt)
  · refine List.eq_nil_iff_forall_not_mem.2 (fun v hv => ?_)
    obtain ⟨h1, h2⟩ := SensorRedBlack.rb_rangeQueryRec_mem b lo hi v hv
    exact absurd (le_trans h1 h2) (not_le.2 hlt)

/-- Witness of C16: the range `[15, 35]` on the trees that hold 10, 20, 30. -/
theorem rangeQuery_sound_witness :
    SensorAVL.rangeQueryRec (.mk 20 2 3 (.mk 10 1 1 .null .null) (.mk 30 1 1 .null .null)) 15 35
      = [20, 30] ∧
    (SensorAVL.rangeQueryRec
      (.mk 20 2 3 (.mk 10 1 1 .null .null) (.mk 30 1 1 .null .null)) 15 35).Sorted (· ≤ ·) ∧
    (SensorRedBlack.rangeQueryRec
      (.mk 20 (.mk 10 .null .null false 1) (.mk 30 .null .null false 1) false 3) 15 35).Sorted
        (· ≤ ·) := by
  have h := rangeQuery_sound
    (.mk 20 2 3 (.mk 10 1 1 .null .null) (.mk 30 1 1 .null .null))
    (.mk 20 (.mk 10 .null .null false 1) (.mk 30 .null .null false 1) false 3) 15 35
    (by norm_num [SensorAVL.inOrder]) (by norm_num [SensorRedBlack.inOrder])
  exact ⟨by decide, h.1.2.1, h.2.2.1⟩

/-- C17: on the empty tree, AVL or red-black, `median()` returns 0,
`rangeQueryRec` reports no value for every `lo` and `hi`, and `getMinK` and
`getMaxK` report no value for every `k`. -/
theorem empty_tree_queries :
    SensorAVL.median .null = 0 ∧ SensorRedBlack.median .null = 0 ∧
    (∀ lo hi : ℚ, SensorAVL.rangeQueryRec .null lo hi = [] ∧
      SensorRedBlack.rangeQueryRec .null lo hi = []) ∧
    (∀ k : ℤ, (SensorAVL.getMinK .null k).1 = [] ∧ (SensorAVL.getMaxK .null k).1 = [] ∧
      (SensorRedBlack.getMinK .null k).1 = [] ∧ (SensorRedBlack.getMaxK .null k).1 = []) := by
  refine ⟨?_, ?_, fun lo hi => ⟨rfl, rfl⟩, fun k => ⟨rfl, rfl, rfl, rfl⟩⟩
  · simp [SensorAVL.median, SensorAVL.getSize]
  · simp [SensorRedBlack.median, SensorRedBlack.Node.isNull]

/-- C18: the scenario of the AVL test program: after `insert` of 10, 20, 30,
40, 50, 25 the in-order sequence is 10, 20, 25, 30, 40, 50, `median()` is
27.5 and `rangeQuery(15, 35)` reports 20, 25, 30; after `remove(30)` the
in-order sequence is 10, 20, 25, 40, 50 and `median()` is 25. -/
theorem avl_test_scenario :
    ∃ t t', SensorAVL.run [.insert 10, .insert 20, .insert 30, .insert 40, .insert 50,
        .insert 25] = some t ∧
      SensorAVL.inOrder t = [10, 20, 25, 30, 40, 50] ∧
      SensorAVL.median t = 55 / 2 ∧
      SensorAVL.rangeQueryRec t 15 35 = [20, 25, 30] ∧
      SensorAVL.step t (.remove 30) = some t' ∧
      SensorAVL.inOrder t' = [10, 20, 25, 40, 50] ∧
      SensorAVL.median t' = 25 := by
  refine ⟨.mk 30 3 6 (.mk 20 2 3 (.mk 10 1 1 .null .null) (.mk 25 1 1 .null .null))
      (.mk 40 2 2 .null (.mk 50 1 1 .null .null)),
    .mk 40 3 5 (.mk 20 2 3 (.mk 10 1 1 .null .null) (.mk 25 1 1 .null .null))
      (.mk 50 1 1 .null .null), by decide, by decide, ?_, by decide, by decide, by decide, ?_⟩
  · norm_num [SensorAVL.median, SensorAVL.findKthSmallest, SensorAVL.getSize, Int.tdiv,
      Int.tmod]
  · norm_num [SensorAVL.median, SensorAVL.findKthSmallest, SensorAVL.getSize, Int.tdiv,
      Int.tmod]

/-- C19: after `insert(5)` three times into an empty tree, AVL or red-black,
`size(root)` is 3, the in-order sequence is 5, 5, 5, and the selection of
rank 1 (0-indexed) returns 5. -/
theorem triple_insert_scenario :
    (∃ t, SensorAVL.run [.insert 5, .insert 5, .insert 5] = some t ∧
      SensorAVL.getSize t = 3 ∧ SensorAVL.inOrder t = [5, 5, 5] ∧
      SensorAVL.findKthSmallest t 2 = 5) ∧
    (∃ t, SensorRedBlack.run [.insert 5, .insert 5, .insert 5] = some t ∧
      SensorRedBlack.size t = 3 ∧ SensorRedBlack.inOrder t = [5, 5, 5] ∧
      SensorRedBlack.select t 1 = 5) := by
  refine ⟨⟨.mk 5 2 3 (.mk 5 1 1 .null .null) (.mk 5 1 1 .null .null), by decide, by decide,
      by decide, by decide⟩,
    ⟨.mk 5 (.mk 5 .null .null false 1) (.mk 5 .null .null false 1) false 3, by decide,
      by decide, by decide, by decide⟩⟩

/-- C20: after every sequence of `insert` calls on an empty `SensorHeap`,
`median()` is the standard median of the inserted values in sorted order, and
it is 0 when nothing was inserted. -/
theorem heap_median_eq_standardMedian (vs : List ℚ) :
    standardMedian (vs.insertionSort (· ≤ ·)) =
        (if vs = [] then none
          else some (SensorHeap.median (SensorHeap.insertAll SensorHeap.empty vs))) ∧
      SensorHeap.median (SensorHeap.insertAll SensorHeap.empty []) = 0 := by
  have hinv : SensorHeap.HeapInv SensorHeap.empty [] := by
    refine ⟨?_, ?_, ?_, ?_⟩ <;> simp [SensorHeap.empty]
  obtain ⟨hi, hs⟩ := SensorHeap.insertAll_inv vs hinv (Or.inl rfl)
  rw [List.nil_append] at hi
  exact ⟨SensorHeap.median_of_inv hi hs, rfl⟩

/-- C21 (fails on the code): `remove(value)` runs `removeFromQueue` on both
queues, each with its own `removed` flag, so a value held by both loses two
occurrences.  After `insert(30)`, `insert(30)` each queue holds one 30;
`remove(30)` empties both and `median()` returns 0, while the remaining
value 30 has median 30.  In the scenario of the test program (10, 50, 30, 20,
40, 60, then `remove(30)`) only `maxHeap` holds 30 and the median is 40. -/
theorem heap_remove_drops_both_copies :
    SensorHeap.insertAll SensorHeap.empty [30, 30] = { maxHeap := [30], minHeap := [30] } ∧
    SensorHeap.remove (SensorHeap.insertAll SensorHeap.empty [30, 30]) 30 = SensorHeap.empty ∧
    SensorHeap.median (SensorHeap.remove (SensorHeap.insertAll SensorHeap.empty [30, 30]) 30)
      = 0 ∧
    standardMedian ((([30, 30] : List ℚ).erase 30).insertionSort (· ≤ ·)) = some 30 ∧
    SensorHeap.remove (SensorHeap.insertAll SensorHeap.empty [10, 50, 30, 20, 40, 60]) 30
      = { maxHeap := [40, 20, 10], minHeap := [50, 60] } ∧
    SensorHeap.median
      (SensorHeap.remove (SensorHeap.insertAll SensorHeap.empty [10, 50, 30, 20, 40, 60]) 30)
      = 40 := by
  refine ⟨by decide, by decide, by decide, by decide, by decide, by decide⟩

/-- C22: a rotation returns a tree with the in-order key sequence of its
argument: `leftRotate` / `rotateLeft` on every node with a right child,
`rightRotate` / `rotateRight` on every node with a left child, whatever the
stored heights, sizes and colours. -/
theorem rotations_preserve_inOrder :
    (∀ (kx ky : ℚ) (hx sx hy sy : ℤ) (xl yl yr : SensorAVL.Node),
      (SensorAVL.leftRotate (.mk kx hx sx xl (.mk ky hy sy yl yr))).map SensorAVL.inOrder
        = some (SensorAVL.inOrder (.mk kx hx sx xl (.mk ky hy sy yl yr)))) ∧
    (∀ (kx ky : ℚ) (hx sx hy sy : ℤ) (xl xr yr : SensorAVL.Node),
      (SensorAVL.rightRotate (.mk ky hy sy (.mk kx hx sx xl xr) yr)).map SensorAVL.inOrder
        = some (SensorAVL.inOrder (.mk ky hy sy (.mk kx hx sx xl xr) yr))) ∧
    (∀ (hk xk : ℚ) (hc xc : Bool) (hs xs : ℤ) (hl xl xr : SensorRedBlack.Node),
      (SensorRedBlack.rotateLeft (.mk hk hl (.mk xk xl xr xc xs) hc hs)).map
          SensorRedBlack.inOrder
        = some (SensorRedBlack.inOrder (.mk hk hl (.mk xk xl xr xc xs) hc hs))) ∧
    (∀ (hk xk : ℚ) (hc xc : Bool) (hs xs : ℤ) (xl xr hr : SensorRedBlack.Node),
      (SensorRedBlack.rotateRight (.mk hk (.mk xk xl xr xc xs) hr hc hs)).map
          SensorRedBlack.inOrder
        = some (SensorRedBlack.inOrder (.mk hk (.mk xk xl xr xc xs) hr hc hs))) := by
  refine ⟨?_, ?_, ?_, ?_⟩
  · intros
    simp [SensorAVL.leftRotate, SensorAVL.update, SensorAVL.inOrder]
  · intros
    simp [SensorAVL.rightRotate, SensorAVL.update, SensorAVL.inOrder]
  · intros
    simp [SensorRedBlack.rotateLeft, SensorRedBlack.updateSize, SensorRedBlack.inOrder]
  · intros
    simp [SensorRedBlack.rotateRight, SensorRedBlack.updateSize, SensorRedBlack.inOrder]

/-- C23 (counterexample): on the node 10 with right child 20 whose stored
size is still 1, the state in which `insert` calls the rotation,
`rotateLeft` returns the node 20 with stored size 1 although its children
hold 1 and 0 nodes; `rotateRight` on the mirror image does the same. -/
theorem rotate_copies_stale_size :
    SensorRedBlack.rotateLeft (.mk 10 .null (.mk 20 .null .null true 1) false 1)
      = some (.mk 20 (.mk 10 .null .null true 1) .null false 1) ∧
    ¬ SensorRedBlack.SizeAt (.mk 20 (.mk 10 .null .null true 1) .null false 1) ∧
    SensorRedBlack.rotateRight (.mk 20 (.mk 10 .null .null true 1) .null false 1)
      = some (.mk 10 .null (.mk 20 .null .null true 1) false 1) ∧
    ¬ SensorRedBlack.SizeAt (.mk 10 .null (.mk 20 .null .null true 1) false 1) := by
  refine ⟨by decide, ?_, by decide, ?_⟩
  · simp [SensorRedBlack.SizeAt, SensorRedBlack.size]
  · simp [SensorRedBlack.SizeAt, SensorRedBlack.size]

/-- C23 (amended): `rotateLeft(h)` on a node `h` with right child `x` returns
`x` with `x.left = h` and `h.right` the former `x.left`; the stored size of
`h` is recomputed from its new children, whatever was stored, and the stored
size of `x` is the size `h` stored before the call, which is right for the
new children of `x` when `h` and `x` stored right sizes before the call.
`rotateRight` is the mirror image. -/
theorem rotate_sizes (hk xk : ℚ) (hc xc : Bool) (hs xs : ℤ) (a b c : SensorRedBlack.Node) :
    (SensorRedBlack.rotateLeft (.mk hk a (.mk xk b c xc xs) hc hs)
        = some (.mk xk (.mk hk a b true (1 + SensorRedBlack.size a + SensorRedBlack.size b))
            c hc hs) ∧
      SensorRedBlack.SizeAt
        (.mk hk a b true (1 + SensorRedBlack.size a + SensorRedBlack.size b)) ∧
      (hs = 1 + SensorRedBlack.size a + xs →
        xs = 1 + SensorRedBlack.size b + SensorRedBlack.size c →
        SensorRedBlack.SizeAt
          (.mk xk (.mk hk a b true (1 + SensorRedBlack.size a + SensorRedBlack.size b))
            c hc hs))) ∧
    (SensorRedBlack.rotateRight (.mk hk (.mk xk a b xc xs) c hc hs)
        = some (.mk xk a
            (.mk hk b c true (1 + SensorRedBlack.size b + SensorRedBlack.size c)) hc hs) ∧
      SensorRedBlack.SizeAt
        (.mk hk b c true (1 + SensorRedBlack.size b + SensorRedBlack.size c)) ∧
      (hs = 1 + xs + SensorRedBlack.size c →
        xs = 1 + SensorRedBlack.size a + SensorRedBlack.size b →
        SensorRedBlack.SizeAt
          (.mk xk a (.mk hk b c true (1 + SensorRedBlack.size b + SensorRedBlack.size c))
            hc hs))) := by
  refine ⟨⟨rfl, ?_, fun h1 h2 => ?_⟩, ⟨rfl, ?_, fun h1 h2 => ?_⟩⟩
  · simp only [SensorRedBlack.SizeAt]
  · simp only [SensorRedBlack.SizeAt, SensorRedBlack.size_mk]
    omega
  · simp only [SensorRedBlack.SizeAt]
  · simp only [SensorRedBlack.SizeAt, SensorRedBlack.size_mk]
    omega

/-- Witness of C23 (amended): the node 10 of stored size 2 with right child
20 of stored size 1, and its mirror image, where the sizes stored before the
call are right. -/
theorem rotate_sizes_witness :
    SensorRedBlack.rotateLeft (.mk 10 .null (.mk 20 .null .null true 1) false 2)
      = some (.mk 20 (.mk 10 .null .null true 1) .null false 2) ∧
    SensorRedBlack.SizeAt (.mk 20 (.mk 10 .null .null true 1) .null false 2) ∧
    SensorRedBlack.rotateRight (.mk 10 (.mk 20 .null .null true 1) .null false 2)
      = some (.mk 20 .null (.mk 10 .null .null true 1) false 2) ∧
    SensorRedBlack.SizeAt (.mk 20 .null (.mk 10 .null .null true 1) false 2) :=
  have h := rotate_sizes 10 20 false true 2 1 .null .null .null
  ⟨h.1.1, h.1.2.2 (by decide) (by decide), h.2.1, h.2.2.2 (by decide) (by decide)⟩

/-- C24 (counterexample): after `insert(5)` three times the AVL root 5 has
the left child 5, and after `insert(5)` twice the red-black root 5 has the
left child 5 (the rotation to the left moves the older 5 below the newer
one): a key of the left subtree is not strictly smaller than the key of the
node. -/
theorem duplicate_in_left_subtree :
    SensorAVL.runInserts [5, 5, 5]
      = some (.mk 5 2 3 (.mk 5 1 1 .null .null) (.mk 5 1 1 .null .null)) ∧
    ¬ SensorAVL.StrictOrdered (.mk 5 2 3 (.mk 5 1 1 .null .null) (.mk 5 1 1 .null .null)) ∧
    SensorRedBlack.runInserts [5, 5]
      = some (.mk 5 (.mk 5 .null .null true 1) .null false 2) ∧
    ¬ SensorRedBlack.StrictOrdered (.mk 5 (.mk 5 .null .null true 1) .null false 2) := by
  refine ⟨by decide, ?_, by decide, ?_⟩
  · simp [SensorAVL.StrictOrdered, SensorAVL.inOrder]
  · simp [SensorRedBlack.StrictOrdered, SensorRedBlack.inOrder]

/-- C24 (amended): after any sequence of inserts into an empty tree, AVL or
red-black, at every node the keys of the left subtree are smaller than or
equal to the key of the node and the keys of the right subtree are greater
than or equal to it. -/
theorem inserts_ordered (vs : List ℚ) :
    (∃ a, SensorAVL.runInserts vs = some a ∧ SensorAVL.Ordered a) ∧
    (∃ b, SensorRedBlack.runInserts vs = some b ∧ SensorRedBlack.Ordered b) := by
  constructor
  · obtain ⟨a, ha, _, _, hs⟩ := SensorAVL.run_inv (vs.map SensorAVL.Op.insert)
    exact ⟨a, ha, SensorAVL.ordered_of_sorted hs⟩
  · obtain ⟨b, hb, _, hs⟩ := SensorRedBlack.rb_run_inv (vs.map SensorRedBlack.Op.insert)
    exact ⟨b, hb, SensorRedBlack.rb_ordered_of_sorted hs⟩

/-- C25: on a tree reached from the empty tree by inserts and removes, AVL or
red-black, `remove` of a key that does not occur returns the tree it was
given, with the same shape, keys, stored sizes and heights or colours: every
node on the way back up is rebuilt as it was and no rotation changes it.  In
the red-black tree this holds of the recursive `remove` and of the public
one, which blackens the root. -/
theorem remove_absent_identity (a : SensorAVL.Node) (b : SensorRedBlack.Node) (va vb : ℚ)
    (ha : SensorAVL.Reachable a) (hb : SensorRedBlack.Reachable b)
    (hva : va ∉ SensorAVL.inOrder a) (hvb : vb ∉ SensorRedBlack.inOrder b) :
    SensorAVL.remove a va = some a ∧
    SensorRedBlack.remove b vb = some b ∧
    SensorRedBlack.removeValue b vb = some b := by
  obtain ⟨hbal, hz, _⟩ := SensorAVL.reachable_inv ha
  obtain ⟨hzb, _⟩ := SensorRedBlack.rb_reachable_inv hb
  have hr := SensorRedBlack.rb_remove_absent_self hzb hvb
  refine ⟨SensorAVL.remove_absent_self hbal hz hva, hr, ?_⟩
  obtain ⟨b', hb', hv⟩ := SensorRedBlack.removeValue_eq b vb
  rw [hr] at hb'
  cases hb'
  rw [hv, SensorRedBlack.blacken_of_black (SensorRedBlack.reachable_black hb)]

/-- Witness of C25: `remove(15)` on the trees that hold 10, 20, 30. -/
theorem remove_absent_identity_witness :
    SensorAVL.remove (.mk 20 2 3 (.mk 10 1 1 .null .null) (.mk 30 1 1 .null .null)) 15
      = some (.mk 20 2 3 (.mk 10 1 1 .null .null) (.mk 30 1 1 .null .null)) ∧
    SensorRedBlack.remove
        (.mk 20 (.mk 10 .null .null false 1) (.mk 30 .null .null false 1) false 3) 15
      = some (.mk 20 (.mk 10 .null .null false 1) (.mk 30 .null .null false 1) false 3) ∧
    SensorRedBlack.removeValue
        (.mk 20 (.mk 10 .null .null false 1) (.mk 30 .null .null false 1) false 3) 15
      = some (.mk 20 (.mk 10 .null .null false 1) (.mk 30 .null .null false 1) false 3) :=
  remove_absent_identity _ _ 15 15
    ⟨[.insert 10, .insert 20, .insert 30], by decide⟩
    ⟨[.insert 10, .insert 20, .insert 30], by decide⟩
    (by simp [SensorAVL.inOrder]) (by simp [SensorRedBlack.inOrder])

/-- C26: on a tree whose nodes all satisfy the size invariant, the red-black
`select(root, k)` returns the sentinel -1 for every `k < 0` and every
`k ≥ size(root)`, and the AVL `findKthSmallest(root, k)` returns -1 for every
`k < 1` and every `k > size(root)`; both are total functions that test for
`nullptr` before they read a node. -/
theorem select_out_of_range (a : SensorAVL.Node) (b : SensorRedBlack.Node) (ka kb : ℤ)
    (ha : SensorAVL.SizeInv a) (hb : SensorRedBlack.SizeInv b)
    (hka : ka < 1 ∨ SensorAVL.getSize a < ka)
    (hkb : kb < 0 ∨ SensorRedBlack.size b ≤ kb) :
    SensorAVL.findKthSmallest a ka = -1 ∧ SensorRedBlack.select b kb = -1 := by
  constructor
  · rcases hka with h | h
    · exact SensorAVL.findKthSmallest_lt_one a ha ka h
    · exact SensorAVL.findKthSmallest_gt_size a ha ka h
  · rcases hkb with h | h
    · exact SensorRedBlack.select_neg b hb kb h
    · exact SensorRedBlack.select_ge_size b hb kb h

/-- Witness of C26: rank 4 in the AVL tree and rank 3 in the red-black tree
that hold 10, 20, 30. -/
theorem select_out_of_range_witness :
    SensorAVL.findKthSmallest
        (.mk 20 2 3 (.mk 10 1 1 .null .null) (.mk 30 1 1 .null .null)) 4 = -1 ∧
    SensorRedBlack.select
        (.mk 20 (.mk 10 .null .null false 1) (.mk 30 .null .null false 1) false 3) 3 = -1 :=
  select_out_of_range
    (.mk 20 2 3 (.mk 10 1 1 .null .null) (.mk 30 1 1 .null .null))
    (.mk 20 (.mk 10 .null .null false 1) (.mk 30 .null .null false 1) false 3) 4 3
    (by simp [SensorAVL.SizeInv, SensorAVL.getSize])
    (by simp [SensorRedBlack.SizeInv, SensorRedBlack.size])
    (Or.inr (by decide)) (Or.inr (by decide))

/-- C27: on a tree reached by inserts and removes whose keys are pairwise
distinct, `rangeQueryRec(root, lo, hi)` reports exactly the in-order keys `v`
with `lo ≤ v ≤ hi`, in ascending order, for every `lo` and `hi`: in
`SensorAVL`, in `SensorRedBlack`, and (as `buscarFaixa`) in the
`ArvoreBalanceada` of the benchmark after any calls that leave distinct
values. -/
theorem rangeQuery_complete_distinct (a : SensorAVL.Node) (b : SensorRedBlack.Node)
    (cs : List Chamada) (lo hi : ℚ)
    (ha : SensorAVL.Reachable a) (hb : SensorRedBlack.Reachable b)
    (hda : (SensorAVL.inOrder a).Nodup) (hdb : (SensorRedBlack.inOrder b).Nodup)
    (hdc : (conteudo cs).Nodup) :
    (SensorAVL.rangeQueryRec a lo hi
        = (SensorAVL.inOrder a).filter (fun v => decide (lo ≤ v ∧ v ≤ hi)) ∧
      (SensorAVL.rangeQueryRec a lo hi).Sorted (· < ·)) ∧
    (SensorRedBlack.rangeQueryRec b lo hi
        = (SensorRedBlack.inOrder b).filter (fun v => decide (lo ≤ v ∧ v ≤ hi)) ∧
      (SensorRedBlack.rangeQueryRec b lo hi).Sorted (· < ·)) ∧
    (∃ raiz, ArvoreBalanceada.executar cs = some raiz ∧
      ArvoreBalanceada.buscarFaixa raiz lo hi
        = (ArvoreBalanceada.emOrdem raiz).filter (fun v => decide (lo ≤ v ∧ v ≤ hi)) ∧
      (ArvoreBalanceada.buscarFaixa raiz lo hi).Sorted (· < ·)) := by
  have hsa := ((SensorAVL.reachable_inv ha).2.2).lt_of_le hda
  have hsb := ((SensorRedBlack.rb_reachable_inv hb).2).lt_of_le hdb
  have ea := SensorAVL.rangeQueryRec_eq_filter a lo hi hsa
  have eb := SensorRedBlack.rb_rangeQueryRec_eq_filter b lo hi hsb
  obtain ⟨t, ht, _, _, hst, hpt⟩ := ArvoreBalanceada.arvore_executar_inv cs
  have hsc := hst.lt_of_le (hpt.nodup_iff.mpr hdc)
  have ec := SensorAVL.rangeQueryRec_eq_filter t lo hi hsc
  refine ⟨⟨ea, ?_⟩, ⟨eb, ?_⟩, ⟨_, ht, ?_, ?_⟩⟩
  · rw [ea]; exact hsa.filter _
  · rw [eb]; exact hsb.filter _
  · rw [ArvoreBalanceada.buscarFaixa_deSensor, ArvoreBalanceada.emOrdem_deSensor]
    exact ec
  · rw [ArvoreBalanceada.buscarFaixa_deSensor, ec]
    exact hsc.filter _

/-- Witness of C27: the range from 15 to 25 on the three trees that hold 10,
20, 30. -/
theorem rangeQuery_complete_distinct_witness :
    (SensorAVL.rangeQueryRec
          (.mk 20 2 3 (.mk 10 1 1 .null .null) (.mk 30 1 1 .null .null)) 15 25
        = (SensorAVL.inOrder
            (.mk 20 2 3 (.mk 10 1 1 .null .null) (.mk 30 1 1 .null .null))).filter
          (fun v => decide ((15 : ℚ) ≤ v ∧ v ≤ 25)) ∧
      (SensorAVL.rangeQueryRec
          (.mk 20 2 3 (.mk 10 1 1 .null .null) (.mk 30 1 1 .null .null)) 15 25).Sorted
        (· < ·)) ∧
    (SensorRedBlack.rangeQueryRec
          (.mk 20 (.mk 10 .null .null false 1) (.mk 30 .null .null false 1) false 3) 15 25
        = (SensorRedBlack.inOrder
            (.mk 20 (.mk 10 .null .null false 1) (.mk 30 .null .null false 1) false 3)).filter
          (fun v => decide ((15 : ℚ) ≤ v ∧ v ≤ 25)) ∧
      (SensorRedBlack.rangeQueryRec
          (.mk 20 (.mk 10 .null .null false 1) (.mk 30 .null .null false 1) false 3)
          15 25).Sorted (· < ·)) ∧
    (∃ raiz, ArvoreBalanceada.executar [.inserir 10, .inserir 20, .inserir 30] = some raiz ∧
      ArvoreBalanceada.buscarFaixa raiz 15 25
        = (ArvoreBalanceada.emOrdem raiz).filter (fun v => decide ((15 : ℚ) ≤ v ∧ v ≤ 25)) ∧
      (ArvoreBalanceada.buscarFaixa raiz 15 25).Sorted (· < ·)) :=
  rangeQuery_complete_distinct
    (.mk 20 2 3 (.mk 10 1 1 .null .null) (.mk 30 1 1 .null .null))
    (.mk 20 (.mk 10 .null .null false 1) (.mk 30 .null .null false 1) false 3)
    [.inserir 10, .inserir 20, .inserir 30] 15 25
    ⟨[.insert 10, .insert 20, .insert 30], by decide⟩
    ⟨[.insert 10, .insert 20, .insert 30], by decide⟩
    (by decide) (by decide) (by decide)

/-- C28: every sequence of public `insert` / `remove` calls on an empty
`SensorAVL` returns a tree with `n` keys and root height `h ≥ 0` such that
`Fib(h + 2) ≤ n + 1` and `2 ^ (h / 2) ≤ n + 1`. -/
theorem avl_height_logarithmic (ops : List SensorAVL.Op) :
    ∃ t, SensorAVL.run ops = some t ∧ 0 ≤ SensorAVL.height t ∧
      SensorAVL.getSize t = ((SensorAVL.inOrder t).length : ℤ) ∧
      Nat.fib ((SensorAVL.height t).toNat + 2) ≤ (SensorAVL.inOrder t).length + 1 ∧
      2 ^ ((SensorAVL.height t).toNat / 2) ≤ (SensorAVL.inOrder t).length + 1 := by
  obtain ⟨t, ht, hb, hz, _⟩ := SensorAVL.run_inv ops
  have hf := SensorAVL.fib_le_length hb
  exact ⟨t, ht, SensorAVL.height_nonneg hb, SensorAVL.getSize_eq_length hz, hf,
    le_trans (two_pow_le_fib _) hf⟩

/-- C29: after every sequence of `inserir`, `remover` and `calcularMediana`
calls, made alike on an empty `MinHeapCustomizado`, an empty
`ArvoreBalanceada` and an empty `ListaOrdenadaManual`, every call returns and
the three `calcularMediana()` results are equal: each is the standard median
of the values obtained by adding each inserted value and deleting one
occurrence of each removed value that is present, and 0 when no value is
left. -/
theorem benchmark_medians_agree (cs : List Chamada) :
    ∃ raiz, ArvoreBalanceada.executar cs = some raiz ∧
      MinHeapCustomizado.calcularMediana (MinHeapCustomizado.executar cs)
        = medianaPadrao (conteudo cs) ∧
      ArvoreBalanceada.calcularMediana raiz = medianaPadrao (conteudo cs) ∧
      (ListaOrdenadaManual.calcularMediana (ListaOrdenadaManual.executar cs)).1
        = medianaPadrao (conteudo cs) ∧
      (conteudo cs = [] → medianaPadrao (conteudo cs) = 0) ∧
      (conteudo cs ≠ [] →
        standardMedian ((conteudo cs).insertionSort (· ≤ ·))
          = some (medianaPadrao (conteudo cs))) := by
  obtain ⟨t, ht, _, _, hst, hpt⟩ := ArvoreBalanceada.arvore_executar_inv cs
  obtain ⟨hpl, hsl⟩ := ListaOrdenadaManual.lista_executar_inv cs
  refine ⟨_, ht, ?_, ?_, ListaOrdenadaManual.lista_calcularMediana_eq hpl hsl, fun h => ?_,
    fun h => ?_⟩
  · rw [MinHeapCustomizado.heap_calcularMediana_eq]
    exact medianaPadrao_perm (MinHeapCustomizado.executar_perm cs)
  · apply ArvoreBalanceada.arvore_calcularMediana_eq
    · rw [ArvoreBalanceada.emOrdem_deSensor]; exact hst
    · rw [ArvoreBalanceada.emOrdem_deSensor]; exact hpt
  · rw [h]; simp [medianaPadrao, standardMedian]
  · apply standardMedian_isSome
    intro h0
    have := (List.perm_insertionSort (· ≤ ·) (conteudo cs)).length_eq
    rw [h0] at this
    exact h (List.length_eq_zero.mp this.symm)

/-- C30 (fails on the code): on the list 10, 20, 30 (the state after
`insert` of 10, 20, 30) `rangeQuery(25, 15)` computes `lower_bound(25)` at
index 2 and `upper_bound(15)` at index 1; neither guard fires
(`itStart` is not `end()` and differs from `itEnd`), and the loop steps `it`
from 2 to `end()` without meeting `itEnd` and reads `*end()`. -/
theorem lista_rangeQuery_leaves_vector :
    SensorListaOrdenada.insertAll [10, 20, 30] = [10, 20, 30] ∧
    SensorListaOrdenada.lowerBound [10, 20, 30] 25 = 2 ∧
    SensorListaOrdenada.upperBound [10, 20, 30] 15 = 1 ∧
    SensorListaOrdenada.rangeQuery [10, 20, 30] 25 15 = none ∧
    SensorListaOrdenada.rangeQuery [10, 20, 30] 15 25 = some [20] := by
  refine ⟨by decide, by decide, by decide, by decide, by decide⟩
